import Mathlib

/-!
Verification of the kodachi repository's natural-language specification against
a shallow embedding of its Python sources.

The embedding covers:
* the host attribute model (`Attr`, group builders with build-and-flush
  semantics, as documented for the host's `FnAttribute.GroupBuilder`);
* `generate_implicit_resolvers_list.py` (the implicit-resolver collection
  generator, including the shared mutable `op_gb` builder that the
  `register*` helper functions reuse);
* the DreamGaffer SuperTool caches (`Cache.py`, `InternalControl.py`,
  `Helper.py`): location -> slot-index bookkeeping, add/remove/rename/
  duplicate, and the light / light-filter cross-cache rename dispatch;
* the MoonrayRenderManager op-tree sender (`MoonrayRenderManager.py`):
  delta emission, graph-state hash comparison, live-attribute throttling and
  the `getOps` / `buildOpChain` op-chain walk.

Host-side API that is not part of the repository (Python dicts and lists,
`os.path.dirname`/`basename`, `str()`, the host's GroupBuilder) is modelled
with its standard documented semantics; every fact a theorem depends on is
carried explicitly by the corresponding definition.
-/

namespace Kodachi

/-! ## Python dict / list model

Python dicts are modelled as insertion-ordered association lists with
replace-in-place update, exactly the observable behaviour the embedded code
relies on (`d[k] = v`, `d.pop(k)`, `k in d`, `len(d)`, iteration order). -/

def dictGet {κ α : Type} [DecidableEq κ] (k : κ) : List (κ × α) → Option α
  | [] => none
  | (k', v) :: r => if k' = k then some v else dictGet k r

def dictSet {κ α : Type} [DecidableEq κ] (k : κ) (v : α) : List (κ × α) → List (κ × α)
  | [] => [(k, v)]
  | (k', v') :: r => if k' = k then (k, v) :: r else (k', v') :: dictSet k v r

def dictPop {κ α : Type} [DecidableEq κ] (k : κ) : List (κ × α) → Option (α × List (κ × α))
  | [] => none
  | (k', v) :: r =>
    if k' = k then some (v, r)
    else (dictPop k r).map (fun p => (p.1, (k', v) :: p.2))

def dictDelete {κ α : Type} [DecidableEq κ] (k : κ) : List (κ × α) → List (κ × α)
  | [] => []
  | (k', v) :: r => if k' = k then r else (k', v) :: dictDelete k r

def dictKeys {κ α : Type} (l : List (κ × α)) : List κ := l.map Prod.fst

def dictContains {κ α : Type} [DecidableEq κ] (k : κ) (l : List (κ × α)) : Bool :=
  (dictGet k l).isSome

/-! ## The host attribute-group model

The host's `FnAttribute` values: int, string, float and group attributes.
Float payloads are carried opaquely (no arithmetic is ever performed on them
by the embedded code), as an uninterpreted bit payload. -/

inductive Attr where
  | int (n : Int)
  | str (s : String)
  | flt (bits : Nat)
  | group (children : List (String × Attr))

mutual

def Attr.beq : Attr → Attr → Bool
  | .int a, .int b => a == b
  | .str a, .str b => a == b
  | .flt a, .flt b => a == b
  | .group a, .group b => attrListBeq a b
  | _, _ => false

def attrListBeq : List (String × Attr) → List (String × Attr) → Bool
  | [], [] => true
  | (k, v) :: r, (k', v') :: r' => k == k' && Attr.beq v v' && attrListBeq r r'
  | _, _ => false

end

mutual

theorem Attr.beq_iff : ∀ a b : Attr, Attr.beq a b = true ↔ a = b
  | .int a, .int b => by simp [Attr.beq]
  | .str a, .str b => by simp [Attr.beq]
  | .flt a, .flt b => by simp [Attr.beq]
  | .group a, .group b => by
      simp only [Attr.beq, attrListBeq_iff a b, Attr.group.injEq]
  | .int _, .str _ => by simp [Attr.beq]
  | .int _, .flt _ => by simp [Attr.beq]
  | .int _, .group _ => by simp [Attr.beq]
  | .str _, .int _ => by simp [Attr.beq]
  | .str _, .flt _ => by simp [Attr.beq]
  | .str _, .group _ => by simp [Attr.beq]
  | .flt _, .int _ => by simp [Attr.beq]
  | .flt _, .str _ => by simp [Attr.beq]
  | .flt _, .group _ => by simp [Attr.beq]
  | .group _, .int _ => by simp [Attr.beq]
  | .group _, .str _ => by simp [Attr.beq]
  | .group _, .flt _ => by simp [Attr.beq]

theorem attrListBeq_iff : ∀ a b : List (String × Attr), attrListBeq a b = true ↔ a = b
  | [], [] => by simp [attrListBeq]
  | (k, v) :: r, (k', v') :: r' => by
      simp [attrListBeq, Attr.beq_iff v v', attrListBeq_iff r r', and_assoc]
  | [], (_, _) :: _ => by simp [attrListBeq]
  | (_, _) :: _, [] => by simp [attrListBeq]

end

instance : DecidableEq Attr := fun a b => decidable_of_iff _ (Attr.beq_iff a b)

/-- Contents of a host GroupBuilder: an insertion-ordered key/value list.
Setting an existing name replaces the value in place. -/
abbrev GB := List (String × Attr)

/-- GroupBuilder.set: replace in place, or append a fresh name at the end. -/
def gbSet (gb : GB) (k : String) (v : Attr) : GB := dictSet k v gb

/-- GroupBuilder.build(): returns the built group and flushes the builder.
The host's default build mode resets the builder's contents to empty. -/
def gbBuild (gb : GB) : Attr × GB := (Attr.group gb, [])

/-- getChildByName on an attribute: child lookup on groups, nothing else. -/
def Attr.childByName : Attr → String → Option Attr
  | .group cs, k => dictGet k cs
  | _, _ => none

/-! ## Python `str(i)` for natural numbers

A structural model of the decimal representation of a natural number
(`pyStr`), kernel-computable and provably injective.  Python's `str(i)` for
`i : Nat` is exactly this decimal string. -/

def digitsAux : Nat → Nat → List Char
  | _, 0 => []
  | 0, _ + 1 => []
  | f + 1, n + 1 => Nat.digitChar ((n + 1) % 10) :: digitsAux f ((n + 1) / 10)

/-- Python decimal representation of a natural number. -/
def pyStr (n : Nat) : String :=
  if n = 0 then "0" else String.mk (digitsAux n n).reverse

/-- Numeric value of a little-endian digit-character list; inverse used only
to prove `pyStr` injective. -/
def digitVal (c : Char) : Nat := c.toNat - 48

def valAux (l : List Char) : Nat := l.foldr (fun c acc => digitVal c + 10 * acc) 0

theorem digitVal_digitChar : ∀ d : Nat, d < 10 → digitVal (Nat.digitChar d) = d := by
  decide

theorem valAux_digitsAux : ∀ f n : Nat, n ≤ f → valAux (digitsAux f n) = n := by
  intro f
  induction f with
  | zero => intro n hn; interval_cases n; simp [digitsAux, valAux]
  | succ f ih =>
    intro n hn
    match n with
    | 0 => simp [digitsAux, valAux]
    | m + 1 =>
      have hdiv : (m + 1) / 10 ≤ f := by
        have h1 : (m + 1) / 10 < m + 1 := Nat.div_lt_self (Nat.succ_pos m) (by omega)
        omega
      have : valAux (digitsAux (f + 1) (m + 1)) =
          digitVal (Nat.digitChar ((m + 1) % 10)) + 10 * valAux (digitsAux f ((m + 1) / 10)) := by
        simp [digitsAux, valAux]
      rw [this, ih _ hdiv, digitVal_digitChar _ (Nat.mod_lt _ (by omega))]
      omega

theorem pyStr_injective : ∀ a b : Nat, pyStr a = pyStr b → a = b := by
  have key : ∀ n : Nat, n ≠ 0 → valAux (digitsAux n n) = n := fun n _ =>
    valAux_digitsAux n n (Nat.le_refl n)
  intro a b hab
  by_cases ha : a = 0 <;> by_cases hb : b = 0
  · omega
  · exfalso
    have : ("0" : String).data = (String.mk (digitsAux b b).reverse).data := by
      simpa [pyStr, ha, hb] using congrArg String.data hab
    have hd : (digitsAux b b) = ['0'] := by
      have : ['0'] = (digitsAux b b).reverse := this
      have := congrArg List.reverse this
      simpa using this.symm
    have := key b hb
    rw [hd] at this
    simp [valAux, digitVal] at this
    omega
  · exfalso
    have : (String.mk (digitsAux a a).reverse).data = ("0" : String).data := by
      simpa [pyStr, ha, hb] using congrArg String.data hab
    have hd : (digitsAux a a) = ['0'] := by
      have : (digitsAux a a).reverse = ['0'] := this
      have := congrArg List.reverse this
      simpa using this
    have := key a ha
    rw [hd] at this
    simp [valAux, digitVal] at this
    omega
  · have : (String.mk (digitsAux a a).reverse).data = (String.mk (digitsAux b b).reverse).data := by
      simpa [pyStr, ha, hb] using congrArg String.data hab
    have hrev : (digitsAux a a).reverse = (digitsAux b b).reverse := this
    have hd : digitsAux a a = digitsAux b b := by
      have := congrArg List.reverse hrev
      simpa using this
    have := key a ha
    rw [hd, key b hb] at this
    omega

end Kodachi

/-! ## DreamGaffer `Helper.py` -/

namespace Helper

open Kodachi

/-- Candidate name tried at step `i` of the `getUnusedName` while-loop:
`basename` itself at `i = 0`, `basename + str(i)` for `i >= 1`. -/
def candidate (basename : String) (i : Nat) : String :=
  if i = 0 then basename else basename ++ pyStr i

/-- The `while (name in children)` loop of `Helper.getUnusedName`, with an
explicit fuel bound; `getUnusedNameFuel_stable` shows the result does not
depend on the fuel once it is at least `children.length + 1`, i.e. the
Python loop terminates. -/
def getUnusedNameLoop (basename : String) (children : List String) : Nat → Nat → String
  | i, 0 => candidate basename i
  | i, fuel + 1 =>
    if candidate basename i ∈ children then getUnusedNameLoop basename children (i + 1) fuel
    else candidate basename i

/-- Helper.getUnusedName(basename, children). -/
def getUnusedName (basename : String) (children : List String) : String :=
  getUnusedNameLoop basename children 0 (children.length + 1)

theorem pyStr_ne_empty : ∀ n : Nat, (pyStr n).data ≠ [] := by
  intro n
  match n with
  | 0 => simp [pyStr]
  | m + 1 => simp [pyStr, digitsAux]

theorem string_data_inj {a b : String} (h : a.data = b.data) : a = b := by
  cases a; cases b; exact congrArg String.mk h

theorem candidate_injective (basename : String) :
    ∀ i j : Nat, candidate basename i = candidate basename j → i = j := by
  have hne : ∀ m : Nat, basename ≠ basename ++ pyStr m := by
    intro m h
    have hd := congrArg String.data h
    rw [String.data_append] at hd
    have hlen := congrArg List.length hd
    rw [List.length_append] at hlen
    have : (pyStr m).data.length = 0 := by omega
    exact pyStr_ne_empty m (List.length_eq_zero.mp this)
  intro i j h
  match i, j with
  | 0, 0 => rfl
  | 0, j + 1 => exact absurd h (by simpa [candidate] using hne (j + 1))
  | i + 1, 0 => exact absurd h.symm (by simpa [candidate] using hne (i + 1))
  | i + 1, j + 1 =>
    have h' : basename ++ pyStr (i + 1) = basename ++ pyStr (j + 1) := by
      simpa [candidate] using h
    have hdata := congrArg String.data h'
    rw [String.data_append, String.data_append] at hdata
    have := List.append_cancel_left hdata
    exact pyStr_injective _ _ (string_data_inj this)

/-- Pigeonhole: among the first `children.length + 1` candidates some name is
not in `children`. -/
theorem exists_candidate_not_mem (basename : String) (children : List String) :
    ∃ j : Nat, j ≤ children.length ∧ candidate basename j ∉ children := by
  by_contra hcon
  push_neg at hcon
  have hinj : Set.InjOn (candidate basename) ↑(Finset.range (children.length + 1)) :=
    fun a _ b _ hab => candidate_injective basename a b hab
  have hmaps : ∀ a ∈ Finset.range (children.length + 1),
      candidate basename a ∈ children.toFinset := by
    intro a ha
    rw [List.mem_toFinset]
    exact hcon a (Nat.lt_succ_iff.mp (Finset.mem_range.mp ha))
  have hcard := Finset.card_le_card_of_injOn (candidate basename) hmaps hinj
  rw [Finset.card_range] at hcard
  have := children.toFinset_card_le
  omega

theorem getUnusedNameLoop_spec (basename : String) (children : List String) :
    ∀ fuel i : Nat, (∃ j : Nat, i ≤ j ∧ j ≤ i + fuel ∧ candidate basename j ∉ children) →
      ∃ j : Nat, i ≤ j ∧
        getUnusedNameLoop basename children i fuel = candidate basename j ∧
        candidate basename j ∉ children ∧
        ∀ k : Nat, i ≤ k → k < j → candidate basename k ∈ children := by
  intro fuel
  induction fuel with
  | zero =>
    rintro i ⟨j, hij, hj, hnot⟩
    have hji : j = i := by omega
    exact ⟨i, Nat.le_refl i, rfl, hji ▸ hnot, fun k h1 h2 => absurd h1 (by omega)⟩
  | succ fuel ih =>
    rintro i ⟨j, hij, hj, hnot⟩
    by_cases hmem : candidate basename i ∈ children
    · have hji : j ≠ i := fun h => hnot (h ▸ hmem)
      obtain ⟨j', h1, h2, h3, h4⟩ := ih (i + 1) ⟨j, by omega, by omega, hnot⟩
      refine ⟨j', by omega, ?_, h3, ?_⟩
      · simpa [getUnusedNameLoop, hmem] using h2
      · intro k hk1 hk2
        rcases Nat.eq_or_lt_of_le hk1 with h | h
        · exact h ▸ hmem
        · exact h4 k h hk2
    · exact ⟨i, Nat.le_refl i, by simp [getUnusedNameLoop, hmem], hmem,
        fun k h1 h2 => absurd h1 (by omega)⟩

/-- C10: for every basename string and every finite collection of existing
child names, `Helper.getUnusedName` terminates (its while-loop needs at most
`children.length + 1` probes: any fuel at least that large yields the same
result) and returns `basename` itself when `basename` is not in the
collection, and otherwise `basename + str(i)` for the smallest integer
`i >= 1` such that that concatenation is not in the collection; the returned
name is never a member of the collection. -/
theorem getUnusedName_spec (basename : String) (children : List String) :
    (getUnusedName basename children ∉ children) ∧
    (∀ fuel : Nat, children.length + 1 ≤ fuel →
      getUnusedNameLoop basename children 0 fuel = getUnusedName basename children) ∧
    (basename ∉ children → getUnusedName basename children = basename) ∧
    (basename ∈ children →
      ∃ i : Nat, 1 ≤ i ∧ getUnusedName basename children = basename ++ pyStr i ∧
        basename ++ pyStr i ∉ children ∧
        ∀ j : Nat, 1 ≤ j → j < i → basename ++ pyStr j ∈ children) := by
  obtain ⟨j0, hj0, hj0n⟩ := exists_candidate_not_mem basename children
  obtain ⟨j, hj_ge, heq, hnot, hleast⟩ :=
    getUnusedNameLoop_spec basename children (children.length + 1) 0
      ⟨j0, by omega, by omega, hj0n⟩
  have hres : getUnusedName basename children = candidate basename j := heq
  rw [hres]
  refine ⟨hnot, ?_, ?_, ?_⟩
  · intro fuel hfuel
    obtain ⟨j', hj'_ge, heq', hnot', hleast'⟩ :=
      getUnusedNameLoop_spec basename children fuel 0 ⟨j0, by omega, by omega, hj0n⟩
    have hjj : j' = j := by
      by_contra hne
      rcases Nat.lt_or_ge j' j with h | h
      · exact hnot' (hleast j' (by omega) h)
      · exact hnot (hleast' j (by omega) (by omega))
    rw [heq', hjj]
  · intro hbase
    have hj0' : j = 0 := by
      by_contra hne
      exact hbase (by simpa [candidate] using hleast 0 (by omega) (by omega))
    simp [hj0', candidate]
  · intro hbase
    have hj0' : j ≠ 0 := by
      intro h
      rw [h] at hnot
      exact hnot (by simpa [candidate] using hbase)
    refine ⟨j, by omega, by simp [candidate, hj0'], by simpa [candidate, hj0'] using hnot, ?_⟩
    intro k h1 h2
    have := hleast k (by omega) h2
    simpa [candidate, show k ≠ 0 by omega] using this

/-- Witness for `getUnusedName_spec` at a concrete input: with children
["a", "a1"], the name chosen for basename "a" is "a" + str(2). -/
theorem getUnusedName_spec_witness :
    "a" ∈ ["a", "a1"] ∧
    (∃ i : Nat, 1 ≤ i ∧ getUnusedName "a" ["a", "a1"] = "a" ++ pyStr i ∧
      "a" ++ pyStr i ∉ ["a", "a1"] ∧
      ∀ j : Nat, 1 ≤ j → j < i → "a" ++ pyStr j ∈ ["a", "a1"]) :=
  ⟨by decide, (getUnusedName_spec "a" ["a", "a1"]).2.2.2 (by decide)⟩

end Helper

/-! ## Path model (`os.path` on slash-separated location strings)

`posixpath.dirname` / `posixpath.basename` and the DreamGaffer
`getLocationPath` join, together with the path-prefix order used to reason
about subtree-wise cache updates. -/

namespace Kodachi

/-- Characters after the last '/' (`posixpath.basename`). -/
def baseNameData (l : List Char) : List Char :=
  (l.reverse.takeWhile (fun c => c ≠ '/')).reverse

/-- Characters up to and including the last '/' (`p[:i+1]` in posixpath). -/
def headData (l : List Char) : List Char :=
  (l.reverse.dropWhile (fun c => c ≠ '/')).reverse

/-- `posixpath.dirname`: the head, right-stripped of slashes unless it
consists only of slashes. -/
def dirNameData (l : List Char) : List Char :=
  let h := headData l
  if h.all (fun c => c = '/') then h else (h.reverse.dropWhile (fun c => c = '/')).reverse

def pyBasename (s : String) : String := String.mk (baseNameData s.data)

def pyDirname (s : String) : String := String.mk (dirNameData s.data)

/-- Cache.getLocationPath: join with '/' unless the parent is empty. -/
def getLocationPath (parentPath name : String) : String :=
  if parentPath ≠ "" then parentPath ++ "/" ++ name else name

/-- `a` is an ancestor-or-self of `b` in the location tree. -/
def pathLE (a b : String) : Prop := a = b ∨ (a.data ++ ['/']) <+: b.data

instance (a b : String) : Decidable (pathLE a b) :=
  inferInstanceAs (Decidable (_ ∨ _))

/-- A location-name component: contains no slash. -/
def slashFree (s : String) : Prop := '/' ∉ s.data

instance (s : String) : Decidable (slashFree s) := inferInstanceAs (Decidable (_ ∉ _))

end Kodachi

/-! ## DreamGaffer `Cache.py`: the BaseCache single-cache model

One `BaseCache` (the "material" / "light filter" configuration, whose
`InternalControl` dispatch stays within the cache itself).  The host node
calls (`self.node.*`) and the material-edit-node calls
(`self.control.renameSingleLocation` etc.) touch host objects only and do
not affect the cache dictionaries, so they do not appear in the state. -/

namespace DreamGaffer

open Kodachi

structure Info where
  index : Nat
  children : List String
deriving DecidableEq

structure CacheState where
  cache : List (String × Info)
  unused : List Nat
deriving DecidableEq

/-- BaseCache.getIndexForNewLocation: pop the most recently appended unused
index (`list.pop()` takes the last element), else `len(self.cache)`. -/
def getIndexForNewLocation (st : CacheState) : Nat × CacheState :=
  match st.unused.getLast? with
  | some i => (i, ⟨st.cache, st.unused.dropLast⟩)
  | none => (st.cache.length, st)

/-- InternalControl.addLocation's cache effect: a fresh index from
getIndexForNewLocation, then `cache[fullPath] = (index, children=[])`. -/
def controlAddLocation (st : CacheState) (fullPath : String) : CacheState :=
  let pr := getIndexForNewLocation st
  ⟨dictSet fullPath ⟨pr.1, []⟩ pr.2.cache, pr.2.unused⟩

mutual

/-- BaseCache.recursiveRemoveLocation: pop the location (a missing key is a
caught KeyError and leaves the state unchanged), append its index to the
unused list, then recurse into the recorded children. -/
def removeLoc : Nat → CacheState → String → String → CacheState
  | 0, st, _, _ => st
  | fuel + 1, st, parentPath, name =>
    match dictPop (getLocationPath parentPath name) st.cache with
    | none => st
    | some (info, cache') =>
      removeList fuel ⟨cache', st.unused ++ [info.index]⟩
        (getLocationPath parentPath name) info.children

/-- The `for childName in lightInfo.get("children", [])` loop of
recursiveRemoveLocation. -/
def removeList : Nat → CacheState → String → List String → CacheState
  | _, st, _, [] => st
  | fuel, st, loc, c :: cs => removeList fuel (removeLoc fuel st loc c) loc cs

end

mutual

/-- One child entry of BaseCache.recursiveRenameChildLocation: if the child
location is cached, re-key it to the new parent path (same info) and recurse
into its recorded children. -/
def renameOneChild : Nat → CacheState → String → String → String → CacheState
  | 0, st, _, _, _ => st
  | fuel + 1, st, parentPath, c, newParentPath =>
    match dictPop (getLocationPath parentPath c) st.cache with
    | none => st
    | some (info, cache') =>
      renameChildList fuel
        ⟨dictSet (getLocationPath newParentPath c) info cache', st.unused⟩
        (getLocationPath parentPath c) info.children (getLocationPath newParentPath c)

/-- The `for childName in children` loop of recursiveRenameChildLocation. -/
def renameChildList : Nat → CacheState → String → List String → String → CacheState
  | _, st, _, [], _ => st
  | fuel, st, parentPath, c :: cs, newParentPath =>
    renameChildList fuel (renameOneChild fuel st parentPath c newParentPath)
      parentPath cs newParentPath

end

/-- BaseCache.renameLocation: pop the old key (KeyError propagates to the
caller when it is absent: `none`), re-insert under the new key with the same
info, then recursively re-key the children. -/
def renameLocation (fuel : Nat) (st : CacheState) (oldLocation newLocation : String) :
    Option CacheState :=
  match dictPop oldLocation st.cache with
  | none => none
  | some (info, cache') =>
    some (renameChildList fuel ⟨dictSet newLocation info cache', st.unused⟩
      oldLocation info.children newLocation)

/-- BaseCache.updateChildName: mutate the parent's children record (remove
the old name if given and present, append the new one if truthy); returns
whether the parent was found. -/
def updateChildName (st : CacheState) (parentPath : String)
    (newName oldName : Option String) : CacheState × Bool :=
  match dictGet parentPath st.cache with
  | none => (st, false)
  | some info =>
    let c1 := match oldName with
      | some o => if o ∈ info.children then info.children.erase o else info.children
      | none => info.children
    let c2 := match newName with
      | some nn => if nn ≠ "" then c1 ++ [nn] else c1
      | none => c1
    (⟨dictSet parentPath ⟨info.index, c2⟩ st.cache, st.unused⟩, true)

/-- InternalControl.findAndUpdateChildName in the single-cache ("rig or
material's parent is of the same type") configuration. -/
def findAndUpdateChildNameSelf (st : CacheState) (parentPath : String)
    (newName oldName : Option String) : CacheState :=
  (updateChildName st parentPath newName oldName).1

/-- BaseCache.rename: update the parent's children record, then re-key the
location; the top-level try/except turns a failed re-key (old location not
cached) into a no-op on top of the already-performed children update. -/
def rename (fuel : Nat) (st : CacheState) (oldLocation newName : String) : CacheState :=
  let parentPath := pyDirname oldLocation
  let newLocation := getLocationPath parentPath newName
  let oldName := pyBasename oldLocation
  let st1 := findAndUpdateChildNameSelf st parentPath (some newName) (some oldName)
  match renameLocation fuel st1 oldLocation newLocation with
  | none => st1
  | some st2 => st2

mutual

/-- BaseCache.recursiveDuplicateLocation: when the source is cached, obtain a
fresh index, insert the destination with a copy of the source's children
record, then recurse into the (re-read) children. -/
def dupLoc : Nat → CacheState → String → String → CacheState
  | 0, st, _, _ => st
  | fuel + 1, st, src, dst =>
    match dictGet src st.cache with
    | none => st
    | some info =>
      let pr := getIndexForNewLocation st
      let st2 : CacheState := ⟨dictSet dst ⟨pr.1, info.children⟩ pr.2.cache, pr.2.unused⟩
      let cs := match dictGet src st2.cache with
        | some info2 => info2.children
        | none => []
      dupList fuel st2 src dst cs

/-- The `for name in children` loop of recursiveDuplicateLocation. -/
def dupList : Nat → CacheState → String → String → List String → CacheState
  | _, st, _, _, [] => st
  | fuel, st, src, dst, c :: cs =>
    dupList fuel (dupLoc fuel st (getLocationPath src c) (getLocationPath dst c)) src dst cs

end

theorem dictPop_spec {κ α : Type} [DecidableEq κ] (k : κ) :
    ∀ l : List (κ × α), dictPop k l = (dictGet k l).map (fun v => (v, dictDelete k l)) := by
  intro l
  induction l with
  | nil => rfl
  | cons e r ih =>
    obtain ⟨k', v⟩ := e
    by_cases h : k' = k
    · simp [dictPop, dictGet, dictDelete, h]
    · simp only [dictPop, dictGet, dictDelete, if_neg h, ih]
      cases dictGet k r <;> simp

theorem remove_unused_extend : ∀ fuel : Nat,
    (∀ st : CacheState, ∀ p n : String, ∃ r : List Nat,
      (removeLoc fuel st p n).unused = st.unused ++ r) ∧
    (∀ cs : List String, ∀ st : CacheState, ∀ loc : String, ∃ r : List Nat,
      (removeList fuel st loc cs).unused = st.unused ++ r) := by
  intro fuel
  induction fuel with
  | zero =>
    constructor
    · intro st p n; exact ⟨[], by simp [removeLoc]⟩
    · intro cs
      induction cs with
      | nil => intro st loc; exact ⟨[], by simp [removeList]⟩
      | cons c cs ih =>
        intro st loc
        simpa [removeList, removeLoc] using ih st loc
  | succ fuel ih =>
    have hloc : ∀ st : CacheState, ∀ p n : String, ∃ r : List Nat,
        (removeLoc (fuel + 1) st p n).unused = st.unused ++ r := by
      intro st p n
      rw [removeLoc]
      cases hpop : dictPop (getLocationPath p n) st.cache with
      | none => exact ⟨[], by simp⟩
      | some pr =>
        obtain ⟨r, hr⟩ := ih.2 pr.1.children ⟨pr.2, st.unused ++ [pr.1.index]⟩
          (getLocationPath p n)
        exact ⟨pr.1.index :: r, by simpa using hr⟩
    refine ⟨hloc, ?_⟩
    intro cs
    induction cs with
    | nil => intro st loc; exact ⟨[], by simp [removeList]⟩
    | cons c cs ih2 =>
      intro st loc
      obtain ⟨r1, hr1⟩ := hloc st loc c
      obtain ⟨r2, hr2⟩ := ih2 (removeLoc (fuel + 1) st loc c) loc
      exact ⟨r1 ++ r2, by simp [removeList, hr2, hr1]⟩

/-- C2: BaseCache.getIndexForNewLocation returns the most recently freed
index (the last element of the unused list, which removals append to) and
removes it from the list; with no unused indices it returns `len(cache)`,
the number of occupied slots.  recursiveRemoveLocation appends the removed
location's index to the unused list (followed by the indices of its removed
descendants), so the list is non-empty afterwards and later additions reuse
freed indices before any fresh index is taken. -/
theorem cache_index_reuse (st : CacheState) :
    (∀ l : List Nat, ∀ i : Nat, st.unused = l ++ [i] →
      getIndexForNewLocation st = (i, ⟨st.cache, l⟩)) ∧
    (st.unused = [] → getIndexForNewLocation st = (st.cache.length, st)) ∧
    (∀ fuel : Nat, ∀ parent name : String, ∀ info : Info,
      dictGet (getLocationPath parent name) st.cache = some info →
      ∃ rest : List Nat,
        (removeLoc (fuel + 1) st parent name).unused = st.unused ++ info.index :: rest) := by
  refine ⟨?_, ?_, ?_⟩
  · intro l i h
    simp [getIndexForNewLocation, h, List.getLast?_concat, List.dropLast_concat]
  · intro h
    simp [getIndexForNewLocation, h]
  · intro fuel parent name info hget
    have hpop : dictPop (getLocationPath parent name) st.cache =
        some (info, dictDelete (getLocationPath parent name) st.cache) := by
      rw [dictPop_spec, hget]; rfl
    rw [removeLoc, hpop]
    obtain ⟨r, hr⟩ := (remove_unused_extend fuel).2 info.children
      ⟨dictDelete (getLocationPath parent name) st.cache, st.unused ++ [info.index]⟩
      (getLocationPath parent name)
    exact ⟨r, by simpa using hr⟩

/-- Witness for `cache_index_reuse`: popping reuses the most recently freed
index 5, an empty unused list hands out the fresh index `len(cache)`, and
removing location "a" frees its index 0. -/
theorem cache_index_reuse_witness :
    getIndexForNewLocation ⟨[("a", ⟨0, []⟩)], [3, 5]⟩ = (5, ⟨[("a", ⟨0, []⟩)], [3]⟩) ∧
    getIndexForNewLocation ⟨[("a", ⟨0, []⟩)], []⟩ = (1, ⟨[("a", ⟨0, []⟩)], []⟩) ∧
    ∃ rest : List Nat,
      (removeLoc 2 ⟨[("a", ⟨0, ["b"]⟩), ("a/b", ⟨1, []⟩)], []⟩ "" "a").unused =
        [] ++ 0 :: rest :=
  ⟨(cache_index_reuse ⟨[("a", ⟨0, []⟩)], [3, 5]⟩).1 [3] 5 rfl,
   (cache_index_reuse ⟨[("a", ⟨0, []⟩)], []⟩).2.1 rfl,
   (cache_index_reuse ⟨[("a", ⟨0, ["b"]⟩), ("a/b", ⟨1, []⟩)], []⟩).2.2 1 "" "a" ⟨0, ["b"]⟩
     (by decide)⟩

end DreamGaffer

/-! ## Node-type registrar callbacks (`RegisterPruneByFrustum.py`,
`RegisterDeferredPrune.py`)

The host calls the registered `buildOpChain` callback with the node's
parameter values; the callback builds one argument attribute-group and
appends one named native Op.  `interface.addOpSystemArgs(gb)` is the host
call that stores the graph-state system op-args into the builder under the
"system" key; the system args themselves are an opaque input. -/

namespace RegisterOps

open Kodachi

/-- Parameter values of a PruneByFrustum node, as declared by its parameters
template (`camera_location`, `CEL`, `invert`, `method`, `executionMode`,
`prune_primitives`, `padding`).  The float payload is opaque bits. -/
structure PruneByFrustumParams where
  camera_location : String
  CEL : String
  invert : Int
  method : String
  executionMode : String
  prune_primitives : Int
  padding : Nat
deriving DecidableEq

/-- The `methods` dict of RegisterPruneByFrustum.py. -/
def methods : List (String × String) :=
  [("intersect", "intersect"), ("contains center", "contains center"),
   ("contains all", "contains all")]

/-- The `executionModes` dict of RegisterPruneByFrustum.py. -/
def executionModes : List (String × String) :=
  [("immediate", "immediate"), ("deferred", "deferred")]

/-- buildPruneByFrustumOpChain: the ops appended to the node's op-chain, as
(opName, opArgs) pairs; `none` models the KeyError raised when the method or
executionMode value is not a key of its dict. -/
def buildPruneByFrustumOpChain (p : PruneByFrustumParams) (sysArgs : Attr) :
    Option (List (String × Attr)) :=
  match dictGet p.method methods, dictGet p.executionMode executionModes with
  | some methodType, some executionType =>
    let gb : GB := []
    let gb := gbSet gb "system" sysArgs
    let gb := gbSet gb "cameraLocation" (.str p.camera_location)
    let gb := gbSet gb "CEL" (.str p.CEL)
    let gb := gbSet gb "method" (.str methodType)
    let gb := gbSet gb "executionMode" (.str executionType)
    let gb := gbSet gb "prune_primitives" (.int p.prune_primitives)
    let gb := gbSet gb "padding" (.flt p.padding)
    let gb := gbSet gb "invert" (.int p.invert)
    some [("PruneByFrustum", (gbBuild gb).1)]
  | _, _ => none

/-- buildDeferredPruneOpChain: system args plus the CEL parameter value. -/
def buildDeferredPruneOpChain (cel : String) (sysArgs : Attr) : List (String × Attr) :=
  let gb : GB := []
  let gb := gbSet gb "system" sysArgs
  let gb := gbSet gb "CEL" (.str cel)
  [("DeferredPrune", (gbBuild gb).1)]

/-- C5: each registered callback appends exactly one op, named by its native
Op string, whose argument group is exactly the system op args plus the
parameter values under fixed keys: for PruneByFrustum the keys
cameraLocation, CEL, method, executionMode, prune_primitives, padding and
invert equal the corresponding parameter values (the method and
executionMode popup dicts map each offered option to itself); for
DeferredPrune the single key CEL equals the CEL parameter value. -/
theorem opchain_callbacks (p : PruneByFrustumParams) (sysArgs : Attr) (cel : String)
    (hm : p.method ∈ dictKeys methods) (he : p.executionMode ∈ dictKeys executionModes) :
    buildPruneByFrustumOpChain p sysArgs =
      some [("PruneByFrustum", Attr.group
        [("system", sysArgs),
         ("cameraLocation", .str p.camera_location),
         ("CEL", .str p.CEL),
         ("method", .str p.method),
         ("executionMode", .str p.executionMode),
         ("prune_primitives", .int p.prune_primitives),
         ("padding", .flt p.padding),
         ("invert", .int p.invert)])] ∧
    buildDeferredPruneOpChain cel sysArgs =
      [("DeferredPrune", Attr.group [("system", sysArgs), ("CEL", .str cel)])] := by
  constructor
  · have hm' : dictGet p.method methods = some p.method := by
      simp [dictKeys, methods] at hm
      rcases hm with h | h | h <;> simp [h, methods, dictGet]
    have he' : dictGet p.executionMode executionModes = some p.executionMode := by
      simp [dictKeys, executionModes] at he
      rcases he with h | h <;> simp [h, executionModes, dictGet]
    simp [buildPruneByFrustumOpChain, hm', he', gbSet, dictSet, gbBuild]
  · simp [buildDeferredPruneOpChain, gbSet, dictSet, gbBuild]

/-- Witness for `opchain_callbacks` at concrete parameter values. -/
theorem opchain_callbacks_witness :
    ("intersect" : String) ∈ dictKeys methods ∧
    ("deferred" : String) ∈ dictKeys executionModes ∧
    (buildPruneByFrustumOpChain
        ⟨"/root/world/cam/camera", "/root/world/geo", 0, "intersect", "deferred", 1, 7⟩
        (Attr.group []) =
      some [("PruneByFrustum", Attr.group
        [("system", Attr.group []),
         ("cameraLocation", .str "/root/world/cam/camera"),
         ("CEL", .str "/root/world/geo"),
         ("method", .str "intersect"),
         ("executionMode", .str "deferred"),
         ("prune_primitives", .int 1),
         ("padding", .flt 7),
         ("invert", .int 0)])] ∧
    buildDeferredPruneOpChain "/root/world" (Attr.group []) =
      [("DeferredPrune", Attr.group [("system", Attr.group []), ("CEL", .str "/root/world")])]) :=
  ⟨by decide, by decide,
   opchain_callbacks
     ⟨"/root/world/cam/camera", "/root/world/geo", 0, "intersect", "deferred", 1, 7⟩
     (Attr.group []) "/root/world" (by decide) (by decide)⟩

end RegisterOps

/-! ## MoonrayRenderManager: Context live attributes and graph-state sync -/

namespace MoonrayRenderManager

open Kodachi

/-- Global `liveUpdateDelta = timedelta(milliseconds=100)`; times are in
milliseconds. -/
def liveUpdateDelta : Nat := 100

/-- The Context state touched by setLiveAttr: the per-location live
attributes, the construction-time `_lastLiveUpdateTime`, the (separately
named) `_lastUpdateTime` the push path assigns, the `_liveAttrSet` flag and
the op args last pushed into the op-tree builder for the live-attribute op. -/
structure LiveState where
  liveAttrs : List (String × Attr)
  lastLiveUpdateTime : Nat
  lastUpdateTime : Option Nat
  liveAttrSet : Bool
  liveOpArgs : Option (String × Attr)
deriving DecidableEq

/-- Context.setLiveAttr(locationPath, attrValue) at current time `now`:
always records the attribute; pushes the accumulated live attributes (and
returns True) exactly when `now >= _lastLiveUpdateTime + liveUpdateDelta`;
the push path assigns `_lastUpdateTime`, not `_lastLiveUpdateTime`. -/
def setLiveAttr (st : LiveState) (now : Nat) (locationPath : String)
    (attrValue : Option Attr) : LiveState × Bool :=
  let v := attrValue.getD (Attr.group [])
  let st := { st with liveAttrs := dictSet locationPath v st.liveAttrs }
  if st.lastLiveUpdateTime + liveUpdateDelta ≤ now then
    let pr := gbBuild st.liveAttrs
    let pushed := (gbBuild (gbSet pr.2 "liveAttrs" pr.1)).1
    ({ st with
        liveOpArgs := some ("MoonrayLiveAttribute", pushed),
        liveAttrSet := true,
        lastUpdateTime := some now }, true)
  else (st, false)

/-- A sequence of setLiveAttr calls, each a (time, location, value) triple;
returns the final state and the per-call return values. -/
def runLiveCalls (st : LiveState) : List (Nat × String × Option Attr) →
    LiveState × List Bool
  | [] => (st, [])
  | (now, loc, v) :: rest =>
    let pr := setLiveAttr st now loc v
    let rr := runLiveCalls pr.1 rest
    (rr.1, pr.2 :: rr.2)

theorem setLiveAttr_lastLive (st : LiveState) (now : Nat) (loc : String)
    (v : Option Attr) : (setLiveAttr st now loc v).1.lastLiveUpdateTime = st.lastLiveUpdateTime := by
  rw [setLiveAttr]
  by_cases h : st.lastLiveUpdateTime + liveUpdateDelta ≤ now <;> simp [h]

/-- C9: setLiveAttr always records the given attribute for the location
(`None` becoming an empty group), and pushes the accumulated live attributes
(returning True) exactly when the time is at least 100 ms past the stored
`_lastLiveUpdateTime`; the push path assigns `_lastUpdateTime` instead of
`_lastLiveUpdateTime`, so the stored timestamp never changes, and once
100 ms have elapsed since the Context was built every subsequent call in any
call sequence pushes an update: the throttle never re-arms. -/
theorem setLiveAttr_throttle_never_rearms (st : LiveState) (now : Nat) (loc : String)
    (v : Option Attr) :
    ((setLiveAttr st now loc v).1.liveAttrs =
      dictSet loc (v.getD (Attr.group [])) st.liveAttrs) ∧
    ((setLiveAttr st now loc v).2 = true ↔ st.lastLiveUpdateTime + liveUpdateDelta ≤ now) ∧
    ((setLiveAttr st now loc v).1.lastLiveUpdateTime = st.lastLiveUpdateTime) ∧
    ((setLiveAttr st now loc v).2 = true →
      (setLiveAttr st now loc v).1.lastUpdateTime = some now) ∧
    (∀ calls : List (Nat × String × Option Attr),
      (∀ c ∈ calls, st.lastLiveUpdateTime + liveUpdateDelta ≤ c.1) →
      ∀ b ∈ (runLiveCalls st calls).2, b = true) := by
  refine ⟨?_, ?_, setLiveAttr_lastLive st now loc v, ?_, ?_⟩
  · rw [setLiveAttr]
    by_cases h : st.lastLiveUpdateTime + liveUpdateDelta ≤ now <;> simp [h]
  · rw [setLiveAttr]
    by_cases h : st.lastLiveUpdateTime + liveUpdateDelta ≤ now <;> simp [h]
  · rw [setLiveAttr]
    by_cases h : st.lastLiveUpdateTime + liveUpdateDelta ≤ now <;> simp [h]
  · intro calls
    induction calls generalizing st with
    | nil => intro _ b hb; simp [runLiveCalls] at hb
    | cons c rest ih =>
      intro hall b hb
      obtain ⟨t, cloc, cv⟩ := c
      have ht : st.lastLiveUpdateTime + liveUpdateDelta ≤ t := hall (t, cloc, cv) (by simp)
      rw [runLiveCalls] at hb
      simp only [List.mem_cons] at hb
      rcases hb with hb | hb
      · rw [hb, setLiveAttr]
        simp only [ht]
        simp
      · refine ih (setLiveAttr st t cloc cv).1 ?_ b hb
        intro c' hc'
        rw [setLiveAttr_lastLive]
        exact hall c' (by simp [hc'])

/-- Witness for `setLiveAttr_throttle_never_rearms`: with the stored
timestamp at 0, calls at times 100 and 5000 both push. -/
theorem setLiveAttr_throttle_never_rearms_witness :
    ((setLiveAttr ⟨[], 0, none, false, none⟩ 100 "/root/world/lgt/a" none).2 = true ↔
      (0 : Nat) + liveUpdateDelta ≤ 100) ∧
    (∀ c ∈ [((100 : Nat), "/root/world/lgt/a", (none : Option Attr)),
             ((5000 : Nat), "/root/world/lgt/b", some (Attr.int 1))],
        (0 : Nat) + liveUpdateDelta ≤ c.1) ∧
    ∀ b ∈ (runLiveCalls ⟨[], 0, none, false, none⟩
        [((100 : Nat), "/root/world/lgt/a", (none : Option Attr)),
         ((5000 : Nat), "/root/world/lgt/b", some (Attr.int 1))]).2, b = true :=
  ⟨(setLiveAttr_throttle_never_rearms ⟨[], 0, none, false, none⟩ 100 "/root/world/lgt/a"
      none).2.1,
   by decide,
   (setLiveAttr_throttle_never_rearms ⟨[], 0, none, false, none⟩ 100 "/root/world/lgt/a"
      none).2.2.2.2 _ (by decide)⟩

end MoonrayRenderManager

namespace MoonrayRenderManager

open Kodachi

/-- OpTreeSender state relevant to resetGraphState: the stored graph-state
hash and the per-context graph states (abstract type `G`). -/
structure SenderState (G : Type) where
  currentGraphStateHash : Nat
  contexts : List (String × G)
deriving DecidableEq

/-- OpTreeSender.resetGraphState: compare the current graph-state hash with
the stored one; when they differ, store it and reset every context's graph
state (Context.resetGraphState builds a fresh graph state from the current
host graph state and the context id, modelled by `freshGS`). -/
def senderResetGraphState {G : Type} (st : SenderState G) (gsHash : Nat)
    (freshGS : String → G) : SenderState G :=
  if gsHash ≠ st.currentGraphStateHash then
    { currentGraphStateHash := gsHash,
      contexts := st.contexts.map (fun e => (e.1, freshGS e.1)) }
  else st

/-- Context state relevant to the re-sync branch of syncWithNodegraph: the
held graph state and the stored system-args hash. -/
structure CtxSyncState (G : Type) where
  gs : G
  systemArgsHash : Nat
deriving DecidableEq

/-- The re-sync (`else`) branch of Context.syncWithNodegraph, for an already
built op-chain: `gs` is the freshly rebuilt graph state (shutter values
applied); when its hash differs from the held one the context stores it,
and when additionally the system-args hash differs the new system args are
propagated into the op-chain (`updateOpChainSystemArgs`); the returned flag
reports that propagation. -/
def ctxSyncWithNodegraph {G SA : Type} (st : CtxSyncState G) (gsNew : G)
    (hash : G → Nat) (sysArgs : G → SA) (saHash : SA → Nat) :
    CtxSyncState G × Bool :=
  if hash gsNew ≠ hash st.gs then
    let sa := sysArgs gsNew
    let h := saHash sa
    if h ≠ st.systemArgsHash then ({ gs := gsNew, systemArgsHash := h }, true)
    else ({ gs := gsNew, systemArgsHash := st.systemArgsHash }, false)
  else (st, false)

/-- C7: OpTreeSender.resetGraphState leaves everything unchanged when the
current graph-state hash equals the stored one, and otherwise replaces the
stored hash and resets the graph state of every context; likewise
Context.syncWithNodegraph rebuilds its graph state, and propagates new
system args, only when the graph-state hash differs from the one it holds
(the propagation additionally requires the system-args hash to differ). -/
theorem graphstate_hash_gates {G SA : Type} (st : SenderState G) (gsHash : Nat)
    (freshGS : String → G) (cst : CtxSyncState G) (gsNew : G) (hash : G → Nat)
    (sysArgs : G → SA) (saHash : SA → Nat) :
    (gsHash = st.currentGraphStateHash → senderResetGraphState st gsHash freshGS = st) ∧
    (gsHash ≠ st.currentGraphStateHash →
      (senderResetGraphState st gsHash freshGS).currentGraphStateHash = gsHash ∧
      (senderResetGraphState st gsHash freshGS).contexts =
        st.contexts.map (fun e => (e.1, freshGS e.1))) ∧
    (hash gsNew = hash cst.gs →
      (ctxSyncWithNodegraph cst gsNew hash sysArgs saHash).1 = cst ∧
      (ctxSyncWithNodegraph cst gsNew hash sysArgs saHash).2 = false) ∧
    (hash gsNew ≠ hash cst.gs →
      (ctxSyncWithNodegraph cst gsNew hash sysArgs saHash).1.gs = gsNew ∧
      ((ctxSyncWithNodegraph cst gsNew hash sysArgs saHash).2 = true ↔
        saHash (sysArgs gsNew) ≠ cst.systemArgsHash)) ∧
    ((ctxSyncWithNodegraph cst gsNew hash sysArgs saHash).2 = true →
      hash gsNew ≠ hash cst.gs) := by
  refine ⟨?_, ?_, ?_, ?_, ?_⟩
  · intro h; simp [senderResetGraphState, h]
  · intro h; simp [senderResetGraphState, h]
  · intro h; simp [ctxSyncWithNodegraph, h]
  · intro h
    by_cases h2 : saHash (sysArgs gsNew) = cst.systemArgsHash <;>
      simp [ctxSyncWithNodegraph, h, h2]
  · intro h
    by_cases heq : hash gsNew = hash cst.gs
    · simp [ctxSyncWithNodegraph, heq] at h
    · exact heq

/-- Witness for `graphstate_hash_gates` at concrete values: a changed hash
resets both contexts' graph states and is stored. -/
theorem graphstate_hash_gates_witness :
    ((7 : Nat) ≠ (3 : Nat)) ∧
    ((senderResetGraphState (G := Nat) ⟨3, [("a", 11), ("b", 12)]⟩ 7
        (fun s => s.length)).currentGraphStateHash = 7 ∧
      (senderResetGraphState (G := Nat) ⟨3, [("a", 11), ("b", 12)]⟩ 7
        (fun s => s.length)).contexts = [("a", 11), ("b", 12)].map (fun e => (e.1, e.1.length))) :=
  ⟨by decide,
   (graphstate_hash_gates ⟨3, [("a", 11), ("b", 12)]⟩ 7 (fun s => s.length)
      ⟨0, 0⟩ 0 (fun g => g) (fun g => g) (fun g => g)).2.1 (by decide)⟩

end MoonrayRenderManager

namespace Kodachi

theorem strAppend_left_cancel {p a b : String} (h : p ++ a = p ++ b) : a = b := by
  have hd := congrArg String.data h
  rw [String.data_append, String.data_append] at hd
  have := List.append_cancel_left hd
  cases a; cases b; exact congrArg String.mk this

theorem gbSet_append_of_not_mem (k : String) (v : Attr) :
    ∀ gb : GB, k ∉ gb.map Prod.fst → gbSet gb k v = gb ++ [(k, v)] := by
  intro gb
  induction gb with
  | nil => intro _; rfl
  | cons e r ih =>
    obtain ⟨k', v'⟩ := e
    intro h
    simp only [List.map_cons, List.mem_cons] at h
    push_neg at h
    simp only [gbSet, dictSet, if_neg (Ne.symm h.1)]
    rw [show dictSet k v r = gbSet r k v from rfl, ih h.2]
    simp

end Kodachi

namespace MoonrayRenderManager

open Kodachi

/-- getNumberOfChildren on an attribute (groups only). -/
def numChildren : Attr → Nat
  | .group cs => cs.length
  | _ => 0

/-- OpTreeSender.processUpdates, given each context's op-tree delta as built
by `buildOpTreeDelta` after `resetLiveAttr` on the active context and
`syncContexts`: collect the contexts whose delta has children; if any, build
and emit an OPTREE_DELTA message with one `optrees.<contextId>` entry per
collected context, else emit nothing. -/
def processUpdates (contexts : List (String × Attr)) : Option Attr :=
  let deltas := contexts.filter (fun e => 0 < numChildren e.2)
  if deltas.isEmpty then none
  else
    let gb : GB := gbSet [] "type" (.str "OPTREE_DELTA")
    let gb := deltas.foldl (fun gb e => gbSet gb ("optrees." ++ e.1) e.2) gb
    some (gbBuild gb).1

theorem optrees_key_inj {a b : String} (h : "optrees." ++ a = "optrees." ++ b) : a = b :=
  strAppend_left_cancel h

theorem optrees_key_ne_type (cid : String) : ("optrees." ++ cid) ≠ "type" := by
  intro h
  have h2 := congrArg String.length h
  rw [String.length_append] at h2
  have h3 : ("optrees." : String).length = 8 := by decide
  have h4 : ("type" : String).length = 4 := by decide
  omega

theorem processUpdates_fold (contexts : List (String × Attr))
    (hn : (contexts.map Prod.fst).Nodup) :
    ∀ gb : GB, (∀ e ∈ contexts, ("optrees." ++ e.1) ∉ gb.map Prod.fst) →
      contexts.foldl (fun gb e => gbSet gb ("optrees." ++ e.1) e.2) gb =
        gb ++ contexts.map (fun e => ("optrees." ++ e.1, e.2)) := by
  induction contexts with
  | nil => intro gb _; simp
  | cons e r ih =>
    intro gb hfresh
    have he : ("optrees." ++ e.1) ∉ gb.map Prod.fst := hfresh e (by simp)
    simp only [List.foldl_cons, gbSet_append_of_not_mem _ _ gb he]
    rw [List.map_cons] at hn
    have hn' := List.Nodup.of_cons hn
    have hnot := (List.nodup_cons.mp hn).1
    rw [ih hn' (gb ++ [("optrees." ++ e.1, e.2)]) ?_]
    · simp
    · intro e' he'
      simp only [List.map_append, List.mem_append, List.map_cons] at *
      push_neg
      refine ⟨fun hc => hfresh e' (by simp [he']) (by simpa using hc), ?_⟩
      simp only [List.map_nil, List.mem_singleton]
      intro hc
      have : e'.1 = e.1 := optrees_key_inj (by simpa using hc)
      exact hnot (this ▸ (List.mem_map.mpr ⟨e', he', rfl⟩))

theorem assoc_key_unique {α : Type} :
    ∀ l : List (String × α), (l.map Prod.fst).Nodup →
      ∀ k : String, ∀ a b : α, (k, a) ∈ l → (k, b) ∈ l → a = b := by
  intro l
  induction l with
  | nil => intro _ k a b h _; simp at h
  | cons e r ih =>
    intro hn k a b ha hb
    rw [List.map_cons, List.nodup_cons] at hn
    simp only [List.mem_cons] at ha hb
    rcases ha with ha | ha <;> rcases hb with hb | hb
    · have h2 := ha.trans hb.symm
      exact congrArg Prod.snd h2
    · exfalso
      refine hn.1 ?_
      rw [← ha]
      exact List.mem_map.mpr ⟨(k, b), hb, rfl⟩
    · exfalso
      refine hn.1 ?_
      rw [← hb]
      exact List.mem_map.mpr ⟨(k, a), ha, rfl⟩
    · exact ih hn.2 k a b ha hb

end MoonrayRenderManager

namespace MoonrayRenderManager

open Kodachi

/-- C6: OpTreeSender.processUpdates emits a message if and only if at least
one context's op-tree delta has at least one child; the emitted message has
type OPTREE_DELTA and its children are exactly one `optrees.<contextId>`
entry for each context whose delta is non-empty (in context order, with
pairwise distinct names) and no entry for a context whose delta is empty. -/
theorem processUpdates_spec (contexts : List (String × Attr))
    (hn : (contexts.map Prod.fst).Nodup) :
    (processUpdates contexts = none ↔ ∀ e ∈ contexts, numChildren e.2 = 0) ∧
    (∀ msg : Attr, processUpdates contexts = some msg →
      msg = Attr.group (("type", Attr.str "OPTREE_DELTA") ::
        (contexts.filter (fun e => 0 < numChildren e.2)).map
          (fun e => ("optrees." ++ e.1, e.2)))) ∧
    (∀ cid : String, ∀ d : Attr, (cid, d) ∈ contexts → 0 < numChildren d →
      ("optrees." ++ cid, d) ∈ ("type", Attr.str "OPTREE_DELTA") ::
        (contexts.filter (fun e => 0 < numChildren e.2)).map
          (fun e => ("optrees." ++ e.1, e.2))) ∧
    (∀ cid : String, ∀ d : Attr, (cid, d) ∈ contexts → numChildren d = 0 →
      ∀ v : Attr, ("optrees." ++ cid, v) ∉ ("type", Attr.str "OPTREE_DELTA") ::
        (contexts.filter (fun e => 0 < numChildren e.2)).map
          (fun e => ("optrees." ++ e.1, e.2))) ∧
    ((("type", Attr.str "OPTREE_DELTA") ::
        (contexts.filter (fun e => 0 < numChildren e.2)).map
          (fun e => ("optrees." ++ e.1, e.2))).map Prod.fst).Nodup := by
  have hsub : ((contexts.filter (fun e => 0 < numChildren e.2)).map Prod.fst).Nodup :=
    hn.sublist (List.Sublist.map _ (List.filter_sublist contexts))
  have hfold := processUpdates_fold (contexts.filter (fun e => 0 < numChildren e.2)) hsub
    [("type", Attr.str "OPTREE_DELTA")]
    (by
      intro e _
      simp only [List.map_cons, List.map_nil, List.mem_singleton]
      exact optrees_key_ne_type e.1)
  refine ⟨?_, ?_, ?_, ?_, ?_⟩
  · constructor
    · intro h e he
      by_contra hne
      have hpos : 0 < numChildren e.2 := by omega
      have hmem : e ∈ contexts.filter (fun e => 0 < numChildren e.2) :=
        List.mem_filter.mpr ⟨he, by simpa using hpos⟩
      have : ¬ (contexts.filter (fun e => 0 < numChildren e.2)).isEmpty := by
        rw [List.isEmpty_iff]
        intro hnil
        rw [hnil] at hmem
        simp at hmem
      rw [processUpdates] at h
      simp only [this] at h
      simp at h
    · intro h
      have hnil : contexts.filter (fun e => 0 < numChildren e.2) = [] := by
        rw [List.filter_eq_nil_iff]
        intro e he
        simp [h e he]
      rw [processUpdates]
      simp [hnil]
  · intro msg hmsg
    have hne : ¬ (contexts.filter (fun e => 0 < numChildren e.2)).isEmpty := by
      intro hempty
      rw [processUpdates] at hmsg
      simp only [hempty] at hmsg
      simp at hmsg
    rw [processUpdates] at hmsg
    simp only [hne] at hmsg
    simp only [Bool.false_eq_true, if_false, Option.some.injEq] at hmsg
    rw [← hmsg]
    have hstart : gbSet [] "type" (Attr.str "OPTREE_DELTA") =
        [("type", Attr.str "OPTREE_DELTA")] := rfl
    rw [hstart, hfold]
    rfl
  · intro cid d hmem hpos
    refine List.mem_cons_of_mem _ ?_
    exact List.mem_map.mpr ⟨(cid, d), List.mem_filter.mpr ⟨hmem, by simpa using hpos⟩, rfl⟩
  · intro cid d hmem hzero v hin
    rcases List.mem_cons.mp hin with h | h
    · exact optrees_key_ne_type cid (congrArg Prod.fst h)
    · obtain ⟨e, hef, heq⟩ := List.mem_map.mp h
      have hecid : e.1 = cid := optrees_key_inj (congrArg Prod.fst heq)
      have hev : e.2 = v := congrArg Prod.snd heq
      have hein := (List.mem_filter.mp hef).1
      have hepos : 0 < numChildren e.2 := by
        have := (List.mem_filter.mp hef).2
        simpa using this
      have he2 : (cid, e.2) ∈ contexts := by
        have : e = (cid, e.2) := Prod.ext hecid rfl
        rw [← this]
        exact hein
      have hde := assoc_key_unique contexts hn cid d e.2 hmem he2
      rw [hde] at hzero
      omega
  · rw [List.map_cons, List.nodup_cons]
    constructor
    · intro hc
      rw [List.map_map] at hc
      obtain ⟨e, _, heq⟩ := List.mem_map.mp hc
      exact optrees_key_ne_type e.1 heq
    · rw [List.map_map]
      have : (Prod.fst ∘ fun e : String × Attr => ("optrees." ++ e.1, e.2)) =
          (fun s => "optrees." ++ s) ∘ Prod.fst := rfl
      rw [this, ← List.map_map]
      exact hsub.map (fun a b h => optrees_key_inj h)

/-- Witness for `processUpdates_spec`: two contexts, one with an empty delta
and one with a one-child delta, produce a message with a single optrees
entry. -/
theorem processUpdates_spec_witness :
    ((["live", "ctx2"] : List String).Nodup → True) ∧
    (processUpdates [("live", Attr.group []), ("ctx2", Attr.group [("op1", Attr.int 1)])] =
        some (Attr.group [("type", Attr.str "OPTREE_DELTA"),
          ("optrees.ctx2", Attr.group [("op1", Attr.int 1)])]) ∧
     processUpdates [("live", Attr.group []), ("ctx2", Attr.group [])] = none) :=
  ⟨fun _ => trivial,
   by
    have h := processUpdates_spec
      [("live", Attr.group []), ("ctx2", Attr.group [("op1", Attr.int 1)])] (by decide)
    have h2 := processUpdates_spec [("live", Attr.group []), ("ctx2", Attr.group [])]
      (by decide)
    constructor
    · have hsome : processUpdates
          [("live", Attr.group []), ("ctx2", Attr.group [("op1", Attr.int 1)])] ≠ none := by
        intro hnone
        have := h.1.mp hnone ("ctx2", Attr.group [("op1", Attr.int 1)]) (by decide)
        simp [numChildren] at this
      cases hval : processUpdates
          [("live", Attr.group []), ("ctx2", Attr.group [("op1", Attr.int 1)])] with
      | none => exact absurd hval hsome
      | some msg =>
        have := h.2.1 msg hval
        rw [this]
        rfl
    · rw [h2.1]
      decide⟩

end MoonrayRenderManager

/-! ## `generate_implicit_resolvers_list.py`

The module-level script, as a function of the host-provided implicit
resolver op chain (already last-element-trimmed and reversed, i.e. the
`opChain` list as it stands at line 44): each element is the
`(opType, opArgs)` pair of one default resolver.  The collection group
builder `gb` accumulates one `kodachi_implicit_resolver*` entry per
resolver via `setWithUniqueName` (modelled as appending under the first
unused of `name`, `name1`, `name2`, ...).

The `register*` helper functions all contain the `op_gp = GroupBuilder()`
typo: the created builder is discarded and the sets land on the
module-level `op_gb` left over from the chain loop (or from the
AttributeSet special case).  Since `build()` flushes a builder, that
leftover builder is empty whenever it exists, and it does not exist at all
when no chain entry was processed (a NameError, modelled as `none`). -/

namespace ImplicitResolvers

open Kodachi

def attr_name : String := "kodachi_implicit_resolver"

/-- GroupBuilder.setWithUniqueName: append the value under the first unused
of `basename`, `basename1`, `basename2`, ... -/
def gbSetWithUniqueName (gb : GB) (basename : String) (v : Attr) : GB :=
  gb ++ [(Helper.getUnusedName basename (gb.map Prod.fst), v)]

/-- GroupBuilder.update: set every child of a group into the builder. -/
def gbUpdate (gb : GB) : Attr → GB
  | Attr.group cs => cs.foldl (fun g e => gbSet g e.1 e.2) gb
  | _ => gb

/-- The body of the stage loop for one non-"no-op" op: a fresh `op_gb`
builder receives priority, opType, ignore="katana", the addSystemOpArgs
flag (deleting a "system" child from the op args when present), and the op
args; `build()` returns the group and the flushed (empty) builder. -/
def mkChainEntry (priority : Int) (opType : String) (opArgs : Attr) : Attr × GB :=
  let og : GB := []
  let og := gbSet og "priority" (Attr.int priority)
  let og := gbSet og "opType" (Attr.str opType)
  let og := gbSet og "ignore" (Attr.str "katana")
  let hasSystem := (opArgs.childByName "system").isSome
  let args' := if hasSystem then (gbBuild (dictDelete "system" (gbUpdate [] opArgs))).1
    else opArgs
  let og := gbSet og "addSystemOpArgs" (Attr.int (if hasSystem then 1 else 0))
  let og := gbSet og "opArgs" args'
  gbBuild og

/-- The special case for a leading AttributeSet resolver: priority -1. -/
def mkAttrSetEntry (opArgs : Attr) : Attr × GB :=
  let og : GB := []
  let og := gbSet og "priority" (Attr.int (-1))
  let og := gbSet og "opType" (Attr.str "AttributeSet")
  let og := gbSet og "ignore" (Attr.str "katana")
  let og := gbSet og "addSystemOpArgs" (Attr.int 0)
  let og := gbSet og "opArgs" opArgs
  gbBuild og

/-- State of the stage loop: the collection builder `gb`, the module-level
`op_gb` name (`none` while still undefined), and `current_priority`. -/
structure LoopState where
  gb : GB
  opGb : Option GB
  priority : Int

/-- One iteration of the `for op in opChain` stage loop: a "no-op" marker
bumps the priority by 200; anything else becomes a collection entry at the
current priority and leaves `op_gb` flushed. -/
def chainStep (s : LoopState) (op : String × Attr) : LoopState :=
  if op.1 = "no-op" then { s with priority := s.priority + 200 }
  else
    let pr := mkChainEntry s.priority op.1 op.2
    { gb := gbSetWithUniqueName s.gb attr_name pr.1, opGb := some pr.2,
      priority := s.priority }

/-- One register* helper: four sets on the shared leftover `op_gb` builder,
then build (the `op_gp = GroupBuilder()` the source creates is unused). -/
def registerEntry (og : GB) (priority : Int) (opType : String) : Attr × GB :=
  let og := gbSet og "priority" (Attr.int priority)
  let og := gbSet og "opType" (Attr.str opType)
  let og := gbSet og "ignore" (Attr.str "none")
  let og := gbSet og "addSystemOpArgs" (Attr.int 1)
  gbBuild og

/-- The internal kodachi resolvers registered at the end of the script, in
source order with their fixed priorities. -/
def internalResolvers : List (Int × String) :=
  [(100, "DeferredPruneResolve"), (400, "CurveReductionOp"),
   (401, "PrimitivePruneByFrustumOp"), (402, "PrimitivePruneByVolumeOp"),
   (403, "CurveDensityOp"), (404, "CurveWidthOp"), (405, "OpSchemaResolve")]

/-- The seven registrations, threading the shared `op_gb` builder. -/
def registerAll (gb : GB) (og : GB) : GB :=
  (internalResolvers.foldl (fun s e =>
    let pr := registerEntry s.2 e.1 e.2
    (gbSetWithUniqueName s.1 attr_name pr.1, pr.2)) (gb, og)).1

/-- The whole script as a function of the trimmed, reversed host op chain.
`none` models a crash: an IndexError on an empty chain at the
`opChain[0][0]` access, or the NameError in registerDeferredPrune when no
chain entry ever defined `op_gb`. -/
def runScript (opChain : List (String × Attr)) : Option GB :=
  match opChain with
  | [] => none
  | (ty, args) :: rest =>
    let init : LoopState :=
      if ty = "AttributeSet" then
        let pr := mkAttrSetEntry args
        { gb := gbSetWithUniqueName [] attr_name pr.1, opGb := some pr.2, priority := 100 }
      else { gb := [], opGb := none, priority := 100 }
    let chain := if ty = "AttributeSet" then rest else (ty, args) :: rest
    let fin := chain.foldl chainStep init
    match fin.opGb with
    | none => none
    | some og => some (registerAll fin.gb og)

/-- The collection-entry values contributed by the stage loop, stage
priorities starting at `p` and bumped by 200 at each "no-op" marker. -/
def loopValues : Int → List (String × Attr) → List Attr
  | _, [] => []
  | p, (ty, args) :: rest =>
    if ty = "no-op" then loopValues (p + 200) rest
    else (mkChainEntry p ty args).1 :: loopValues p rest

/-- The values of the seven internal-resolver entries. -/
def internalVals : List Attr :=
  internalResolvers.map (fun e => (registerEntry [] e.1 e.2).1)

theorem gbSetWithUniqueName_values (gb : GB) (basename : String) (v : Attr) :
    (gbSetWithUniqueName gb basename v).map Prod.snd = gb.map Prod.snd ++ [v] := by
  simp [gbSetWithUniqueName]

theorem registerEntry_flushes (og : GB) (p : Int) (ty : String) :
    (registerEntry og p ty).2 = [] := rfl

theorem registerAll_values (gb : GB) :
    (registerAll gb []).map Prod.snd = gb.map Prod.snd ++ internalVals := by
  simp only [registerAll, internalResolvers, internalVals, List.foldl_cons, List.foldl_nil,
    List.map_cons, List.map_nil]
  simp [gbSetWithUniqueName_values, registerEntry_flushes]

theorem chainFold_values : ∀ chain : List (String × Attr), ∀ s : LoopState,
    ((chain.foldl chainStep s).gb).map Prod.snd =
      s.gb.map Prod.snd ++ loopValues s.priority chain := by
  intro chain
  induction chain with
  | nil => intro s; simp [loopValues]
  | cons e rest ih =>
    intro s
    obtain ⟨ty, args⟩ := e
    by_cases hty : ty = "no-op"
    · rw [List.foldl_cons, ih]
      simp [chainStep, hty, loopValues]
    · rw [List.foldl_cons, ih]
      simp [chainStep, hty, loopValues, gbSetWithUniqueName_values]

theorem chainFold_opGb : ∀ chain : List (String × Attr), ∀ s : LoopState,
    ((∀ e ∈ chain, e.1 = "no-op") → (chain.foldl chainStep s).opGb = s.opGb) ∧
    ((∃ e ∈ chain, e.1 ≠ "no-op") → (chain.foldl chainStep s).opGb = some []) := by
  intro chain
  induction chain with
  | nil =>
    intro s
    constructor
    · intro _; rfl
    · rintro ⟨e, he, _⟩; simp at he
  | cons e rest ih =>
    intro s
    obtain ⟨ty, args⟩ := e
    constructor
    · intro hall
      have hty : ty = "no-op" := hall (ty, args) (by simp)
      rw [List.foldl_cons]
      have hstep := (ih (chainStep s (ty, args))).1
        (fun e he => hall e (List.mem_cons_of_mem _ he))
      rw [hstep]
      simp [chainStep, hty]
    · rintro ⟨e', he', hne⟩
      rw [List.foldl_cons]
      rcases List.mem_cons.mp he' with h | h
      · have hty : ty ≠ "no-op" := by
          rw [h] at hne; exact hne
        by_cases hrest : ∃ e ∈ rest, e.1 ≠ "no-op"
        · exact (ih _).2 hrest
        · push_neg at hrest
          have heq := (ih (chainStep s (ty, args))).1 (fun e he => hrest e he)
          rw [heq]
          simp [chainStep, hty, mkChainEntry, gbBuild]
      · exact (ih _).2 ⟨e', h, hne⟩

theorem mkAttrSetEntry_shape (oargs : Attr) :
    (mkAttrSetEntry oargs).1 = Attr.group
      [("priority", Attr.int (-1)), ("opType", Attr.str "AttributeSet"),
       ("ignore", Attr.str "katana"), ("addSystemOpArgs", Attr.int 0),
       ("opArgs", oargs)] := rfl

theorem mkChainEntry_noSystem (p : Int) (oty : String) (oargs : Attr)
    (h : oargs.childByName "system" = none) :
    (mkChainEntry p oty oargs).1 = Attr.group
      [("priority", Attr.int p), ("opType", Attr.str oty), ("ignore", Attr.str "katana"),
       ("addSystemOpArgs", Attr.int 0), ("opArgs", oargs)] := by
  simp [mkChainEntry, h, gbSet, dictSet, gbBuild]

theorem mkChainEntry_withSystem (p : Int) (oty : String) (oargs : Attr)
    (h : (oargs.childByName "system").isSome) :
    (mkChainEntry p oty oargs).1 = Attr.group
      [("priority", Attr.int p), ("opType", Attr.str oty), ("ignore", Attr.str "katana"),
       ("addSystemOpArgs", Attr.int 1),
       ("opArgs", (gbBuild (dictDelete "system" (gbUpdate [] oargs))).1)] := by
  simp [mkChainEntry, h, gbSet, dictSet, gbBuild]

/-- C1 (amended): given the host's (trimmed, reversed) default resolver
chain, with at least one non-"no-op" element (otherwise the script crashes
with a NameError in registerDeferredPrune), the generated collection's
entries are, in order: the leading AttributeSet entry at priority -1 when
the chain starts with an AttributeSet op; one entry per remaining
non-"no-op" chain element carrying the priority of its stage, starting at
100 and increasing by 200 at each "no-op" stage marker (with opType,
ignore="katana", the addSystemOpArgs flag, and the op args stripped of
their "system" child when present); and one entry per internal kodachi
resolver - DeferredPruneResolve at priority 100, CurveReductionOp at 400,
PrimitivePruneByFrustumOp at 401, PrimitivePruneByVolumeOp at 402,
CurveDensityOp at 403, CurveWidthOp at 404, OpSchemaResolve at 405 - each
consisting of only the attributes priority, opType, ignore and
addSystemOpArgs. -/
theorem implicit_resolvers_collection (ty : String) (args : Attr)
    (rest : List (String × Attr))
    (hch : ∃ e ∈ (ty, args) :: rest, e.1 ≠ "no-op") :
    ∃ coll : GB, runScript ((ty, args) :: rest) = some coll ∧
      coll.map Prod.snd =
        (if ty = "AttributeSet" then [(mkAttrSetEntry args).1] else []) ++
        loopValues 100 (if ty = "AttributeSet" then rest else (ty, args) :: rest) ++
        internalVals ∧
      internalVals =
        [Attr.group [("priority", Attr.int 100), ("opType", Attr.str "DeferredPruneResolve"),
           ("ignore", Attr.str "none"), ("addSystemOpArgs", Attr.int 1)],
         Attr.group [("priority", Attr.int 400), ("opType", Attr.str "CurveReductionOp"),
           ("ignore", Attr.str "none"), ("addSystemOpArgs", Attr.int 1)],
         Attr.group [("priority", Attr.int 401), ("opType", Attr.str "PrimitivePruneByFrustumOp"),
           ("ignore", Attr.str "none"), ("addSystemOpArgs", Attr.int 1)],
         Attr.group [("priority", Attr.int 402), ("opType", Attr.str "PrimitivePruneByVolumeOp"),
           ("ignore", Attr.str "none"), ("addSystemOpArgs", Attr.int 1)],
         Attr.group [("priority", Attr.int 403), ("opType", Attr.str "CurveDensityOp"),
           ("ignore", Attr.str "none"), ("addSystemOpArgs", Attr.int 1)],
         Attr.group [("priority", Attr.int 404), ("opType", Attr.str "CurveWidthOp"),
           ("ignore", Attr.str "none"), ("addSystemOpArgs", Attr.int 1)],
         Attr.group [("priority", Attr.int 405), ("opType", Attr.str "OpSchemaResolve"),
           ("ignore", Attr.str "none"), ("addSystemOpArgs", Attr.int 1)]] ∧
      (∀ p : Int, ∀ oty : String, ∀ oargs : Attr, oargs.childByName "system" = none →
        (mkChainEntry p oty oargs).1 = Attr.group
          [("priority", Attr.int p), ("opType", Attr.str oty), ("ignore", Attr.str "katana"),
           ("addSystemOpArgs", Attr.int 0), ("opArgs", oargs)]) ∧
      (∀ p : Int, ∀ oty : String, ∀ oargs : Attr, (oargs.childByName "system").isSome →
        (mkChainEntry p oty oargs).1 = Attr.group
          [("priority", Attr.int p), ("opType", Attr.str oty), ("ignore", Attr.str "katana"),
           ("addSystemOpArgs", Attr.int 1),
           ("opArgs", (gbBuild (dictDelete "system" (gbUpdate [] oargs))).1)]) ∧
      (∀ oargs : Attr, (mkAttrSetEntry oargs).1 = Attr.group
        [("priority", Attr.int (-1)), ("opType", Attr.str "AttributeSet"),
         ("ignore", Attr.str "katana"), ("addSystemOpArgs", Attr.int 0),
         ("opArgs", oargs)]) := by
  by_cases hty : ty = "AttributeSet"
  · subst hty
    refine ⟨registerAll
      (List.foldl chainStep
        { gb := gbSetWithUniqueName [] attr_name (mkAttrSetEntry args).1,
          opGb := some (mkAttrSetEntry args).2, priority := 100 } rest).gb [], ?_, ?_,
      rfl, mkChainEntry_noSystem, mkChainEntry_withSystem, mkAttrSetEntry_shape⟩
    · have hopgb : (List.foldl chainStep
          { gb := gbSetWithUniqueName [] attr_name (mkAttrSetEntry args).1,
            opGb := some (mkAttrSetEntry args).2, priority := 100 } rest).opGb = some [] := by
        by_cases hrest : ∃ e ∈ rest, e.1 ≠ "no-op"
        · exact (chainFold_opGb rest _).2 hrest
        · push_neg at hrest
          rw [(chainFold_opGb rest _).1 hrest]
          rfl
      show (match (List.foldl chainStep
          { gb := gbSetWithUniqueName [] attr_name (mkAttrSetEntry args).1,
            opGb := some (mkAttrSetEntry args).2, priority := 100 } rest).opGb with
        | none => none
        | some og => some (registerAll (List.foldl chainStep
            { gb := gbSetWithUniqueName [] attr_name (mkAttrSetEntry args).1,
              opGb := some (mkAttrSetEntry args).2, priority := 100 } rest).gb og)) = _
      rw [hopgb]
    · rw [registerAll_values, chainFold_values]
      simp [gbSetWithUniqueName_values]
  · have hopgb : (List.foldl chainStep { gb := [], opGb := none, priority := 100 }
        ((ty, args) :: rest)).opGb = some [] :=
      (chainFold_opGb ((ty, args) :: rest) _).2 hch
    refine ⟨registerAll
      (List.foldl chainStep { gb := [], opGb := none, priority := 100 }
        ((ty, args) :: rest)).gb [], ?_, ?_,
      rfl, mkChainEntry_noSystem, mkChainEntry_withSystem, mkAttrSetEntry_shape⟩
    · simp only [runScript, if_neg hty]
      rw [hopgb]
    · rw [registerAll_values, chainFold_values, if_neg hty, if_neg hty]
      simp

/-- The priority of the stage a chain element at index `i` belongs to:
100 plus 200 for each "no-op" marker before it. -/
def stagePriorityAt (chain : List (String × Attr)) (i : Nat) : Int :=
  100 + 200 * (((chain.take i).countP (fun e => e.1 == "no-op") : Nat) : Int)

/-- The chain-priority sentence of C1 exactly as stated: whenever the
generator completes, every entry taken from the host's default resolver
chain is assigned the priority of its stage, starting at 100 and increasing
by 200 at each no-op stage marker. -/
def specChainClaim : Prop :=
  ∀ opChain : List (String × Attr), runScript opChain ≠ none →
    ∀ i : Nat, ∀ h : i < opChain.length,
      (opChain.get ⟨i, h⟩).1 ≠ "no-op" →
      ∃ e ∈ (runScript opChain).getD [],
        e.2.childByName "opType" = some (Attr.str (opChain.get ⟨i, h⟩).1) ∧
        e.2.childByName "priority" = some (Attr.int (stagePriorityAt opChain i))

/-- C1 counterexample: on a chain whose first element is an AttributeSet op
(the case the script explicitly special-cases), that entry is emitted with
priority -1, not the first stage's priority 100, so the claim as stated is
false. -/
theorem chain_priority_counterexample : ¬ specChainClaim := by
  intro h
  exact absurd
    (h [("AttributeSet", Attr.group []), ("Foo", Attr.group [])] (by decide) 0 (by decide)
      (by decide))
    (by decide)

/-- Witness for `implicit_resolvers_collection` on a three-element chain
with one stage marker. -/
theorem implicit_resolvers_collection_witness :
    ∃ coll : GB,
      runScript [("OpResolve", Attr.group []), ("no-op", Attr.group []),
        ("CameraInfo", Attr.group [("system", Attr.group [])])] = some coll ∧
      coll.map Prod.snd =
        (if ("OpResolve" : String) = "AttributeSet" then [(mkAttrSetEntry (Attr.group [])).1]
         else []) ++
        loopValues 100 (if ("OpResolve" : String) = "AttributeSet" then
          [("no-op", Attr.group []), ("CameraInfo", Attr.group [("system", Attr.group [])])]
          else [("OpResolve", Attr.group []), ("no-op", Attr.group []),
            ("CameraInfo", Attr.group [("system", Attr.group [])])]) ++ internalVals :=
  (implicit_resolvers_collection "OpResolve" (Attr.group [])
    [("no-op", Attr.group []), ("CameraInfo", Attr.group [("system", Attr.group [])])]
    (by decide)).imp (fun coll h => ⟨h.1, h.2.1⟩)

end ImplicitResolvers

/-! ## Dictionary and path lemmas -/

namespace Kodachi

theorem dictGet_mem {κ α : Type} [DecidableEq κ] (k : κ) :
    ∀ l : List (κ × α), ∀ v : α, dictGet k l = some v → (k, v) ∈ l := by
  intro l
  induction l with
  | nil => intro v h; simp [dictGet] at h
  | cons e r ih =>
    intro v h
    obtain ⟨k', v'⟩ := e
    by_cases hk : k' = k
    · subst hk
      simp [dictGet] at h
      simp [h]
    · simp only [dictGet, if_neg hk] at h
      exact List.mem_cons_of_mem _ (ih v h)

theorem dictGet_eq_none {κ α : Type} [DecidableEq κ] (k : κ) :
    ∀ l : List (κ × α), dictGet k l = none ↔ k ∉ l.map Prod.fst := by
  intro l
  induction l with
  | nil => simp [dictGet]
  | cons e r ih =>
    obtain ⟨k', v'⟩ := e
    by_cases hk : k' = k
    · subst hk; simp [dictGet]
    · simp [dictGet, if_neg hk, ih, Ne.symm hk]

theorem dictGet_isSome_of_mem {κ α : Type} [DecidableEq κ] (k : κ) :
    ∀ l : List (κ × α), k ∈ l.map Prod.fst → (dictGet k l).isSome := by
  intro l hk
  cases h : dictGet k l with
  | none => exact absurd hk ((dictGet_eq_none k l).mp h)
  | some v => rfl

theorem dictSet_fresh {κ α : Type} [DecidableEq κ] (k : κ) (v : α) :
    ∀ l : List (κ × α), k ∉ l.map Prod.fst → dictSet k v l = l ++ [(k, v)] := by
  intro l
  induction l with
  | nil => intro _; rfl
  | cons e r ih =>
    obtain ⟨k', v'⟩ := e
    intro h
    simp only [List.map_cons, List.mem_cons] at h
    push_neg at h
    simp only [dictSet, if_neg (Ne.symm h.1)]
    rw [ih h.2]
    simp

/-- Keys present in a dict split it around their first occurrence. -/
theorem dict_present_split {κ α : Type} [DecidableEq κ] (k : κ) :
    ∀ l : List (κ × α), ∀ v : α, dictGet k l = some v →
      ∃ pre post : List (κ × α), l = pre ++ (k, v) :: post ∧
        dictDelete k l = pre ++ post ∧ k ∉ pre.map Prod.fst := by
  intro l
  induction l with
  | nil => intro v h; simp [dictGet] at h
  | cons e r ih =>
    intro v h
    obtain ⟨k', v'⟩ := e
    by_cases hk : k' = k
    · subst hk
      simp [dictGet] at h
      exact ⟨[], r, by simp [h], by simp [dictDelete], by simp⟩
    · simp only [dictGet, if_neg hk] at h
      obtain ⟨pre, post, h1, h2, h3⟩ := ih v h
      refine ⟨(k', v') :: pre, post, by simp [h1], ?_, ?_⟩
      · simp [dictDelete, if_neg hk, h2]
      · simp [h3, Ne.symm hk]

theorem dictGet_dictSet {κ α : Type} [DecidableEq κ] (k k' : κ) (v : α) :
    ∀ l : List (κ × α), dictGet k' (dictSet k v l) =
      if k = k' then some v else dictGet k' l := by
  intro l
  induction l with
  | nil => simp [dictSet, dictGet]
  | cons e r ih =>
    obtain ⟨k0, v0⟩ := e
    by_cases h0 : k0 = k
    · subst h0
      by_cases h1 : k0 = k'
      · subst h1; simp [dictSet, dictGet]
      · simp [dictSet, dictGet, h1, if_neg h1]
    · by_cases h1 : k0 = k'
      · subst h1
        simp only [dictSet, if_neg h0, dictGet, if_pos rfl]
        have : ¬ k = k0 := fun h => h0 h.symm
        simp [this]
      · simp [dictSet, dictGet, if_neg h0, if_neg h1, ih]

theorem dictGet_append_right {κ α : Type} [DecidableEq κ] (k : κ)
    (l1 l2 : List (κ × α)) (h : k ∉ l1.map Prod.fst) :
    dictGet k (l1 ++ l2) = dictGet k l2 := by
  induction l1 with
  | nil => rfl
  | cons e r ih =>
    obtain ⟨k', v'⟩ := e
    simp only [List.map_cons, List.mem_cons] at h
    push_neg at h
    simp only [List.cons_append, dictGet, if_neg (Ne.symm h.1)]
    exact ih h.2

/-! Path-order lemmas. -/

theorem pathLE_refl (a : String) : pathLE a a := Or.inl rfl

theorem pathLE_length_le {a b : String} (h : pathLE a b) :
    a.data.length ≤ b.data.length := by
  rcases h with h | h
  · rw [h]
  · have := h.length_le
    rw [List.length_append] at this
    simp only [List.length_cons, List.length_nil] at this
    omega

theorem data_getLocationPath (p c : String) (hp : p ≠ "") :
    (getLocationPath p c).data = p.data ++ '/' :: c.data := by
  rw [getLocationPath, if_pos hp, String.data_append, String.data_append]
  have h : ("/" : String).data = ['/'] := rfl
  rw [h]
  simp

theorem pathLE_join (p c : String) (hp : p ≠ "") : pathLE p (getLocationPath p c) := by
  right
  rw [data_getLocationPath p c hp]
  have : p.data ++ '/' :: c.data = (p.data ++ ['/']) ++ c.data := by simp
  rw [this]
  exact List.prefix_append _ _

theorem pathLE_trans {a b c : String} (h1 : pathLE a b) (h2 : pathLE b c) : pathLE a c := by
  rcases h1 with h1 | h1
  · rw [h1]; exact h2
  · rcases h2 with h2 | h2
    · right; rw [← h2]; exact h1
    · right
      calc a.data ++ ['/'] <+: b.data := h1
        _ <+: b.data ++ ['/'] := List.prefix_append _ _
        _ <+: c.data := h2

theorem string_eq_of_data {a b : String} (h : a.data = b.data) : a = b := by
  cases a; cases b; exact congrArg String.mk h

/-- Two ancestors of the same location are comparable. -/
theorem pathLE_comparable {a b k : String} (ha : pathLE a k) (hb : pathLE b k) :
    pathLE a b ∨ pathLE b a := by
  rcases ha with ha | ha
  · right; rw [ha]; exact hb
  · rcases hb with hb | hb
    · left; rw [hb]; right; exact ha
    · rcases List.prefix_or_prefix_of_prefix ha hb with h | h
      · left
        rcases (List.prefix_concat_iff.mp h) with h2 | h2
        · exact Or.inl (string_eq_of_data (List.append_cancel_right h2))
        · exact Or.inr h2
      · right
        rcases (List.prefix_concat_iff.mp h) with h2 | h2
        · exact Or.inl (string_eq_of_data (List.append_cancel_right h2))
        · exact Or.inr h2

/-- Locations under incomparable roots are disjoint. -/
theorem no_common_desc {a b k : String} (hab : ¬ pathLE a b) (hba : ¬ pathLE b a)
    (ha : pathLE a k) (hb : pathLE b k) : False := by
  rcases pathLE_comparable ha hb with h | h
  · exact hab h
  · exact hba h

theorem slashFree_append_slash_not_prefix {n m : String} (hm : slashFree m)
    (h : n.data ++ ['/'] <+: m.data) : False := by
  have hmem : '/' ∈ m.data := h.subset (by simp)
  exact hm hmem

/-- Distinct slash-free sibling names give incomparable locations. -/
theorem siblings_incomparable {d n1 n2 : String} (h1 : slashFree n1) (h2 : slashFree n2)
    (hne : n1 ≠ n2) : ¬ pathLE (getLocationPath d n1) (getLocationPath d n2) := by
  intro h
  by_cases hd : d = ""
  · subst hd
    rcases h with h | h
    · exact hne (by simpa [getLocationPath] using h)
    · simp only [getLocationPath, if_neg] at h
      simp at h
      exact slashFree_append_slash_not_prefix h2 h
  · rcases h with h | h
    · have := congrArg String.data h
      rw [data_getLocationPath d n1 hd, data_getLocationPath d n2 hd] at this
      have h3 : n1.data = n2.data := by
        have := List.append_cancel_left this
        simpa using this
      exact hne (string_eq_of_data h3)
    · rw [data_getLocationPath d n1 hd, data_getLocationPath d n2 hd] at h
      have hre : (d.data ++ '/' :: n1.data) ++ ['/'] =
          (d.data ++ ['/']) ++ (n1.data ++ ['/']) := by simp
      have hre2 : d.data ++ '/' :: n2.data = (d.data ++ ['/']) ++ n2.data := by simp
      rw [hre, hre2] at h
      have := (List.prefix_append_right_inj _).mp h
      exact slashFree_append_slash_not_prefix h2 this

theorem not_pathLE_join_left (x c : String) (hx : x ≠ "") :
    ¬ pathLE (getLocationPath x c) x := by
  intro h
  have := pathLE_length_le h
  rw [data_getLocationPath x c hx] at this
  simp at this

theorem slashFree_pyBasename (s : String) : slashFree (pyBasename s) := by
  intro hmem
  simp only [pyBasename, baseNameData] at hmem
  rw [List.mem_reverse] at hmem
  have := List.mem_takeWhile_imp hmem
  simp at this

end Kodachi

/-! ## C4: index-bookkeeping invariants of the DreamGaffer cache -/

namespace DreamGaffer

open Kodachi

def keysOf (st : CacheState) : List String := st.cache.map Prod.fst

def indicesOf (st : CacheState) : List Nat := st.cache.map (fun e => e.2.index)

/-- The assigned indices and the unused list together are exactly the slots
`0 .. len(cache)+len(unused)-1`, each once. -/
def IndexPartition (st : CacheState) : Prop :=
  (indicesOf st ++ st.unused).Perm (List.range (st.cache.length + st.unused.length))

/-- Children records hold slash-free name components. -/
def NamesWF (st : CacheState) : Prop :=
  ∀ e ∈ st.cache, ∀ c ∈ e.2.children, slashFree c

def NodupChildren (st : CacheState) : Prop :=
  ∀ e ∈ st.cache, e.2.children.Nodup

/-- The inductive well-formedness invariant of a cache. -/
def Inv (st : CacheState) : Prop :=
  (keysOf st).Nodup ∧ IndexPartition st ∧ NamesWF st ∧ NodupChildren st

/-- The invariant exactly as C4 states it. -/
def ClaimedInv (st : CacheState) : Prop :=
  (∀ k1 k2 : String, ∀ i1 i2 : Info, dictGet k1 st.cache = some i1 →
    dictGet k2 st.cache = some i2 → k1 ≠ k2 → i1.index ≠ i2.index) ∧
  (∀ k : String, ∀ i : Info, dictGet k st.cache = some i → i.index ∉ st.unused)

theorem index_nodup_of_partition {st : CacheState} (hP : IndexPartition st) :
    (indicesOf st ++ st.unused).Nodup :=
  (List.Perm.nodup_iff hP).mpr (List.nodup_range _)

theorem claimedInv_of_inv {st : CacheState} (hInv : Inv st) : ClaimedInv st := by
  have hconcat := index_nodup_of_partition hInv.2.1
  rw [List.nodup_append] at hconcat
  obtain ⟨hidx, hunused, hdisj⟩ := hconcat
  constructor
  · intro k1 k2 i1 i2 h1 h2 hne heq
    obtain ⟨pre, post, hsplit, _, _⟩ := dict_present_split k1 st.cache i1 h1
    have h2' : dictGet k2 (pre ++ (k1, i1) :: post) = some i2 := by rw [← hsplit]; exact h2
    have hmem2 : (k2, i2) ∈ pre ++ (k1, i1) :: post := dictGet_mem k2 _ i2 h2'
    have hmem2' : (k2, i2) ∈ pre ∨ (k2, i2) ∈ post := by
      rcases List.mem_append.mp hmem2 with h | h
      · exact Or.inl h
      · rcases List.mem_cons.mp h with h | h
        · exact absurd (congrArg Prod.fst h).symm hne
        · exact Or.inr h
    have hidx' : (indicesOf st).Nodup := hidx
    rw [show indicesOf st = (pre ++ (k1, i1) :: post).map (fun e => e.2.index) by
      rw [← hsplit]; rfl] at hidx'
    rw [List.map_append, List.map_cons] at hidx'
    have h3 := List.nodup_append.mp hidx'
    rcases hmem2' with h | h
    · have hmemidx : i2.index ∈ pre.map (fun e => e.2.index) :=
        List.mem_map.mpr ⟨_, h, rfl⟩
      refine h3.2.2 hmemidx ?_
      rw [← heq]
      exact List.mem_cons_self _ _
    · have hmemidx : i2.index ∈ post.map (fun e => e.2.index) :=
        List.mem_map.mpr ⟨_, h, rfl⟩
      have hnodup_cons := h3.2.1
      rw [List.nodup_cons] at hnodup_cons
      exact hnodup_cons.1 (heq ▸ hmemidx)
  · intro k i h hmem
    have : i.index ∈ indicesOf st :=
      List.mem_map.mpr ⟨(k, i), dictGet_mem k _ i h, rfl⟩
    exact hdisj this hmem

end DreamGaffer

namespace DreamGaffer

open Kodachi

theorem getIndex_spec (st : CacheState) (hP : IndexPartition st) :
    (getIndexForNewLocation st).2.cache = st.cache ∧
    (indicesOf st ++ (getIndexForNewLocation st).1 ::
        (getIndexForNewLocation st).2.unused).Perm
      (List.range (st.cache.length + (getIndexForNewLocation st).2.unused.length + 1)) := by
  cases hlast : st.unused.getLast? with
  | none =>
    have hnil : st.unused = [] := List.getLast?_eq_none_iff.mp hlast
    have heq : getIndexForNewLocation st = (st.cache.length, st) := by
      rw [getIndexForNewLocation, hlast]
    rw [heq]
    refine ⟨rfl, ?_⟩
    have hP' := hP
    rw [IndexPartition, hnil, List.append_nil, List.length_nil, Nat.add_zero] at hP'
    rw [hnil]
    simp only [List.length_nil, Nat.add_zero]
    have h2 : (indicesOf st ++ [st.cache.length]).Perm
        (List.range st.cache.length ++ [st.cache.length]) := hP'.append_right _
    refine h2.trans ?_
    rw [← List.range_succ]
  | some i =>
    obtain ⟨l, hl⟩ := List.getLast?_eq_some_iff.mp hlast
    have heq : getIndexForNewLocation st = (i, ⟨st.cache, st.unused.dropLast⟩) := by
      rw [getIndexForNewLocation, hlast]
    rw [heq]
    refine ⟨rfl, ?_⟩
    have hdrop : st.unused.dropLast = l := by rw [hl, List.dropLast_concat]
    have hlen : st.unused.length = l.length + 1 := by rw [hl]; simp
    have hP' := hP
    rw [IndexPartition, hl] at hP'
    have h1 : (indicesOf st ++ i :: l).Perm (indicesOf st ++ (l ++ [i])) :=
      List.Perm.append_left _ (List.perm_append_singleton _ _).symm
    have h2 : (indicesOf st ++ (l ++ [i])).Perm
        (List.range (st.cache.length + st.unused.length)) := by
      rw [hl]
      exact hP'
    have h3 : st.cache.length + st.unused.length =
        st.cache.length + l.length + 1 := by omega
    rw [hdrop]
    refine (h1.trans h2).trans ?_
    rw [h3]

theorem controlAdd_eq (st : CacheState) (path : String)
    (hfresh : path ∉ keysOf st) :
    controlAddLocation st path =
      ⟨(getIndexForNewLocation st).2.cache ++
        [(path, ⟨(getIndexForNewLocation st).1, []⟩)],
       (getIndexForNewLocation st).2.unused⟩ := by
  have hc : (getIndexForNewLocation st).2.cache = st.cache := by
    rw [getIndexForNewLocation]
    cases hlast : st.unused.getLast? <;> rfl
  have hfresh' : path ∉ (getIndexForNewLocation st).2.cache.map Prod.fst := by
    rw [hc]; exact hfresh
  simp only [controlAddLocation]
  rw [dictSet_fresh _ _ _ hfresh']

theorem partition_snoc (c : List (String × Info)) (u : List Nat) (p : String) (i : Nat)
    (children : List String)
    (hperm : ((c.map (fun e => e.2.index)) ++ i :: u).Perm
      (List.range (c.length + u.length + 1))) :
    IndexPartition ⟨c ++ [(p, ⟨i, children⟩)], u⟩ := by
  show (((c ++ [(p, (⟨i, children⟩ : Info))]).map (fun e => e.2.index)) ++ u).Perm
    (List.range ((c ++ [(p, (⟨i, children⟩ : Info))]).length + u.length))
  rw [List.map_append, List.length_append]
  simp only [List.map_cons, List.map_nil, List.length_cons, List.length_nil]
  have harith : c.length + (0 + 1) + u.length = c.length + u.length + 1 := by omega
  rw [harith]
  refine List.Perm.trans ?_ hperm
  rw [List.append_assoc]
  exact List.Perm.refl _

/-- controlAddLocation preserves the invariant when the new path is fresh. -/
theorem controlAdd_inv (st : CacheState) (hInv : Inv st) (path : String)
    (hfresh : path ∉ keysOf st) : Inv (controlAddLocation st path) := by
  obtain ⟨hK, hP, hN, hC⟩ := hInv
  obtain ⟨hc, hperm⟩ := getIndex_spec st hP
  rw [controlAdd_eq st path hfresh]
  refine ⟨?_, ?_, ?_, ?_⟩
  · show ((((getIndexForNewLocation st).2.cache ++
      [(path, (⟨(getIndexForNewLocation st).1, []⟩ : Info))]).map Prod.fst)).Nodup
    rw [List.map_append, hc]
    rw [List.nodup_append]
    refine ⟨hK, List.nodup_singleton _, ?_⟩
    intro a ha hb
    simp only [List.map_cons, List.map_nil, List.mem_singleton] at hb
    rw [hb] at ha
    exact hfresh ha
  · refine partition_snoc _ _ _ _ _ ?_
    rw [hc]
    refine List.Perm.trans ?_ hperm
    have hlen : (getIndexForNewLocation st).2.cache.length = st.cache.length := by
      rw [hc]
    exact List.Perm.refl _
  · intro e he c hcmem
    rw [List.mem_append] at he
    rcases he with he | he
    · exact hN e (hc ▸ he) c hcmem
    · rw [List.mem_singleton] at he
      rw [he] at hcmem
      simp at hcmem
  · intro e he
    rw [List.mem_append] at he
    rcases he with he | he
    · exact hC e (hc ▸ he)
    · rw [List.mem_singleton] at he
      rw [he]
      exact List.nodup_nil

end DreamGaffer

namespace DreamGaffer

open Kodachi

theorem entry_mem_of_split {pre post : List (String × Info)} {cache : List (String × Info)}
    {k : String} {info : Info} (hsplit : cache = pre ++ (k, info) :: post)
    {e : String × Info} (he : e ∈ pre ++ post) : e ∈ cache := by
  rw [hsplit]
  rw [List.mem_append] at he ⊢
  rcases he with he | he
  · exact Or.inl he
  · exact Or.inr (List.mem_cons_of_mem _ he)

/-- Removing one cached entry and freeing its index keeps the invariant. -/
theorem removed_state_inv (st : CacheState) (hInv : Inv st) (k : String) (info : Info)
    (hget : dictGet k st.cache = some info) :
    Inv ⟨dictDelete k st.cache, st.unused ++ [info.index]⟩ := by
  obtain ⟨hK, hP, hN, hC⟩ := hInv
  obtain ⟨pre, post, hsplit, hdel, hpre⟩ := dict_present_split k st.cache info hget
  rw [hdel]
  have hidxsplit : indicesOf st =
      pre.map (fun e => e.2.index) ++ info.index :: post.map (fun e => e.2.index) := by
    show st.cache.map (fun e => e.2.index) = _
    rw [hsplit, List.map_append, List.map_cons]
  have hlensplit : st.cache.length = pre.length + post.length + 1 := by
    rw [hsplit]; simp only [List.length_append, List.length_cons]; omega
  refine ⟨?_, ?_, ?_, ?_⟩
  · have hsub : List.Sublist ((pre ++ post).map Prod.fst) (st.cache.map Prod.fst) := by
      rw [hsplit]
      refine List.Sublist.map _ ?_
      exact (List.sublist_cons_self _ _).append_left pre
    exact hK.sublist hsub
  · show (((pre ++ post).map (fun e => e.2.index)) ++ (st.unused ++ [info.index])).Perm
      (List.range ((pre ++ post).length + (st.unused ++ [info.index]).length))
    have hglen : (pre ++ post).length + (st.unused ++ [info.index]).length =
        st.cache.length + st.unused.length := by
      rw [hlensplit]; simp; omega
    rw [hglen]
    have p1 : (((pre ++ post).map (fun e => e.2.index)) ++
        (st.unused ++ [info.index])).Perm
        ((info.index :: (pre ++ post).map (fun e => e.2.index)) ++ st.unused) := by
      have : (st.unused ++ [info.index]).Perm (info.index :: st.unused) :=
        List.perm_append_singleton _ _
      refine List.Perm.trans (List.Perm.append_left _ this) ?_
      have := @List.perm_middle Nat info.index
        ((pre ++ post).map (fun e => e.2.index)) st.unused
      simpa using this
    have p2 : ((info.index :: (pre ++ post).map (fun e => e.2.index)) ++ st.unused).Perm
        (indicesOf st ++ st.unused) := by
      refine List.Perm.append_right _ ?_
      rw [hidxsplit, List.map_append]
      exact List.perm_middle.symm
    exact (p1.trans p2).trans hP
  · intro e he c hcm
    exact hN e (entry_mem_of_split hsplit he) c hcm
  · intro e he
    exact hC e (entry_mem_of_split hsplit he)

/-- recursiveRemoveLocation preserves the invariant (no preconditions). -/
theorem remove_inv : ∀ fuel : Nat,
    (∀ st : CacheState, ∀ p n : String, Inv st → Inv (removeLoc fuel st p n)) ∧
    (∀ cs : List String, ∀ st : CacheState, ∀ loc : String, Inv st →
      Inv (removeList fuel st loc cs)) := by
  intro fuel
  induction fuel with
  | zero =>
    constructor
    · intro st p n h; simpa [removeLoc] using h
    · intro cs
      induction cs with
      | nil => intro st loc h; simpa [removeList] using h
      | cons c cs ih =>
        intro st loc h
        have := ih st loc h
        simpa [removeList, removeLoc] using this
  | succ fuel ih =>
    have hloc : ∀ st : CacheState, ∀ p n : String, Inv st → Inv (removeLoc (fuel + 1) st p n) := by
      intro st p n h
      rw [removeLoc]
      cases hget : dictGet (getLocationPath p n) st.cache with
      | none =>
        have : dictPop (getLocationPath p n) st.cache = none := by
          rw [dictPop_spec, hget]; rfl
        rw [this]
        exact h
      | some info =>
        have hpop : dictPop (getLocationPath p n) st.cache =
            some (info, dictDelete (getLocationPath p n) st.cache) := by
          rw [dictPop_spec, hget]; rfl
        rw [hpop]
        exact ih.2 info.children _ _ (removed_state_inv st h _ info hget)
    refine ⟨hloc, ?_⟩
    intro cs
    induction cs with
    | nil => intro st loc h; simpa [removeList] using h
    | cons c cs ih2 =>
      intro st loc h
      have h1 := hloc st loc c h
      have := ih2 (removeLoc (fuel + 1) st loc c) loc h1
      simpa [removeList] using this

end DreamGaffer

namespace Kodachi

theorem keys_dictSet_iff {κ α : Type} [DecidableEq κ] (k K : κ) (v : α) :
    ∀ l : List (κ × α), K ∈ (dictSet k v l).map Prod.fst ↔ K = k ∨ K ∈ l.map Prod.fst := by
  intro l
  induction l with
  | nil => simp [dictSet]
  | cons e r ih =>
    obtain ⟨k', v'⟩ := e
    by_cases h : k' = k
    · subst h
      simp [dictSet]
    · simp only [dictSet, if_neg h, List.map_cons, List.mem_cons, ih]
      tauto

theorem keys_dictSet_of_mem {κ α : Type} [DecidableEq κ] (k : κ) (v : α) :
    ∀ l : List (κ × α), k ∈ l.map Prod.fst →
      (dictSet k v l).map Prod.fst = l.map Prod.fst := by
  intro l
  induction l with
  | nil => intro h; simp at h
  | cons e r ih =>
    obtain ⟨k', v'⟩ := e
    intro h
    by_cases hk : k' = k
    · subst hk; simp [dictSet]
    · simp only [List.map_cons, List.mem_cons] at h
      rcases h with h | h
      · exact absurd h.symm hk
      · simp only [dictSet, if_neg hk, List.map_cons, ih h]

theorem dictSet_on_split {κ α : Type} [DecidableEq κ] (k : κ) (v v₀ : α)
    (pre post : List (κ × α)) (hpre : k ∉ pre.map Prod.fst) :
    dictSet k v (pre ++ (k, v₀) :: post) = pre ++ (k, v) :: post := by
  induction pre with
  | nil => simp [dictSet]
  | cons e r ih =>
    obtain ⟨k', v'⟩ := e
    simp only [List.map_cons, List.mem_cons] at hpre
    push_neg at hpre
    simp only [List.cons_append, dictSet, if_neg (Ne.symm hpre.1)]
    congr 1
    exact ih hpre.2

theorem dictGet_append_left {κ α : Type} [DecidableEq κ] (k : κ) (v : α) :
    ∀ l1 l2 : List (κ × α), dictGet k l1 = some v → dictGet k (l1 ++ l2) = some v := by
  intro l1 l2
  induction l1 with
  | nil => intro h; simp [dictGet] at h
  | cons e r ih =>
    obtain ⟨k', v'⟩ := e
    intro h
    by_cases hk : k' = k
    · subst hk
      simp [dictGet] at h ⊢
      exact h
    · simp only [dictGet, if_neg hk] at h
      simp only [List.cons_append, dictGet, if_neg hk]
      exact ih h

theorem getLocationPath_ne_empty (d c : String) (h : d ≠ "" ∨ c ≠ "") :
    getLocationPath d c ≠ "" := by
  by_cases hd : d = ""
  · rcases h with h | h
    · exact absurd hd h
    · rw [getLocationPath, if_neg (by simpa [hd])]
      simpa [hd]
  · intro hcon
    have := congrArg String.data hcon
    rw [data_getLocationPath d c hd] at this
    simp at this

end Kodachi

namespace DreamGaffer

open Kodachi

/-- Every key of a duplicate's result is an original key or lies in the
destination subtree. -/
theorem dup_keys_bound : ∀ fuel : Nat,
    (∀ st : CacheState, ∀ src dst : String, dst ≠ "" →
      ∀ K ∈ keysOf (dupLoc fuel st src dst), K ∈ keysOf st ∨ pathLE dst K) ∧
    (∀ cs : List String, ∀ st : CacheState, ∀ src dst : String, dst ≠ "" →
      ∀ K ∈ keysOf (dupList fuel st src dst cs), K ∈ keysOf st ∨
        ∃ c ∈ cs, pathLE (getLocationPath dst c) K) := by
  intro fuel
  induction fuel with
  | zero =>
    constructor
    · intro st src dst _ K hK; exact Or.inl (by simpa [dupLoc] using hK)
    · intro cs
      induction cs with
      | nil => intro st src dst _ K hK; exact Or.inl (by simpa [dupList] using hK)
      | cons c cs ih =>
        intro st src dst hdst K hK
        rw [show dupList 0 st src dst (c :: cs) =
          dupList 0 (dupLoc 0 st (getLocationPath src c) (getLocationPath dst c))
            src dst cs from by rw [dupList]] at hK
        rcases ih _ src dst hdst K hK with h | h
        · exact Or.inl (by simpa [dupLoc] using h)
        · exact Or.inr ⟨h.choose, List.mem_cons_of_mem _ h.choose_spec.1, h.choose_spec.2⟩
  | succ fuel ih =>
    have hloc : ∀ st : CacheState, ∀ src dst : String, dst ≠ "" →
        ∀ K ∈ keysOf (dupLoc (fuel + 1) st src dst), K ∈ keysOf st ∨ pathLE dst K := by
      intro st src dst hdst K hK
      rw [dupLoc] at hK
      cases hget : dictGet src st.cache with
      | none => rw [hget] at hK; exact Or.inl hK
      | some info =>
        rw [hget] at hK
        rcases ih.2 _ _ src dst hdst K hK with h | h
        · rw [keysOf] at h
          have hc : (getIndexForNewLocation st).2.cache = st.cache := by
            rw [getIndexForNewLocation]
            cases st.unused.getLast? <;> rfl
          rw [show (⟨dictSet dst ⟨(getIndexForNewLocation st).1, info.children⟩
              (getIndexForNewLocation st).2.cache,
              (getIndexForNewLocation st).2.unused⟩ : CacheState).cache =
            dictSet dst ⟨(getIndexForNewLocation st).1, info.children⟩
              (getIndexForNewLocation st).2.cache from rfl] at h
          rcases (keys_dictSet_iff dst K _ _).mp h with h | h
          · exact Or.inr (h ▸ pathLE_refl dst)
          · rw [hc] at h
            exact Or.inl h
        · obtain ⟨c, _, hle⟩ := h
          exact Or.inr (pathLE_trans (pathLE_join dst c hdst) hle)
    refine ⟨hloc, ?_⟩
    intro cs
    induction cs with
    | nil => intro st src dst _ K hK; exact Or.inl (by simpa [dupList] using hK)
    | cons c cs ih2 =>
      intro st src dst hdst K hK
      rw [show dupList (fuel + 1) st src dst (c :: cs) =
        dupList (fuel + 1) (dupLoc (fuel + 1) st (getLocationPath src c)
          (getLocationPath dst c)) src dst cs from by rw [dupList]] at hK
      rcases ih2 _ src dst hdst K hK with h | h
      · rcases hloc st (getLocationPath src c) (getLocationPath dst c)
            (getLocationPath_ne_empty dst c (Or.inl hdst)) K h with h2 | h2
        · exact Or.inl h2
        · exact Or.inr ⟨c, by simp, h2⟩
      · exact Or.inr ⟨h.choose, List.mem_cons_of_mem _ h.choose_spec.1, h.choose_spec.2⟩

end DreamGaffer

namespace DreamGaffer

open Kodachi

/-- Inserting a fresh path with a fresh index from getIndexForNewLocation
keeps the invariant (the inserted children record must be well-formed). -/
theorem insert_new_state_inv (st : CacheState) (hInv : Inv st) (path : String)
    (hfresh : path ∉ keysOf st) (children : List String)
    (hwf : ∀ c ∈ children, slashFree c) (hnd : children.Nodup) :
    Inv ⟨dictSet path ⟨(getIndexForNewLocation st).1, children⟩
        (getIndexForNewLocation st).2.cache,
      (getIndexForNewLocation st).2.unused⟩ := by
  obtain ⟨hK, hP, hN, hC⟩ := hInv
  obtain ⟨hc, hperm⟩ := getIndex_spec st hP
  have hfresh' : path ∉ (getIndexForNewLocation st).2.cache.map Prod.fst := by
    rw [hc]; exact hfresh
  rw [dictSet_fresh _ _ _ hfresh']
  refine ⟨?_, ?_, ?_, ?_⟩
  · show ((((getIndexForNewLocation st).2.cache ++
      [(path, (⟨(getIndexForNewLocation st).1, children⟩ : Info))]).map Prod.fst)).Nodup
    rw [List.map_append, hc]
    rw [List.nodup_append]
    refine ⟨hK, List.nodup_singleton _, ?_⟩
    intro a ha hb
    simp only [List.map_cons, List.map_nil, List.mem_singleton] at hb
    rw [hb] at ha
    exact hfresh ha
  · refine partition_snoc _ _ _ _ _ ?_
    rw [hc]
    exact List.Perm.trans (List.Perm.refl _) hperm
  · intro e he c hcmem
    rw [List.mem_append] at he
    rcases he with he | he
    · exact hN e (hc ▸ he) c hcmem
    · rw [List.mem_singleton] at he
      rw [he] at hcmem
      exact hwf c hcmem
  · intro e he
    rw [List.mem_append] at he
    rcases he with he | he
    · exact hC e (hc ▸ he)
    · rw [List.mem_singleton] at he
      rw [he]
      exact hnd

/-- recursiveDuplicateLocation preserves the invariant when nothing lies in
the destination subtree. -/
theorem dup_inv : ∀ fuel : Nat,
    (∀ st : CacheState, ∀ src dst : String, Inv st → dst ≠ "" →
      (∀ K ∈ keysOf st, ¬ pathLE dst K) → Inv (dupLoc fuel st src dst)) ∧
    (∀ cs : List String, ∀ st : CacheState, ∀ src dst : String, Inv st → dst ≠ "" →
      cs.Nodup → (∀ c ∈ cs, slashFree c) →
      (∀ c ∈ cs, ∀ K ∈ keysOf st, ¬ pathLE (getLocationPath dst c) K) →
      Inv (dupList fuel st src dst cs)) := by
  intro fuel
  induction fuel with
  | zero =>
    constructor
    · intro st src dst h _ _; simpa [dupLoc] using h
    · intro cs
      induction cs with
      | nil => intro st src dst h _ _ _ _; simpa [dupList] using h
      | cons c cs ih =>
        intro st src dst h hdst hnd hsf hfr
        rw [show dupList 0 st src dst (c :: cs) =
          dupList 0 (dupLoc 0 st (getLocationPath src c) (getLocationPath dst c))
            src dst cs from by rw [dupList]]
        refine ih _ src dst ?_ hdst hnd.of_cons (fun c' hc' => hsf c' (.tail _ hc')) ?_
        · simpa [dupLoc] using h
        · intro c' hc' K hK
          refine hfr c' (.tail _ hc') K ?_
          simpa [dupLoc] using hK
  | succ fuel ih =>
    have hloc : ∀ st : CacheState, ∀ src dst : String, Inv st → dst ≠ "" →
        (∀ K ∈ keysOf st, ¬ pathLE dst K) → Inv (dupLoc (fuel + 1) st src dst) := by
      intro st src dst h hdst hfr
      rw [dupLoc]
      cases hget : dictGet src st.cache with
      | none => exact h
      | some info =>
        have hfreshdst : dst ∉ keysOf st := fun hmem => hfr dst hmem (pathLE_refl dst)
        have hsrcmem : (src, info) ∈ st.cache := dictGet_mem _ _ _ hget
        have hinv2 := insert_new_state_inv st h dst hfreshdst info.children
          (fun c hc => h.2.2.1 (src, info) hsrcmem c hc)
          (h.2.2.2 (src, info) hsrcmem)
        have hc1 : (getIndexForNewLocation st).2.cache = st.cache := by
          rw [getIndexForNewLocation]; cases st.unused.getLast? <;> rfl
        have hneq : dst ≠ src := by
          intro hcon
          apply hfreshdst
          rw [hcon]
          exact List.mem_map.mpr ⟨(src, info), hsrcmem, rfl⟩
        have hre : dictGet src (dictSet dst
            (⟨(getIndexForNewLocation st).1, info.children⟩ : Info)
            (getIndexForNewLocation st).2.cache) = some info := by
          rw [dictGet_dictSet, if_neg hneq, hc1]
          exact hget
        show Inv (dupList fuel
          ⟨dictSet dst (⟨(getIndexForNewLocation st).1, info.children⟩ : Info)
              (getIndexForNewLocation st).2.cache,
            (getIndexForNewLocation st).2.unused⟩ src dst
          (match dictGet src (dictSet dst
              (⟨(getIndexForNewLocation st).1, info.children⟩ : Info)
              (getIndexForNewLocation st).2.cache) with
            | some info2 => info2.children
            | none => []))
        rw [hre]
        refine ih.2 info.children _ src dst hinv2 hdst
          (h.2.2.2 (src, info) hsrcmem)
          (fun c hc => h.2.2.1 (src, info) hsrcmem c hc) ?_
        intro c hc K hK hle
        rcases (keys_dictSet_iff dst K _ _).mp hK with h1 | h1
        · exact not_pathLE_join_left dst c hdst (h1 ▸ hle)
        · rw [hc1] at h1
          exact hfr K h1 (pathLE_trans (pathLE_join dst c hdst) hle)
    refine ⟨hloc, ?_⟩
    intro cs
    induction cs with
    | nil => intro st src dst h _ _ _ _; simpa [dupList] using h
    | cons c cs ih2 =>
      intro st src dst h hdst hnd hsf hfr
      rw [show dupList (fuel + 1) st src dst (c :: cs) =
        dupList (fuel + 1) (dupLoc (fuel + 1) st (getLocationPath src c)
          (getLocationPath dst c)) src dst cs from by rw [dupList]]
      have hinv1 := hloc st (getLocationPath src c) (getLocationPath dst c) h
        (getLocationPath_ne_empty dst c (Or.inl hdst)) (hfr c (by simp))
      refine ih2 _ src dst hinv1 hdst hnd.of_cons (fun c' hc' => hsf c' (.tail _ hc')) ?_
      intro c' hc' K hK hle
      rcases (dup_keys_bound (fuel + 1)).1 st (getLocationPath src c) (getLocationPath dst c)
          (getLocationPath_ne_empty dst c (Or.inl hdst)) K hK with h1 | h1
      · exact hfr c' (.tail _ hc') K h1 hle
      · have hcc : c ≠ c' := by
          intro hcon
          rw [List.nodup_cons] at hnd
          exact hnd.1 (hcon ▸ hc')
        exact no_common_desc
          (siblings_incomparable (hsf c (by simp)) (hsf c' (.tail _ hc')) hcc)
          (siblings_incomparable (hsf c' (.tail _ hc')) (hsf c (by simp)) (Ne.symm hcc))
          h1 hle

end DreamGaffer

namespace Kodachi

theorem keys_dictDelete_subset {κ α : Type} [DecidableEq κ] (k : κ) :
    ∀ l : List (κ × α), ∀ K ∈ (dictDelete k l).map Prod.fst, K ∈ l.map Prod.fst := by
  intro l
  induction l with
  | nil => intro K hK; simpa [dictDelete] using hK
  | cons e r ih =>
    obtain ⟨k', v'⟩ := e
    intro K hK
    by_cases h : k' = k
    · simp only [dictDelete, if_pos h] at hK
      exact List.mem_cons_of_mem _ hK
    · simp only [dictDelete, if_neg h, List.map_cons, List.mem_cons] at hK ⊢
      rcases hK with hK | hK
      · exact Or.inl hK
      · exact Or.inr (ih K hK)

end Kodachi

namespace DreamGaffer

open Kodachi

/-- Re-keying one cached entry to a fresh key keeps the invariant. -/
theorem rekey_state_inv (st : CacheState) (hInv : Inv st) (oldK newK : String)
    (info : Info) (hget : dictGet oldK st.cache = some info)
    (hfresh : newK ∉ keysOf st) :
    Inv ⟨dictSet newK info (dictDelete oldK st.cache), st.unused⟩ := by
  obtain ⟨hK, hP, hN, hC⟩ := hInv
  obtain ⟨pre, post, hsplit, hdel, hpre⟩ := dict_present_split oldK st.cache info hget
  have hfresh2 : newK ∉ (dictDelete oldK st.cache).map Prod.fst := by
    intro hmem
    exact hfresh (keys_dictDelete_subset oldK st.cache newK hmem)
  rw [dictSet_fresh _ _ _ hfresh2, hdel]
  have hmemsub : ∀ e : String × Info, e ∈ pre ++ post → e ∈ st.cache :=
    fun e he => entry_mem_of_split hsplit he
  refine ⟨?_, ?_, ?_, ?_⟩
  · show (((pre ++ post) ++ [(newK, info)]).map Prod.fst).Nodup
    rw [List.map_append, List.nodup_append]
    refine ⟨?_, List.nodup_singleton _, ?_⟩
    · have hsub : List.Sublist ((pre ++ post).map Prod.fst) (st.cache.map Prod.fst) := by
        rw [hsplit]
        exact List.Sublist.map _ ((List.sublist_cons_self _ _).append_left pre)
      exact hK.sublist hsub
    · intro a ha hb
      simp only [List.map_cons, List.map_nil, List.mem_singleton] at hb
      rw [hb] at ha
      rw [← hdel] at ha
      exact hfresh2 ha
  · show ((((pre ++ post) ++ [(newK, info)]).map (fun e => e.2.index)) ++ st.unused).Perm
      (List.range (((pre ++ post) ++ [(newK, info)]).length + st.unused.length))
    have hlen : ((pre ++ post) ++ [(newK, info)]).length = st.cache.length := by
      rw [hsplit]; simp
    rw [hlen, List.map_append]
    simp only [List.map_cons, List.map_nil]
    have hidxsplit : indicesOf st =
        pre.map (fun e => e.2.index) ++ info.index :: post.map (fun e => e.2.index) := by
      show st.cache.map (fun e => e.2.index) = _
      rw [hsplit, List.map_append, List.map_cons]
    have p1 : (((pre ++ post).map (fun e => e.2.index) ++ [info.index]) ++ st.unused).Perm
        ((info.index :: (pre ++ post).map (fun e => e.2.index)) ++ st.unused) := by
      refine List.Perm.append_right _ ?_
      exact List.perm_append_singleton _ _
    have p2 : ((info.index :: (pre ++ post).map (fun e => e.2.index)) ++ st.unused).Perm
        (indicesOf st ++ st.unused) := by
      refine List.Perm.append_right _ ?_
      rw [hidxsplit, List.map_append]
      exact List.perm_middle.symm
    exact (p1.trans p2).trans hP
  · intro e he c hcm
    rw [List.mem_append] at he
    rcases he with he | he
    · exact hN e (hmemsub e he) c hcm
    · rw [List.mem_singleton] at he
      rw [he] at hcm
      exact hN (oldK, info) (by rw [hsplit]; simp) c hcm
  · intro e he
    rw [List.mem_append] at he
    rcases he with he | he
    · exact hC e (hmemsub e he)
    · rw [List.mem_singleton] at he
      rw [he]
      exact hC (oldK, info) (by rw [hsplit]; simp)

/-- Keys of the recursive re-keying are original keys or keys in the new
subtrees. -/
theorem rename_keys_bound : ∀ fuel : Nat,
    (∀ st : CacheState, ∀ p c np : String, np ≠ "" →
      ∀ K ∈ keysOf (renameOneChild fuel st p c np),
        K ∈ keysOf st ∨ pathLE (getLocationPath np c) K) ∧
    (∀ cs : List String, ∀ st : CacheState, ∀ p np : String, np ≠ "" →
      ∀ K ∈ keysOf (renameChildList fuel st p cs np), K ∈ keysOf st ∨
        ∃ c ∈ cs, pathLE (getLocationPath np c) K) := by
  intro fuel
  induction fuel with
  | zero =>
    constructor
    · intro st p c np _ K hK; exact Or.inl (by simpa [renameOneChild] using hK)
    · intro cs
      induction cs with
      | nil => intro st p np _ K hK; exact Or.inl (by simpa [renameChildList] using hK)
      | cons c cs ih =>
        intro st p np hnp K hK
        rw [show renameChildList 0 st p (c :: cs) np =
          renameChildList 0 (renameOneChild 0 st p c np) p cs np from by
            rw [renameChildList]] at hK
        rcases ih _ p np hnp K hK with h | h
        · exact Or.inl (by simpa [renameOneChild] using h)
        · exact Or.inr ⟨h.choose, List.mem_cons_of_mem _ h.choose_spec.1, h.choose_spec.2⟩
  | succ fuel ih =>
    have hloc : ∀ st : CacheState, ∀ p c np : String, np ≠ "" →
        ∀ K ∈ keysOf (renameOneChild (fuel + 1) st p c np),
          K ∈ keysOf st ∨ pathLE (getLocationPath np c) K := by
      intro st p c np hnp K hK
      rw [renameOneChild] at hK
      cases hpop : dictPop (getLocationPath p c) st.cache with
      | none => rw [hpop] at hK; exact Or.inl hK
      | some pr =>
        rw [hpop] at hK
        obtain ⟨info, cache'⟩ := pr
        have hget : dictGet (getLocationPath p c) st.cache = some info ∧
            cache' = dictDelete (getLocationPath p c) st.cache := by
          rw [dictPop_spec] at hpop
          cases hg : dictGet (getLocationPath p c) st.cache with
          | none => rw [hg] at hpop; simp at hpop
          | some i0 =>
            rw [hg] at hpop
            simp at hpop
            exact ⟨by rw [hpop.1], hpop.2.symm⟩
        rcases ih.2 _ _ _ _ (getLocationPath_ne_empty np c (Or.inl hnp)) K hK with h | h
        · rw [keysOf] at h
          rcases (keys_dictSet_iff (getLocationPath np c) K _ _).mp h with h1 | h1
          · exact Or.inr (h1 ▸ pathLE_refl _)
          · rw [hget.2] at h1
            exact Or.inl (keys_dictDelete_subset _ st.cache K h1)
        · obtain ⟨c', _, hle⟩ := h
          exact Or.inr (pathLE_trans
            (pathLE_join _ c' (getLocationPath_ne_empty np c (Or.inl hnp))) hle)
    refine ⟨hloc, ?_⟩
    intro cs
    induction cs with
    | nil => intro st p np _ K hK; exact Or.inl (by simpa [renameChildList] using hK)
    | cons c cs ih2 =>
      intro st p np hnp K hK
      rw [show renameChildList (fuel + 1) st p (c :: cs) np =
        renameChildList (fuel + 1) (renameOneChild (fuel + 1) st p c np) p cs np from by
          rw [renameChildList]] at hK
      rcases ih2 _ p np hnp K hK with h | h
      · rcases hloc st p c np hnp K h with h2 | h2
        · exact Or.inl h2
        · exact Or.inr ⟨c, by simp, h2⟩
      · exact Or.inr ⟨h.choose, List.mem_cons_of_mem _ h.choose_spec.1, h.choose_spec.2⟩

end DreamGaffer

namespace DreamGaffer

open Kodachi

/-- recursiveRenameChildLocation preserves the invariant when nothing lies in
the renamed subtrees. -/
theorem rename_inv : ∀ fuel : Nat,
    (∀ st : CacheState, ∀ p c np : String, Inv st → np ≠ "" →
      (∀ K ∈ keysOf st, ¬ pathLE (getLocationPath np c) K) →
      Inv (renameOneChild fuel st p c np)) ∧
    (∀ cs : List String, ∀ st : CacheState, ∀ p np : String, Inv st → np ≠ "" →
      cs.Nodup → (∀ c ∈ cs, slashFree c) →
      (∀ c ∈ cs, ∀ K ∈ keysOf st, ¬ pathLE (getLocationPath np c) K) →
      Inv (renameChildList fuel st p cs np)) := by
  intro fuel
  induction fuel with
  | zero =>
    constructor
    · intro st p c np h _ _; simpa [renameOneChild] using h
    · intro cs
      induction cs with
      | nil => intro st p np h _ _ _ _; simpa [renameChildList] using h
      | cons c cs ih =>
        intro st p np h hnp hnd hsf hfr
        rw [show renameChildList 0 st p (c :: cs) np =
          renameChildList 0 (renameOneChild 0 st p c np) p cs np from by
            rw [renameChildList]]
        refine ih _ p np ?_ hnp hnd.of_cons (fun c' hc' => hsf c' (.tail _ hc')) ?_
        · simpa [renameOneChild] using h
        · intro c' hc' K hK
          refine hfr c' (.tail _ hc') K ?_
          simpa [renameOneChild] using hK
  | succ fuel ih =>
    have hloc : ∀ st : CacheState, ∀ p c np : String, Inv st → np ≠ "" →
        (∀ K ∈ keysOf st, ¬ pathLE (getLocationPath np c) K) →
        Inv (renameOneChild (fuel + 1) st p c np) := by
      intro st p c np h hnp hfr
      rw [renameOneChild]
      cases hpop : dictPop (getLocationPath p c) st.cache with
      | none => exact h
      | some pr =>
        obtain ⟨info, cache'⟩ := pr
        have hget : dictGet (getLocationPath p c) st.cache = some info ∧
            cache' = dictDelete (getLocationPath p c) st.cache := by
          rw [dictPop_spec] at hpop
          cases hg : dictGet (getLocationPath p c) st.cache with
          | none => rw [hg] at hpop; simp at hpop
          | some i0 =>
            rw [hg] at hpop
            simp at hpop
            exact ⟨by rw [hpop.1], hpop.2.symm⟩
        have hnk : getLocationPath np c ≠ "" := getLocationPath_ne_empty np c (Or.inl hnp)
        have hfresh : getLocationPath np c ∉ keysOf st := fun hmem =>
          hfr _ hmem (pathLE_refl _)
        have hinv2 : Inv ⟨dictSet (getLocationPath np c) info cache', st.unused⟩ := by
          rw [hget.2]
          exact rekey_state_inv st h (getLocationPath p c) (getLocationPath np c)
            info hget.1 hfresh
        have hmem : (getLocationPath p c, info) ∈ st.cache := dictGet_mem _ _ _ hget.1
        show Inv (renameChildList fuel
          ⟨dictSet (getLocationPath np c) info cache', st.unused⟩
          (getLocationPath p c) info.children (getLocationPath np c))
        refine ih.2 info.children _ _ _ hinv2 hnk
          (h.2.2.2 _ hmem) (fun c' hc' => h.2.2.1 _ hmem c' hc') ?_
        intro c' hc' K hK hle
        rw [keysOf] at hK
        rcases (keys_dictSet_iff (getLocationPath np c) K _ _).mp hK with h1 | h1
        · exact not_pathLE_join_left (getLocationPath np c) c' hnk (h1 ▸ hle)
        · rw [hget.2] at h1
          exact hfr K (keys_dictDelete_subset _ st.cache K h1)
            (pathLE_trans (pathLE_join _ c' hnk) hle)
    refine ⟨hloc, ?_⟩
    intro cs
    induction cs with
    | nil => intro st p np h _ _ _ _; simpa [renameChildList] using h
    | cons c cs ih2 =>
      intro st p np h hnp hnd hsf hfr
      rw [show renameChildList (fuel + 1) st p (c :: cs) np =
        renameChildList (fuel + 1) (renameOneChild (fuel + 1) st p c np) p cs np from by
          rw [renameChildList]]
      have hinv1 := hloc st p c np h hnp (hfr c (by simp))
      refine ih2 _ p np hinv1 hnp hnd.of_cons (fun c' hc' => hsf c' (.tail _ hc')) ?_
      intro c' hc' K hK hle
      rcases (rename_keys_bound (fuel + 1)).1 st p c np hnp K hK with h1 | h1
      · exact hfr c' (.tail _ hc') K h1 hle
      · have hcc : c ≠ c' := by
          intro hcon
          rw [List.nodup_cons] at hnd
          exact hnd.1 (hcon ▸ hc')
        exact no_common_desc
          (siblings_incomparable (hsf c (by simp)) (hsf c' (.tail _ hc')) hcc)
          (siblings_incomparable (hsf c' (.tail _ hc')) (hsf c (by simp)) (Ne.symm hcc))
          h1 hle

/-- renameLocation preserves the invariant when it succeeds and nothing lies
in the new-location subtree. -/
theorem renameLocation_inv (fuel : Nat) (st : CacheState) (hInv : Inv st)
    (oldLocation newLocation : String) (hnl : newLocation ≠ "")
    (hfr : ∀ K ∈ keysOf st, ¬ pathLE newLocation K) :
    ∀ res, renameLocation fuel st oldLocation newLocation = some res → Inv res := by
  intro res hres
  rw [renameLocation] at hres
  cases hpop : dictPop oldLocation st.cache with
  | none => rw [hpop] at hres; exact absurd hres (by simp)
  | some pr =>
    rw [hpop] at hres
    obtain ⟨info, cache'⟩ := pr
    simp only [Option.some.injEq] at hres
    have hget : dictGet oldLocation st.cache = some info ∧
        cache' = dictDelete oldLocation st.cache := by
      rw [dictPop_spec] at hpop
      cases hg : dictGet oldLocation st.cache with
      | none => rw [hg] at hpop; simp at hpop
      | some i0 =>
        rw [hg] at hpop
        simp at hpop
        exact ⟨by rw [hpop.1], hpop.2.symm⟩
    have hfresh : newLocation ∉ keysOf st := fun hmem => hfr _ hmem (pathLE_refl _)
    have hinv2 : Inv ⟨dictSet newLocation info cache', st.unused⟩ := by
      rw [hget.2]
      exact rekey_state_inv st hInv oldLocation newLocation info hget.1 hfresh
    have hmem : (oldLocation, info) ∈ st.cache := dictGet_mem _ _ _ hget.1
    rw [← hres]
    refine (rename_inv fuel).2 info.children _ _ _ hinv2 hnl
      (hInv.2.2.2 _ hmem) (fun c' hc' => hInv.2.2.1 _ hmem c' hc') ?_
    intro c' hc' K hK hle
    rw [keysOf] at hK
    rcases (keys_dictSet_iff newLocation K _ _).mp hK with h1 | h1
    · exact not_pathLE_join_left newLocation c' hnl (h1 ▸ hle)
    · rw [hget.2] at h1
      exact hfr K (keys_dictDelete_subset _ st.cache K h1)
        (pathLE_trans (pathLE_join _ c' hnl) hle)

end DreamGaffer

namespace DreamGaffer

open Kodachi

/-- Replacing a present entry's children record (same index) keeps the
invariant, provided the new record is well-formed. -/
theorem set_children_inv (st : CacheState) (hInv : Inv st) (parent : String)
    (info : Info) (hg : dictGet parent st.cache = some info) (c2 : List String)
    (hwf : ∀ c ∈ c2, slashFree c) (hnd : c2.Nodup) :
    Inv ⟨dictSet parent ⟨info.index, c2⟩ st.cache, st.unused⟩ := by
  obtain ⟨hK, hP, hN, hC⟩ := hInv
  obtain ⟨pre, post, hsplit, hdel, hpre⟩ := dict_present_split parent st.cache info hg
  rw [show dictSet parent (⟨info.index, c2⟩ : Info) st.cache =
      pre ++ (parent, (⟨info.index, c2⟩ : Info)) :: post from by
    rw [hsplit]
    exact dictSet_on_split parent _ info pre post hpre]
  refine ⟨?_, ?_, ?_, ?_⟩
  · show ((pre ++ (parent, (⟨info.index, c2⟩ : Info)) :: post).map Prod.fst).Nodup
    have hmap : (pre ++ (parent, (⟨info.index, c2⟩ : Info)) :: post).map Prod.fst =
        st.cache.map Prod.fst := by
      rw [hsplit]; simp
    rw [hmap]; exact hK
  · show ((⟨pre ++ (parent, (⟨info.index, c2⟩ : Info)) :: post,
      st.unused⟩ : CacheState).cache.map (fun e => e.2.index) ++ st.unused).Perm
      (List.range ((pre ++ (parent, (⟨info.index, c2⟩ : Info)) :: post).length +
        st.unused.length))
    have hidx : (pre ++ (parent, (⟨info.index, c2⟩ : Info)) :: post).map
        (fun e => e.2.index) = st.cache.map (fun e => e.2.index) := by
      rw [hsplit]; simp
    have hlen : (pre ++ (parent, (⟨info.index, c2⟩ : Info)) :: post).length =
        st.cache.length := by
      rw [hsplit]; simp
    rw [hidx, hlen]
    exact hP
  · intro e he c hcm
    rw [List.mem_append, List.mem_cons] at he
    rcases he with he | he | he
    · exact hN e (entry_mem_of_split hsplit (List.mem_append.mpr (Or.inl he))) c hcm
    · rw [he] at hcm
      exact hwf c hcm
    · exact hN e (entry_mem_of_split hsplit (List.mem_append.mpr (Or.inr he))) c hcm
  · intro e he
    rw [List.mem_append, List.mem_cons] at he
    rcases he with he | he | he
    · exact hC e (entry_mem_of_split hsplit (List.mem_append.mpr (Or.inl he)))
    · rw [he]; exact hnd
    · exact hC e (entry_mem_of_split hsplit (List.mem_append.mpr (Or.inr he)))

/-- updateChildName (called with a new and an old name) keeps the invariant
when the new name is slash-free and not already recorded for the parent. -/
theorem updateChild_inv (st : CacheState) (hInv : Inv st) (parent nn od : String)
    (hsf : slashFree nn)
    (hnotin : ∀ info, dictGet parent st.cache = some info → nn ∉ info.children) :
    Inv (findAndUpdateChildNameSelf st parent (some nn) (some od)) := by
  unfold findAndUpdateChildNameSelf updateChildName
  cases hg : dictGet parent st.cache with
  | none => exact hInv
  | some info =>
    have hmem := dictGet_mem _ _ _ hg
    have hcnd : info.children.Nodup := hInv.2.2.2 _ hmem
    have hcwf : ∀ c ∈ info.children, slashFree c := fun c hc => hInv.2.2.1 _ hmem c hc
    have hc1sub : ∀ x ∈ (if od ∈ info.children then info.children.erase od
        else info.children), x ∈ info.children := by
      by_cases h : od ∈ info.children
      · rw [if_pos h]; intro x hx; exact List.mem_of_mem_erase hx
      · rw [if_neg h]; intro x hx; exact hx
    have hc1nd : (if od ∈ info.children then info.children.erase od
        else info.children).Nodup := by
      by_cases h : od ∈ info.children
      · rw [if_pos h]; exact hcnd.erase od
      · rw [if_neg h]; exact hcnd
    have hnn1 : nn ∉ (if od ∈ info.children then info.children.erase od
        else info.children) := fun hm => hnotin info hg (hc1sub nn hm)
    have hwf2 : ∀ c ∈ (if nn ≠ "" then
        (if od ∈ info.children then info.children.erase od else info.children) ++ [nn]
        else (if od ∈ info.children then info.children.erase od else info.children)),
        slashFree c := by
      by_cases h : nn ≠ ""
      · rw [if_pos h]
        intro c hc
        rw [List.mem_append, List.mem_singleton] at hc
        rcases hc with hc | hc
        · exact hcwf c (hc1sub c hc)
        · rw [hc]; exact hsf
      · rw [if_neg h]
        intro c hc
        exact hcwf c (hc1sub c hc)
    have hnd2 : (if nn ≠ "" then
        (if od ∈ info.children then info.children.erase od else info.children) ++ [nn]
        else (if od ∈ info.children then info.children.erase od
          else info.children)).Nodup := by
      by_cases h : nn ≠ ""
      · rw [if_pos h]
        rw [List.nodup_append]
        exact ⟨hc1nd, List.nodup_singleton _, fun a ha hb => hnn1 ((List.mem_singleton.mp hb) ▸ ha)⟩
      · rw [if_neg h]
        exact hc1nd
    exact set_children_inv st hInv parent info hg _ hwf2 hnd2

/-- findAndUpdateChildName never changes the key set of the cache. -/
theorem updateChild_keys (st : CacheState) (parent : String)
    (newName oldName : Option String) :
    keysOf (findAndUpdateChildNameSelf st parent newName oldName) = keysOf st := by
  unfold findAndUpdateChildNameSelf updateChildName
  cases hg : dictGet parent st.cache with
  | none => rfl
  | some info =>
    show (dictSet parent _ st.cache).map Prod.fst = st.cache.map Prod.fst
    refine keys_dictSet_of_mem _ _ _ ?_
    exact List.mem_map.mpr ⟨(parent, info), dictGet_mem _ _ _ hg, rfl⟩

/-- BaseCache.rename preserves the invariant: the new name must be a
non-empty slash-free component, not yet cached under the parent nor recorded
among the parent's children. -/
theorem rename_op_inv (fuel : Nat) (st : CacheState) (hInv : Inv st)
    (oldLocation newName : String) (hsf : slashFree newName) (hne : newName ≠ "")
    (hfr : ∀ K ∈ keysOf st,
      ¬ pathLE (getLocationPath (pyDirname oldLocation) newName) K)
    (hnotin : ∀ info, dictGet (pyDirname oldLocation) st.cache = some info →
      newName ∉ info.children) :
    Inv (rename fuel st oldLocation newName) := by
  rw [rename]
  have hinv1 : Inv (findAndUpdateChildNameSelf st (pyDirname oldLocation)
      (some newName) (some (pyBasename oldLocation))) :=
    updateChild_inv st hInv (pyDirname oldLocation) newName (pyBasename oldLocation)
      hsf hnotin
  have hkeys := updateChild_keys st (pyDirname oldLocation)
    (some newName) (some (pyBasename oldLocation))
  cases hrl : renameLocation fuel
      (findAndUpdateChildNameSelf st (pyDirname oldLocation)
        (some newName) (some (pyBasename oldLocation)))
      oldLocation (getLocationPath (pyDirname oldLocation) newName) with
  | none => exact hinv1
  | some st2 =>
    refine renameLocation_inv fuel _ hinv1 oldLocation _
      (getLocationPath_ne_empty _ newName (Or.inr hne)) ?_ st2 hrl
    intro K hK
    rw [hkeys] at hK
    exact hfr K hK

end DreamGaffer

namespace DreamGaffer

open Kodachi

/-- **C4.** Every cache operation — InternalControl.addLocation's cache
insertion with an index from getIndexForNewLocation, recursiveRemoveLocation,
recursiveDuplicateLocation and rename — keeps the claimed invariant: distinct
locations map to distinct slot indices, and no index is simultaneously in the
unused list and assigned to a cached location.  Starting from a well-formed
cache, each operation yields a state that is again well-formed (so the claimed
invariant holds of it); add requires the path to be uncached, duplicate
requires a non-empty destination with an empty subtree, and rename requires a
non-empty slash-free new name whose target subtree is empty and which the
parent's children record does not already hold. -/
theorem cache_invariants (fuel : Nat) (st : CacheState) (hInv : Inv st) :
    (∀ path : String, path ∉ keysOf st →
      Inv (controlAddLocation st path) ∧ ClaimedInv (controlAddLocation st path)) ∧
    (∀ p n : String, Inv (removeLoc fuel st p n) ∧ ClaimedInv (removeLoc fuel st p n)) ∧
    (∀ src dst : String, dst ≠ "" → (∀ K ∈ keysOf st, ¬ pathLE dst K) →
      Inv (dupLoc fuel st src dst) ∧ ClaimedInv (dupLoc fuel st src dst)) ∧
    (∀ oldLocation newName : String, slashFree newName → newName ≠ "" →
      (∀ K ∈ keysOf st,
        ¬ pathLE (getLocationPath (pyDirname oldLocation) newName) K) →
      (∀ info, dictGet (pyDirname oldLocation) st.cache = some info →
        newName ∉ info.children) →
      Inv (rename fuel st oldLocation newName) ∧
        ClaimedInv (rename fuel st oldLocation newName)) := by
  refine ⟨?_, ?_, ?_, ?_⟩
  · intro path hfresh
    have h := controlAdd_inv st hInv path hfresh
    exact ⟨h, claimedInv_of_inv h⟩
  · intro p n
    have h := (remove_inv fuel).1 st p n hInv
    exact ⟨h, claimedInv_of_inv h⟩
  · intro src dst h1 h2
    have h := (dup_inv fuel).1 st src dst hInv h1 h2
    exact ⟨h, claimedInv_of_inv h⟩
  · intro oldLocation newName h1 h2 h3 h4
    have h := rename_op_inv fuel st hInv oldLocation newName h1 h2 h3 h4
    exact ⟨h, claimedInv_of_inv h⟩

theorem cache_invariants_witness :
    Inv (⟨[("/a", ⟨0, ["b"]⟩), ("/a/b", ⟨1, []⟩)], [2]⟩ : CacheState) ∧
    ClaimedInv (rename 5
      (⟨[("/a", ⟨0, ["b"]⟩), ("/a/b", ⟨1, []⟩)], [2]⟩ : CacheState) "/a/b" "c") :=
  ⟨by simp only [Inv, IndexPartition, NamesWF, NodupChildren]; decide,
    ((cache_invariants 5 ⟨[("/a", ⟨0, ["b"]⟩), ("/a/b", ⟨1, []⟩)], [2]⟩
        (by simp only [Inv, IndexPartition, NamesWF, NodupChildren]; decide)).2.2.2 "/a/b" "c" (by decide) (by decide) (by decide)
      (fun info h => by
        have h2 : (⟨0, ["b"]⟩ : Info) = info := Option.some.inj h
        rw [← h2]; decide)).2⟩

end DreamGaffer

namespace Kodachi

theorem data_ne_empty {a : String} (h : a ≠ "") : a.data ≠ [] :=
  fun hc => h (string_eq_of_data (by rw [hc]))

theorem ne_empty_of_data_ne {a : String} (h : a.data ≠ []) : a ≠ "" :=
  fun hc => h (by rw [hc])

theorem pathLE_ne_empty {a b : String} (ha : a ≠ "") (h : pathLE a b) : b ≠ "" := by
  intro hb
  have hlen := pathLE_length_le h
  have h0 : b.data.length = 0 := by rw [hb]; rfl
  have h1 : a.data = [] := List.length_eq_zero.mp (by omega)
  exact ha (string_eq_of_data (by rw [h1]))

theorem dictGet_dictDelete_ne {κ α : Type} [DecidableEq κ] {k k' : κ} (hne : k' ≠ k) :
    ∀ l : List (κ × α), dictGet k' (dictDelete k l) = dictGet k' l := by
  intro l
  induction l with
  | nil => rfl
  | cons e r ih =>
    obtain ⟨k0, v0⟩ := e
    by_cases h0 : k0 = k
    · subst h0
      have hne2 : ¬ k0 = k' := fun h => hne h.symm
      rw [show dictDelete k0 ((k0, v0) :: r) = r from by simp [dictDelete]]
      rw [show dictGet k' ((k0, v0) :: r) = dictGet k' r from by
        simp [dictGet, hne2]]
    · rw [show dictDelete k ((k0, v0) :: r) = (k0, v0) :: dictDelete k r from by
        simp [dictDelete, h0]]
      by_cases h1 : k0 = k'
      · simp [dictGet, h1]
      · simp only [dictGet, if_neg h1]
        exact ih

theorem dictGet_dictDelete_self {κ α : Type} [DecidableEq κ] (k : κ) :
    ∀ l : List (κ × α), (l.map Prod.fst).Nodup → dictGet k (dictDelete k l) = none := by
  intro l
  induction l with
  | nil => intro _; rfl
  | cons e r ih =>
    obtain ⟨k0, v0⟩ := e
    intro hnd
    rw [List.map_cons, List.nodup_cons] at hnd
    by_cases h0 : k0 = k
    · subst h0
      rw [show dictDelete k0 ((k0, v0) :: r) = r from by simp [dictDelete]]
      exact (dictGet_eq_none k0 r).mpr hnd.1
    · rw [show dictDelete k ((k0, v0) :: r) = (k0, v0) :: dictDelete k r from by
        simp [dictDelete, h0]]
      rw [show dictGet k ((k0, v0) :: dictDelete k r) = dictGet k (dictDelete k r) from by
        simp [dictGet, h0]]
      exact ih hnd.2

end Kodachi

namespace DreamGaffer

open Kodachi

/-- The key transport of a rename: replace the `L` prefix by `nL`. -/
def renamedKey (L nL K : String) : String :=
  String.mk (nL.data ++ K.data.drop L.data.length)

theorem data_renamedKey (L nL K : String) :
    (renamedKey L nL K).data = nL.data ++ K.data.drop L.data.length := rfl

theorem renamedKey_self (L nL : String) : renamedKey L nL L = nL := by
  apply string_eq_of_data
  rw [data_renamedKey, List.drop_length, List.append_nil]

theorem pathLE_dest {a b : String} (h : pathLE a b) :
    ∃ t : List Char, b.data = a.data ++ t ∧ (t = [] ∨ ∃ r, t = '/' :: r) := by
  rcases h with h | h
  · exact ⟨[], by rw [h, List.append_nil], Or.inl rfl⟩
  · obtain ⟨r, hr⟩ := h
    exact ⟨'/' :: r, by rw [← hr]; simp, Or.inr ⟨r, rfl⟩⟩

theorem renamedKey_of_dest {L nL K : String} {t : List Char}
    (ht : K.data = L.data ++ t) : (renamedKey L nL K).data = nL.data ++ t := by
  rw [data_renamedKey, ht, List.drop_left]

theorem pathLE_renamedKey {L K : String} (nL : String) (h : pathLE L K) (hnL : nL ≠ "") :
    pathLE nL (renamedKey L nL K) := by
  obtain ⟨t, ht, hcase⟩ := pathLE_dest h
  rcases hcase with hc | ⟨r, hr⟩
  · left
    apply string_eq_of_data
    rw [renamedKey_of_dest ht, hc, List.append_nil]
  · right
    rw [renamedKey_of_dest ht, hr]
    exact ⟨r, by simp⟩

theorem renamedKey_ne_empty {L nL K : String} (hnL : nL ≠ "") :
    renamedKey L nL K ≠ "" := by
  apply ne_empty_of_data_ne
  rw [data_renamedKey]
  intro hc
  exact data_ne_empty hnL (List.append_eq_nil.mp hc).1

theorem renamedKey_join {L nL D : String} (c : String) (hL : pathLE L D)
    (hLne : L ≠ "") (hnL : nL ≠ "") :
    renamedKey L nL (getLocationPath D c) = getLocationPath (renamedKey L nL D) c := by
  have hD : D ≠ "" := pathLE_ne_empty hLne hL
  have hR : renamedKey L nL D ≠ "" := renamedKey_ne_empty hnL
  obtain ⟨t, ht, _⟩ := pathLE_dest hL
  apply string_eq_of_data
  rw [renamedKey_of_dest (show (getLocationPath D c).data = L.data ++ (t ++ '/' :: c.data) from by
      rw [data_getLocationPath D c hD, ht, List.append_assoc]),
    data_getLocationPath _ c hR, renamedKey_of_dest ht]
  simp

theorem renamedKey_extend {L nL c0 K : String}
    (h : pathLE (getLocationPath L c0) K) (hL : L ≠ "") (hnL : nL ≠ "") :
    renamedKey L nL K = renamedKey (getLocationPath L c0) (getLocationPath nL c0) K := by
  obtain ⟨t, ht, _⟩ := pathLE_dest h
  apply string_eq_of_data
  rw [renamedKey_of_dest (show K.data = (getLocationPath L c0).data ++ t from ht),
    renamedKey_of_dest (show K.data = L.data ++ ('/' :: c0.data ++ t) from by
      rw [ht, data_getLocationPath L c0 hL]; simp),
    data_getLocationPath nL c0 hnL]
  simp

/-- Descendants of `root` reachable through the recorded-children chains with
every link cached; the index counts the chain steps. -/
inductive ChainDescN (cache : List (String × Info)) : Nat → String → String → Prop where
  | refl (K : String) : ChainDescN cache 0 K K
  | step {n : Nat} {root D c : String} {info : Info} :
      ChainDescN cache n root D → dictGet D cache = some info →
      c ∈ info.children → ChainDescN cache (n + 1) root (getLocationPath D c)

theorem chainDescN_le {cache : List (String × Info)} {n : Nat} {root K : String}
    (h : ChainDescN cache n root K) : root ≠ "" → pathLE root K := by
  induction h with
  | refl K => intro _; exact pathLE_refl _
  | step hch hg hc ih =>
    intro hroot
    exact pathLE_trans (ih hroot) (pathLE_join _ _ (pathLE_ne_empty hroot (ih hroot)))

theorem chainDescN_congr {c1 c2 : List (String × Info)} {n : Nat} {root K : String}
    (h : ChainDescN c1 n root K) :
    root ≠ "" → (∀ K', pathLE root K' → dictGet K' c1 = dictGet K' c2) →
    ChainDescN c2 n root K := by
  induction h with
  | refl K => intro _ _; exact ChainDescN.refl K
  | step hch hg hc ih =>
    intro hroot hag
    exact ChainDescN.step (ih hroot hag)
      (by rw [← hag _ (chainDescN_le hch hroot)]; exact hg) hc

theorem chainDescN_zero {cache : List (String × Info)} {root K : String}
    (h : ChainDescN cache 0 root K) : K = root := by
  cases h; rfl

theorem chainDescN_head {cache : List (String × Info)} :
    ∀ {n : Nat} {root K : String}, ChainDescN cache (n + 1) root K →
      ∃ c info, dictGet root cache = some info ∧ c ∈ info.children ∧
        ChainDescN cache n (getLocationPath root c) K := by
  intro n
  induction n with
  | zero =>
    intro root K h
    cases h with
    | step hch hg hc =>
      have hD := chainDescN_zero hch
      subst hD
      exact ⟨_, _, hg, hc, ChainDescN.refl _⟩
  | succ m ih =>
    intro root K h
    cases h with
    | step hch hg hc =>
      obtain ⟨c0, i0, hg0, hc0, hrest⟩ := ih hch
      exact ⟨c0, i0, hg0, hc0, ChainDescN.step hrest hg hc⟩

end DreamGaffer

namespace DreamGaffer

open Kodachi

/-- Full characterization of recursiveRenameChildLocation: the unused list is
kept, keys outside the processed old and new subtrees are untouched, and every
recorded-chain descendant of a processed child is re-keyed — its prefix
replaced — with its info (slot index and children record) unchanged and its
old key removed. -/
theorem rename_transfer : ∀ fuel : Nat,
    (∀ st : CacheState, ∀ p c np : String, Inv st → p ≠ "" → np ≠ "" →
      ¬ pathLE p np → ¬ pathLE np p →
      (∀ K ∈ keysOf st, ¬ pathLE (getLocationPath np c) K) →
      (renameOneChild fuel st p c np).unused = st.unused ∧
      (∀ K : String, ¬ pathLE (getLocationPath p c) K →
        ¬ pathLE (getLocationPath np c) K →
        dictGet K (renameOneChild fuel st p c np).cache = dictGet K st.cache) ∧
      (∀ n : Nat, ∀ K : String, ∀ i : Info,
        ChainDescN st.cache n (getLocationPath p c) K → n < fuel →
        dictGet K st.cache = some i →
        dictGet (renamedKey (getLocationPath p c) (getLocationPath np c) K)
          (renameOneChild fuel st p c np).cache = some i) ∧
      (∀ n : Nat, ∀ K : String, ∀ i : Info,
        ChainDescN st.cache n (getLocationPath p c) K → n < fuel →
        dictGet K st.cache = some i →
        dictGet K (renameOneChild fuel st p c np).cache = none)) ∧
    (∀ cs : List String, ∀ st : CacheState, ∀ p np : String, Inv st → p ≠ "" → np ≠ "" →
      ¬ pathLE p np → ¬ pathLE np p → cs.Nodup → (∀ c ∈ cs, slashFree c) →
      (∀ c ∈ cs, ∀ K ∈ keysOf st, ¬ pathLE (getLocationPath np c) K) →
      (renameChildList fuel st p cs np).unused = st.unused ∧
      (∀ K : String, (∀ c ∈ cs, ¬ pathLE (getLocationPath p c) K ∧
          ¬ pathLE (getLocationPath np c) K) →
        dictGet K (renameChildList fuel st p cs np).cache = dictGet K st.cache) ∧
      (∀ c ∈ cs, ∀ n : Nat, ∀ K : String, ∀ i : Info,
        ChainDescN st.cache n (getLocationPath p c) K → n < fuel →
        dictGet K st.cache = some i →
        dictGet (renamedKey (getLocationPath p c) (getLocationPath np c) K)
          (renameChildList fuel st p cs np).cache = some i) ∧
      (∀ c ∈ cs, ∀ n : Nat, ∀ K : String, ∀ i : Info,
        ChainDescN st.cache n (getLocationPath p c) K → n < fuel →
        dictGet K st.cache = some i →
        dictGet K (renameChildList fuel st p cs np).cache = none)) := by
  intro fuel
  induction fuel with
  | zero =>
    constructor
    · intro st p c np _ _ _ _ _ _
      have hred : renameOneChild 0 st p c np = st := by rw [renameOneChild]
      rw [hred]
      exact ⟨rfl, fun _ _ _ => rfl, fun n K i _ hn _ => absurd hn (by omega),
        fun n K i _ hn _ => absurd hn (by omega)⟩
    · intro cs
      induction cs with
      | nil =>
        intro st p np _ _ _ _ _ _ _ _
        have hred : renameChildList 0 st p [] np = st := by rw [renameChildList]
        rw [hred]
        exact ⟨rfl, fun _ _ => rfl, fun c hc => absurd hc (List.not_mem_nil c),
          fun c hc => absurd hc (List.not_mem_nil c)⟩
      | cons c cs ih2 =>
        intro st p np hInv hp hnp hpnp hnpp hnd hsf hfr
        have hred0 : renameOneChild 0 st p c np = st := by rw [renameOneChild]
        have hred : renameChildList 0 st p (c :: cs) np =
            renameChildList 0 st p cs np := by
          rw [show renameChildList 0 st p (c :: cs) np =
            renameChildList 0 (renameOneChild 0 st p c np) p cs np from by
              rw [renameChildList], hred0]
        rw [hred]
        obtain ⟨h1, h2, _, _⟩ := ih2 st p np hInv hp hnp hpnp hnpp hnd.of_cons
          (fun c' hc' => hsf c' (.tail _ hc')) (fun c' hc' => hfr c' (.tail _ hc'))
        exact ⟨h1, fun K hall => h2 K (fun c' hc' => hall c' (.tail _ hc')),
          fun c' hc' n K i _ hn _ => absurd hn (by omega),
          fun c' hc' n K i _ hn _ => absurd hn (by omega)⟩
  | succ fuel ih =>
    have hloc : ∀ st : CacheState, ∀ p c np : String, Inv st → p ≠ "" → np ≠ "" →
        ¬ pathLE p np → ¬ pathLE np p →
        (∀ K ∈ keysOf st, ¬ pathLE (getLocationPath np c) K) →
        (renameOneChild (fuel + 1) st p c np).unused = st.unused ∧
        (∀ K : String, ¬ pathLE (getLocationPath p c) K →
          ¬ pathLE (getLocationPath np c) K →
          dictGet K (renameOneChild (fuel + 1) st p c np).cache = dictGet K st.cache) ∧
        (∀ n : Nat, ∀ K : String, ∀ i : Info,
          ChainDescN st.cache n (getLocationPath p c) K → n < fuel + 1 →
          dictGet K st.cache = some i →
          dictGet (renamedKey (getLocationPath p c) (getLocationPath np c) K)
            (renameOneChild (fuel + 1) st p c np).cache = some i) ∧
        (∀ n : Nat, ∀ K : String, ∀ i : Info,
          ChainDescN st.cache n (getLocationPath p c) K → n < fuel + 1 →
          dictGet K st.cache = some i →
          dictGet K (renameOneChild (fuel + 1) st p c np).cache = none) := by
      intro st p c np hInv hp hnp hpnp hnpp hfr
      have hpc : getLocationPath p c ≠ "" := getLocationPath_ne_empty p c (Or.inl hp)
      have hnpc : getLocationPath np c ≠ "" := getLocationPath_ne_empty np c (Or.inl hnp)
      cases hpop : dictPop (getLocationPath p c) st.cache with
      | none =>
        have hnone : dictGet (getLocationPath p c) st.cache = none := by
          have hs := dictPop_spec (getLocationPath p c) st.cache
          rw [hpop] at hs
          cases hg2 : dictGet (getLocationPath p c) st.cache with
          | none => rfl
          | some v => rw [hg2] at hs; simp at hs
        have hvac : ∀ n : Nat, ∀ K : String, ∀ i : Info,
            ChainDescN st.cache n (getLocationPath p c) K →
            dictGet K st.cache = some i → False := by
          intro n K i hch hg
          cases n with
          | zero =>
            rw [chainDescN_zero hch, hnone] at hg
            exact Option.noConfusion hg
          | succ m =>
            obtain ⟨c0, i0, hg0, _, _⟩ := chainDescN_head hch
            rw [hnone] at hg0
            exact Option.noConfusion hg0
        have hred : renameOneChild (fuel + 1) st p c np = st := by
          rw [renameOneChild, hpop]
        rw [hred]
        exact ⟨rfl, fun _ _ _ => rfl,
          fun n K i hch _ hg => absurd (hvac n K i hch hg) (fun h => h),
          fun n K i hch _ hg => absurd (hvac n K i hch hg) (fun h => h)⟩
      | some pr =>
        obtain ⟨info, cache'⟩ := pr
        have hget : dictGet (getLocationPath p c) st.cache = some info ∧
            cache' = dictDelete (getLocationPath p c) st.cache := by
          have hs := dictPop_spec (getLocationPath p c) st.cache
          rw [hpop] at hs
          cases hg2 : dictGet (getLocationPath p c) st.cache with
          | none => rw [hg2] at hs; simp at hs
          | some i0 =>
            rw [hg2] at hs
            simp at hs
            exact ⟨by rw [hs.1], hs.2⟩
        obtain ⟨hgetg, hcc⟩ := hget
        subst hcc
        have hred : renameOneChild (fuel + 1) st p c np =
            renameChildList fuel
              ⟨dictSet (getLocationPath np c) info
                (dictDelete (getLocationPath p c) st.cache), st.unused⟩
              (getLocationPath p c) info.children (getLocationPath np c) := by
          rw [renameOneChild, hpop]
        have hmem : (getLocationPath p c, info) ∈ st.cache := dictGet_mem _ _ _ hgetg
        have hinc1 : ¬ pathLE (getLocationPath p c) (getLocationPath np c) := by
          intro hcon
          exact no_common_desc hpnp hnpp
            (pathLE_trans (pathLE_join p c hp) hcon) (pathLE_join np c hnp)
        have hinc2 : ¬ pathLE (getLocationPath np c) (getLocationPath p c) := by
          intro hcon
          exact no_common_desc hpnp hnpp (pathLE_join p c hp)
            (pathLE_trans (pathLE_join np c hnp) hcon)
        have hne_npc_pc : getLocationPath np c ≠ getLocationPath p c := by
          intro hcon
          have h0 : pathLE (getLocationPath np c) (getLocationPath p c) := by
            rw [hcon]
            exact pathLE_refl _
          exact hinc2 h0
        have hmidget : ∀ K' : String, K' ≠ getLocationPath np c →
            K' ≠ getLocationPath p c →
            dictGet K' (dictSet (getLocationPath np c) info
              (dictDelete (getLocationPath p c) st.cache)) = dictGet K' st.cache := by
          intro K' h1 h2
          rw [dictGet_dictSet, if_neg (fun h => h1 h.symm), dictGet_dictDelete_ne h2]
        have hmidgetself : dictGet (getLocationPath np c)
            (dictSet (getLocationPath np c) info
              (dictDelete (getLocationPath p c) st.cache)) = some info := by
          rw [dictGet_dictSet, if_pos rfl]
        have hmidnone : dictGet (getLocationPath p c)
            (dictSet (getLocationPath np c) info
              (dictDelete (getLocationPath p c) st.cache)) = none := by
          rw [dictGet_dictSet, if_neg hne_npc_pc]
          exact dictGet_dictDelete_self _ st.cache hInv.1
        have hmidInv : Inv ⟨dictSet (getLocationPath np c) info
            (dictDelete (getLocationPath p c) st.cache), st.unused⟩ :=
          rekey_state_inv st hInv (getLocationPath p c) (getLocationPath np c) info hgetg
            (fun hmem2 => hfr _ hmem2 (pathLE_refl _))
        have hmidkeys : ∀ K ∈ keysOf (⟨dictSet (getLocationPath np c) info
            (dictDelete (getLocationPath p c) st.cache), st.unused⟩ : CacheState),
            K = getLocationPath np c ∨ K ∈ keysOf st := by
          intro K hK
          rw [keysOf] at hK
          rcases (keys_dictSet_iff _ K _ _).mp hK with h1 | h1
          · exact Or.inl h1
          · exact Or.inr (keys_dictDelete_subset _ st.cache K h1)
        have hfr2 : ∀ c' ∈ info.children,
            ∀ K ∈ keysOf (⟨dictSet (getLocationPath np c) info
              (dictDelete (getLocationPath p c) st.cache), st.unused⟩ : CacheState),
            ¬ pathLE (getLocationPath (getLocationPath np c) c') K := by
          intro c' hc' K hK hle
          rcases hmidkeys K hK with h1 | h1
          · rw [h1] at hle
            exact not_pathLE_join_left _ c' hnpc hle
          · exact hfr K h1 (pathLE_trans (pathLE_join _ c' hnpc) hle)
        obtain ⟨l1, l2, l3, l4⟩ := ih.2 info.children
          ⟨dictSet (getLocationPath np c) info
            (dictDelete (getLocationPath p c) st.cache), st.unused⟩
          (getLocationPath p c) (getLocationPath np c)
          hmidInv hpc hnpc hinc1 hinc2 (hInv.2.2.2 _ hmem)
          (fun c' hc' => hInv.2.2.1 _ hmem c' hc') hfr2
        rw [hred]
        refine ⟨l1, ?_, ?_, ?_⟩
        · intro K hK1 hK2
          have hKp : K ≠ getLocationPath p c :=
            fun h => hK1 (by rw [h]; exact pathLE_refl _)
          have hKnp : K ≠ getLocationPath np c :=
            fun h => hK2 (by rw [h]; exact pathLE_refl _)
          refine (l2 K ?_).trans (hmidget K hKnp hKp)
          intro c' hc'
          constructor
          · intro hcon; exact hK1 (pathLE_trans (pathLE_join _ c' hpc) hcon)
          · intro hcon; exact hK2 (pathLE_trans (pathLE_join _ c' hnpc) hcon)
        · intro n K i hch hn hg
          cases n with
          | zero =>
            have hK := chainDescN_zero hch
            subst hK
            have hi : i = info := by
              rw [hgetg] at hg
              exact (Option.some.inj hg).symm
            subst hi
            rw [renamedKey_self]
            refine (l2 _ ?_).trans hmidgetself
            intro c' hc'
            constructor
            · intro hcon
              exact hinc1 (pathLE_trans (pathLE_join _ c' hpc) hcon)
            · exact not_pathLE_join_left _ c' hnpc
          | succ m =>
            obtain ⟨c0, i0, hg0, hc0, hrest⟩ := chainDescN_head hch
            have hi0 : i0 = info := Option.some.inj (hg0.symm.trans hgetg)
            rw [hi0] at hc0
            have hroot0 : getLocationPath (getLocationPath p c) c0 ≠ "" :=
              getLocationPath_ne_empty _ c0 (Or.inl hpc)
            have hag : ∀ K', pathLE (getLocationPath (getLocationPath p c) c0) K' →
                dictGet K' st.cache =
                  dictGet K' (dictSet (getLocationPath np c) info
                    (dictDelete (getLocationPath p c) st.cache)) := by
              intro K' hle
              have hle1 : pathLE (getLocationPath p c) K' :=
                pathLE_trans (pathLE_join _ c0 hpc) hle
              have h1 : K' ≠ getLocationPath p c := by
                intro hcon
                rw [hcon] at hle
                exact not_pathLE_join_left _ c0 hpc hle
              have h2 : K' ≠ getLocationPath np c := by
                intro hcon
                rw [hcon] at hle1
                exact hinc1 hle1
              exact (hmidget K' h2 h1).symm
            have hleK : pathLE (getLocationPath (getLocationPath p c) c0) K :=
              chainDescN_le hrest hroot0
            have hch2 : ChainDescN (dictSet (getLocationPath np c) info
                (dictDelete (getLocationPath p c) st.cache)) m
                (getLocationPath (getLocationPath p c) c0) K :=
              chainDescN_congr hrest hroot0 hag
            have hgm : dictGet K (dictSet (getLocationPath np c) info
                (dictDelete (getLocationPath p c) st.cache)) = some i := by
              rw [← hag K hleK]
              exact hg
            have hfin := l3 c0 hc0 m K i hch2 (by omega) hgm
            rw [renamedKey_extend hleK hpc hnpc]
            exact hfin
        · intro n K i hch hn hg
          cases n with
          | zero =>
            have hK := chainDescN_zero hch
            subst hK
            refine (l2 _ ?_).trans hmidnone
            intro c' hc'
            refine ⟨not_pathLE_join_left _ c' hpc, ?_⟩
            intro hcon
            exact hinc2 (pathLE_trans (pathLE_join _ c' hnpc) hcon)
          | succ m =>
            obtain ⟨c0, i0, hg0, hc0, hrest⟩ := chainDescN_head hch
            have hi0 : i0 = info := Option.some.inj (hg0.symm.trans hgetg)
            rw [hi0] at hc0
            have hroot0 : getLocationPath (getLocationPath p c) c0 ≠ "" :=
              getLocationPath_ne_empty _ c0 (Or.inl hpc)
            have hag : ∀ K', pathLE (getLocationPath (getLocationPath p c) c0) K' →
                dictGet K' st.cache =
                  dictGet K' (dictSet (getLocationPath np c) info
                    (dictDelete (getLocationPath p c) st.cache)) := by
              intro K' hle
              have hle1 : pathLE (getLocationPath p c) K' :=
                pathLE_trans (pathLE_join _ c0 hpc) hle
              have h1 : K' ≠ getLocationPath p c := by
                intro hcon
                rw [hcon] at hle
                exact not_pathLE_join_left _ c0 hpc hle
              have h2 : K' ≠ getLocationPath np c := by
                intro hcon
                rw [hcon] at hle1
                exact hinc1 hle1
              exact (hmidget K' h2 h1).symm
            have hleK : pathLE (getLocationPath (getLocationPath p c) c0) K :=
              chainDescN_le hrest hroot0
            have hch2 : ChainDescN (dictSet (getLocationPath np c) info
                (dictDelete (getLocationPath p c) st.cache)) m
                (getLocationPath (getLocationPath p c) c0) K :=
              chainDescN_congr hrest hroot0 hag
            have hgm : dictGet K (dictSet (getLocationPath np c) info
                (dictDelete (getLocationPath p c) st.cache)) = some i := by
              rw [← hag K hleK]
              exact hg
            exact l4 c0 hc0 m K i hch2 (by omega) hgm
    refine ⟨hloc, ?_⟩
    intro cs
    induction cs with
    | nil =>
      intro st p np _ _ _ _ _ _ _ _
      have hred : renameChildList (fuel + 1) st p [] np = st := by rw [renameChildList]
      rw [hred]
      exact ⟨rfl, fun _ _ => rfl, fun c hc => absurd hc (List.not_mem_nil c),
        fun c hc => absurd hc (List.not_mem_nil c)⟩
    | cons c cs ih2 =>
      intro st p np hInv hp hnp hpnp hnpp hnd hsf hfr
      have hjp : getLocationPath p c ≠ "" := getLocationPath_ne_empty p c (Or.inl hp)
      have hjnp : getLocationPath np c ≠ "" := getLocationPath_ne_empty np c (Or.inl hnp)
      have hred : renameChildList (fuel + 1) st p (c :: cs) np =
          renameChildList (fuel + 1) (renameOneChild (fuel + 1) st p c np) p cs np := by
        rw [renameChildList]
      rw [hred]
      obtain ⟨o1, o2, o3, o4⟩ := hloc st p c np hInv hp hnp hpnp hnpp (hfr c (by simp))
      have hinv1 : Inv (renameOneChild (fuel + 1) st p c np) :=
        (rename_inv (fuel + 1)).1 st p c np hInv hnp (hfr c (by simp))
      have hkb := (rename_keys_bound (fuel + 1)).1 st p c np hnp
      have hfr1 : ∀ c' ∈ cs, ∀ K ∈ keysOf (renameOneChild (fuel + 1) st p c np),
          ¬ pathLE (getLocationPath np c') K := by
        intro c' hc' K hK hle
        rcases hkb K hK with h1 | h1
        · exact hfr c' (.tail _ hc') K h1 hle
        · have hcc : c ≠ c' := fun hcon => (List.nodup_cons.mp hnd).1 (hcon ▸ hc')
          exact no_common_desc
            (siblings_incomparable (hsf c (by simp)) (hsf c' (.tail _ hc')) hcc)
            (siblings_incomparable (hsf c' (.tail _ hc')) (hsf c (by simp)) (Ne.symm hcc))
            h1 hle
      obtain ⟨t1, t2, t3, t4⟩ := ih2 (renameOneChild (fuel + 1) st p c np) p np hinv1
        hp hnp hpnp hnpp hnd.of_cons (fun c' hc' => hsf c' (.tail _ hc')) hfr1
      refine ⟨t1.trans o1, ?_, ?_, ?_⟩
      · intro K hall
        have h1 := hall c (by simp)
        refine (t2 K ?_).trans (o2 K h1.1 h1.2)
        intro c' hc'
        exact hall c' (.tail _ hc')
      · intro c' hc' n K i hch hn hg
        rcases List.mem_cons.mp hc' with hc'' | hc''
        · subst hc''
          have hstep := o3 n K i hch hn hg
          have hleK : pathLE (getLocationPath p c') K := chainDescN_le hch hjp
          have hleK' : pathLE (getLocationPath np c')
              (renamedKey (getLocationPath p c') (getLocationPath np c') K) :=
            pathLE_renamedKey _ hleK hjnp
          refine (t2 _ ?_).trans hstep
          intro c2 hc2
          have hcc : c' ≠ c2 := fun hcon => (List.nodup_cons.mp hnd).1 (hcon ▸ hc2)
          constructor
          · intro hcon
            rcases pathLE_comparable hcon hleK' with h | h
            · exact no_common_desc hpnp hnpp
                (pathLE_trans (pathLE_join p c2 hp) h) (pathLE_join np c' hnp)
            · exact no_common_desc hpnp hnpp (pathLE_join p c2 hp)
                (pathLE_trans (pathLE_join np c' hnp) h)
          · intro hcon
            rcases pathLE_comparable hcon hleK' with h | h
            · exact siblings_incomparable (hsf c2 (.tail _ hc2)) (hsf c' (by simp))
                (Ne.symm hcc) h
            · exact siblings_incomparable (hsf c' (by simp)) (hsf c2 (.tail _ hc2))
                hcc h
        · have hroot' : getLocationPath p c' ≠ "" :=
            getLocationPath_ne_empty p c' (Or.inl hp)
          have hcc : c ≠ c' := fun hcon => (List.nodup_cons.mp hnd).1 (hcon ▸ hc'')
          have hag : ∀ K', pathLE (getLocationPath p c') K' →
              dictGet K' st.cache =
                dictGet K' (renameOneChild (fuel + 1) st p c np).cache := by
            intro K' hle
            refine (o2 K' ?_ ?_).symm
            · intro hcon
              exact no_common_desc
                (siblings_incomparable (hsf c (by simp)) (hsf c' (.tail _ hc'')) hcc)
                (siblings_incomparable (hsf c' (.tail _ hc'')) (hsf c (by simp))
                  (Ne.symm hcc))
                hcon hle
            · intro hcon
              rcases pathLE_comparable hcon hle with h | h
              · exact no_common_desc hpnp hnpp (pathLE_join p c' hp)
                  (pathLE_trans (pathLE_join np c hnp) h)
              · exact no_common_desc hpnp hnpp
                  (pathLE_trans (pathLE_join p c' hp) h) (pathLE_join np c hnp)
          have hch1 : ChainDescN (renameOneChild (fuel + 1) st p c np).cache n
              (getLocationPath p c') K :=
            chainDescN_congr hch hroot' hag
          have hg1 : dictGet K (renameOneChild (fuel + 1) st p c np).cache = some i := by
            rw [← hag K (chainDescN_le hch hroot')]
            exact hg
          exact t3 c' hc'' n K i hch1 hn hg1
      · intro c' hc' n K i hch hn hg
        rcases List.mem_cons.mp hc' with hc'' | hc''
        · subst hc''
          have hstep := o4 n K i hch hn hg
          have hleK : pathLE (getLocationPath p c') K := chainDescN_le hch hjp
          refine (t2 _ ?_).trans hstep
          intro c2 hc2
          have hcc : c' ≠ c2 := fun hcon => (List.nodup_cons.mp hnd).1 (hcon ▸ hc2)
          constructor
          · intro hcon
            rcases pathLE_comparable hcon hleK with h | h
            · exact siblings_incomparable (hsf c2 (.tail _ hc2)) (hsf c' (by simp))
                (Ne.symm hcc) h
            · exact siblings_incomparable (hsf c' (by simp)) (hsf c2 (.tail _ hc2))
                hcc h
          · intro hcon
            rcases pathLE_comparable hcon hleK with h | h
            · exact no_common_desc hpnp hnpp (pathLE_join p c' hp)
                (pathLE_trans (pathLE_join np c2 hnp) h)
            · exact no_common_desc hpnp hnpp
                (pathLE_trans (pathLE_join p c' hp) h) (pathLE_join np c2 hnp)
        · have hroot' : getLocationPath p c' ≠ "" :=
            getLocationPath_ne_empty p c' (Or.inl hp)
          have hcc : c ≠ c' := fun hcon => (List.nodup_cons.mp hnd).1 (hcon ▸ hc'')
          have hag : ∀ K', pathLE (getLocationPath p c') K' →
              dictGet K' st.cache =
                dictGet K' (renameOneChild (fuel + 1) st p c np).cache := by
            intro K' hle
            refine (o2 K' ?_ ?_).symm
            · intro hcon
              exact no_common_desc
                (siblings_incomparable (hsf c (by simp)) (hsf c' (.tail _ hc'')) hcc)
                (siblings_incomparable (hsf c' (.tail _ hc'')) (hsf c (by simp))
                  (Ne.symm hcc))
                hcon hle
            · intro hcon
              rcases pathLE_comparable hcon hle with h | h
              · exact no_common_desc hpnp hnpp (pathLE_join p c' hp)
                  (pathLE_trans (pathLE_join np c hnp) h)
              · exact no_common_desc hpnp hnpp
                  (pathLE_trans (pathLE_join p c' hp) h) (pathLE_join np c hnp)
          have hch1 : ChainDescN (renameOneChild (fuel + 1) st p c np).cache n
              (getLocationPath p c') K :=
            chainDescN_congr hch hroot' hag
          have hg1 : dictGet K (renameOneChild (fuel + 1) st p c np).cache = some i := by
            rw [← hag K (chainDescN_le hch hroot')]
            exact hg
          exact t4 c' hc'' n K i hch1 hn hg1

end DreamGaffer

namespace DreamGaffer

open Kodachi

/-- renameLocation, when it succeeds: the unused list is kept, keys outside
both subtrees are untouched, and every chain descendant of the old location
(the location itself included) is re-keyed with unchanged info, its old key
removed. -/
theorem renameLocation_transfer (fuel : Nat) (st : CacheState) (L newLoc : String)
    (hInv : Inv st) (hL : L ≠ "") (hnL : newLoc ≠ "")
    (hpnp : ¬ pathLE L newLoc) (hnpp : ¬ pathLE newLoc L)
    (hfr : ∀ K ∈ keysOf st, ¬ pathLE newLoc K) :
    ∀ res, renameLocation fuel st L newLoc = some res →
      res.unused = st.unused ∧
      (∀ K : String, ¬ pathLE L K → ¬ pathLE newLoc K →
        dictGet K res.cache = dictGet K st.cache) ∧
      (∀ n : Nat, ∀ K : String, ∀ i : Info, ChainDescN st.cache n L K → n ≤ fuel →
        dictGet K st.cache = some i →
        dictGet (renamedKey L newLoc K) res.cache = some i ∧
          dictGet K res.cache = none) := by
  intro res hres
  rw [renameLocation] at hres
  cases hpop : dictPop L st.cache with
  | none => rw [hpop] at hres; exact absurd hres (by simp)
  | some pr =>
    rw [hpop] at hres
    obtain ⟨info, cache'⟩ := pr
    simp only [Option.some.injEq] at hres
    have hget : dictGet L st.cache = some info ∧
        cache' = dictDelete L st.cache := by
      have hs := dictPop_spec L st.cache
      rw [hpop] at hs
      cases hg2 : dictGet L st.cache with
      | none => rw [hg2] at hs; simp at hs
      | some i0 =>
        rw [hg2] at hs
        simp at hs
        exact ⟨by rw [hs.1], hs.2⟩
    obtain ⟨hgetg, hcc⟩ := hget
    subst hcc
    have hmem : (L, info) ∈ st.cache := dictGet_mem _ _ _ hgetg
    have hne_nL_L : newLoc ≠ L := by
      intro hcon
      have h0 : pathLE newLoc L := by rw [hcon]; exact pathLE_refl _
      exact hnpp h0
    have hmidget : ∀ K' : String, K' ≠ newLoc → K' ≠ L →
        dictGet K' (dictSet newLoc info (dictDelete L st.cache)) =
          dictGet K' st.cache := by
      intro K' h1 h2
      rw [dictGet_dictSet, if_neg (fun h => h1 h.symm), dictGet_dictDelete_ne h2]
    have hmidgetself : dictGet newLoc
          (dictSet newLoc info (dictDelete L st.cache)) = some info := by
      rw [dictGet_dictSet, if_pos rfl]
    have hmidnone : dictGet L (dictSet newLoc info (dictDelete L st.cache)) = none := by
      rw [dictGet_dictSet, if_neg hne_nL_L]
      exact dictGet_dictDelete_self _ st.cache hInv.1
    have hmidInv : Inv ⟨dictSet newLoc info (dictDelete L st.cache), st.unused⟩ :=
      rekey_state_inv st hInv L newLoc info hgetg
        (fun hmem2 => hfr _ hmem2 (pathLE_refl _))
    have hmidkeys : ∀ K ∈ keysOf (⟨dictSet newLoc info (dictDelete L st.cache),
        st.unused⟩ : CacheState), K = newLoc ∨ K ∈ keysOf st := by
      intro K hK
      rw [keysOf] at hK
      rcases (keys_dictSet_iff _ K _ _).mp hK with h1 | h1
      · exact Or.inl h1
      · exact Or.inr (keys_dictDelete_subset _ st.cache K h1)
    have hfr2 : ∀ c' ∈ info.children,
        ∀ K ∈ keysOf (⟨dictSet newLoc info (dictDelete L st.cache),
          st.unused⟩ : CacheState),
        ¬ pathLE (getLocationPath newLoc c') K := by
      intro c' hc' K hK hle
      rcases hmidkeys K hK with h1 | h1
      · rw [h1] at hle
        exact not_pathLE_join_left _ c' hnL hle
      · exact hfr K h1 (pathLE_trans (pathLE_join _ c' hnL) hle)
    obtain ⟨l1, l2, l3, l4⟩ := (rename_transfer fuel).2 info.children
      ⟨dictSet newLoc info (dictDelete L st.cache), st.unused⟩ L newLoc
      hmidInv hL hnL hpnp hnpp (hInv.2.2.2 _ hmem)
      (fun c' hc' => hInv.2.2.1 _ hmem c' hc') hfr2
    rw [← hres]
    refine ⟨l1, ?_, ?_⟩
    · intro K hK1 hK2
      have hKp : K ≠ L := fun h => hK1 (by rw [h]; exact pathLE_refl _)
      have hKnp : K ≠ newLoc := fun h => hK2 (by rw [h]; exact pathLE_refl _)
      refine (l2 K ?_).trans (hmidget K hKnp hKp)
      intro c' hc'
      constructor
      · intro hcon; exact hK1 (pathLE_trans (pathLE_join _ c' hL) hcon)
      · intro hcon; exact hK2 (pathLE_trans (pathLE_join _ c' hnL) hcon)
    · intro n K i hch hn hg
      cases n with
      | zero =>
        have hK := chainDescN_zero hch
        subst hK
        have hi : i = info := by
          rw [hgetg] at hg
          exact (Option.some.inj hg).symm
        subst hi
        rw [renamedKey_self]
        constructor
        · refine (l2 _ ?_).trans hmidgetself
          intro c' hc'
          constructor
          · intro hcon
            exact hpnp (pathLE_trans (pathLE_join _ c' hL) hcon)
          · exact not_pathLE_join_left _ c' hnL
        · refine (l2 _ ?_).trans hmidnone
          intro c' hc'
          refine ⟨not_pathLE_join_left _ c' hL, ?_⟩
          intro hcon
          exact hnpp (pathLE_trans (pathLE_join _ c' hnL) hcon)
      | succ m =>
        obtain ⟨c0, i0, hg0, hc0, hrest⟩ := chainDescN_head hch
        have hi0 : i0 = info := Option.some.inj (hg0.symm.trans hgetg)
        rw [hi0] at hc0
        have hroot0 : getLocationPath L c0 ≠ "" :=
          getLocationPath_ne_empty _ c0 (Or.inl hL)
        have hag : ∀ K', pathLE (getLocationPath L c0) K' →
            dictGet K' st.cache =
              dictGet K' (dictSet newLoc info (dictDelete L st.cache)) := by
          intro K' hle
          have hle1 : pathLE L K' := pathLE_trans (pathLE_join _ c0 hL) hle
          have h1 : K' ≠ L := by
            intro hcon
            rw [hcon] at hle
            exact not_pathLE_join_left _ c0 hL hle
          have h2 : K' ≠ newLoc := by
            intro hcon
            rw [hcon] at hle1
            exact hpnp hle1
          exact (hmidget K' h2 h1).symm
        have hleK : pathLE (getLocationPath L c0) K := chainDescN_le hrest hroot0
        have hch2 : ChainDescN (dictSet newLoc info (dictDelete L st.cache)) m
            (getLocationPath L c0) K :=
          chainDescN_congr hrest hroot0 hag
        have hgm : dictGet K (dictSet newLoc info (dictDelete L st.cache)) = some i := by
          rw [← hag K hleK]
          exact hg
        constructor
        · have hfin := l3 c0 hc0 m K i hch2 (by omega) hgm
          rw [renamedKey_extend hleK hL hnL]
          exact hfin
        · exact l4 c0 hc0 m K i hch2 (by omega) hgm

theorem updateChild_unused (st : CacheState) (parent : String)
    (newName oldName : Option String) :
    (findAndUpdateChildNameSelf st parent newName oldName).unused = st.unused := by
  unfold findAndUpdateChildNameSelf updateChildName
  cases hg : dictGet parent st.cache <;> rfl

theorem updateChild_get_ne (st : CacheState) (parent K : String)
    (hK : K ≠ parent) (newName oldName : Option String) :
    dictGet K (findAndUpdateChildNameSelf st parent newName oldName).cache =
      dictGet K st.cache := by
  unfold findAndUpdateChildNameSelf updateChildName
  cases hg : dictGet parent st.cache with
  | none => rfl
  | some info =>
    show dictGet K (dictSet parent _ st.cache) = dictGet K st.cache
    rw [dictGet_dictSet, if_neg (fun h => hK h.symm)]

theorem updateChild_get_parent (st : CacheState) (parent : String) (pinfo : Info)
    (hg : dictGet parent st.cache = some pinfo) (nn od : String) (hnn : nn ≠ "") :
    dictGet parent (findAndUpdateChildNameSelf st parent (some nn) (some od)).cache =
      some ⟨pinfo.index,
        (if od ∈ pinfo.children then pinfo.children.erase od else pinfo.children)
          ++ [nn]⟩ := by
  unfold findAndUpdateChildNameSelf updateChildName
  rw [hg]
  show dictGet parent (dictSet parent _ st.cache) = _
  rw [dictGet_dictSet, if_pos rfl]
  simp [hnn]

end DreamGaffer

namespace DreamGaffer

open Kodachi

/-- BaseCache.rename on one cache: the location's entry and every recorded
chain descendant of it is re-keyed under the new location with slot index and
children record unchanged, other keys are untouched, and the parent's children
record has the old name removed and the new name appended. -/
theorem rename_rekey (fuel : Nat) (st : CacheState) (L newName : String) (info : Info)
    (hInv : Inv st) (hgetL : dictGet L st.cache = some info)
    (hshape : L = getLocationPath (pyDirname L) (pyBasename L))
    (hpar : pyDirname L ≠ "")
    (hsf : slashFree newName) (hne : newName ≠ "") (hnn : newName ≠ pyBasename L)
    (hfr : ∀ K ∈ keysOf st, ¬ pathLE (getLocationPath (pyDirname L) newName) K)
    (hnotin : ∀ pinfo : Info, dictGet (pyDirname L) st.cache = some pinfo →
      newName ∉ pinfo.children) :
    (rename fuel st L newName).unused = st.unused ∧
    (∀ n : Nat, ∀ K : String, ∀ i : Info, ChainDescN st.cache n L K → n ≤ fuel →
      dictGet K st.cache = some i →
      dictGet (renamedKey L (getLocationPath (pyDirname L) newName) K)
        (rename fuel st L newName).cache = some i ∧
      dictGet K (rename fuel st L newName).cache = none) ∧
    (∀ K : String, ¬ pathLE L K →
      ¬ pathLE (getLocationPath (pyDirname L) newName) K → K ≠ pyDirname L →
      dictGet K (rename fuel st L newName).cache = dictGet K st.cache) ∧
    (∀ pinfo : Info, dictGet (pyDirname L) st.cache = some pinfo →
      dictGet (pyDirname L) (rename fuel st L newName).cache =
        some ⟨pinfo.index,
          (if pyBasename L ∈ pinfo.children then pinfo.children.erase (pyBasename L)
            else pinfo.children) ++ [newName]⟩) := by
  have hLne : L ≠ "" := by
    rw [hshape]
    exact getLocationPath_ne_empty _ _ (Or.inl hpar)
  have hnLne : getLocationPath (pyDirname L) newName ≠ "" :=
    getLocationPath_ne_empty _ newName (Or.inl hpar)
  have hsfb : slashFree (pyBasename L) := slashFree_pyBasename L
  have hincomp1 : ¬ pathLE L (getLocationPath (pyDirname L) newName) := by
    nth_rewrite 1 [hshape]
    exact siblings_incomparable hsfb hsf (fun h => hnn h.symm)
  have hincomp2 : ¬ pathLE (getLocationPath (pyDirname L) newName) L := by
    nth_rewrite 2 [hshape]
    exact siblings_incomparable hsf hsfb hnn
  have hparL : ¬ pathLE L (pyDirname L) := by
    nth_rewrite 1 [hshape]
    exact not_pathLE_join_left _ _ hpar
  have hLnepar : L ≠ pyDirname L := by
    intro h
    apply hparL
    rw [← h]
    exact pathLE_refl _
  have hInv1 : Inv (findAndUpdateChildNameSelf st (pyDirname L)
      (some newName) (some (pyBasename L))) :=
    updateChild_inv st hInv (pyDirname L) newName (pyBasename L) hsf hnotin
  have hkeys1 := updateChild_keys st (pyDirname L) (some newName) (some (pyBasename L))
  have hg1 : dictGet L (findAndUpdateChildNameSelf st (pyDirname L)
      (some newName) (some (pyBasename L))).cache = some info :=
    (updateChild_get_ne st (pyDirname L) L hLnepar _ _).trans hgetL
  have hfr1 : ∀ K ∈ keysOf (findAndUpdateChildNameSelf st (pyDirname L)
      (some newName) (some (pyBasename L))),
      ¬ pathLE (getLocationPath (pyDirname L) newName) K := by
    intro K hK
    exact hfr K (hkeys1 ▸ hK)
  have hpop1 : dictPop L (findAndUpdateChildNameSelf st (pyDirname L)
      (some newName) (some (pyBasename L))).cache =
      some (info, dictDelete L (findAndUpdateChildNameSelf st (pyDirname L)
        (some newName) (some (pyBasename L))).cache) := by
    rw [dictPop_spec, hg1]
    rfl
  have hsome : renameLocation fuel
      (findAndUpdateChildNameSelf st (pyDirname L)
        (some newName) (some (pyBasename L))) L
      (getLocationPath (pyDirname L) newName) =
      some (renameChildList fuel
        ⟨dictSet (getLocationPath (pyDirname L) newName) info
          (dictDelete L (findAndUpdateChildNameSelf st (pyDirname L)
            (some newName) (some (pyBasename L))).cache),
         (findAndUpdateChildNameSelf st (pyDirname L)
            (some newName) (some (pyBasename L))).unused⟩
        L info.children (getLocationPath (pyDirname L) newName)) := by
    rw [renameLocation, hpop1]
  have hrenameq : rename fuel st L newName =
      renameChildList fuel
        ⟨dictSet (getLocationPath (pyDirname L) newName) info
          (dictDelete L (findAndUpdateChildNameSelf st (pyDirname L)
            (some newName) (some (pyBasename L))).cache),
         (findAndUpdateChildNameSelf st (pyDirname L)
            (some newName) (some (pyBasename L))).unused⟩
        L info.children (getLocationPath (pyDirname L) newName) := by
    rw [rename, hsome]
  obtain ⟨r1, r2, r3⟩ := renameLocation_transfer fuel
    (findAndUpdateChildNameSelf st (pyDirname L) (some newName) (some (pyBasename L)))
    L (getLocationPath (pyDirname L) newName)
    hInv1 hLne hnLne hincomp1 hincomp2 hfr1 _ hsome
  have hag : ∀ K', pathLE L K' →
      dictGet K' st.cache = dictGet K' (findAndUpdateChildNameSelf st (pyDirname L)
        (some newName) (some (pyBasename L))).cache := by
    intro K' hle
    have hKp : K' ≠ pyDirname L := by
      intro hcon
      rw [hcon] at hle
      exact hparL hle
    exact (updateChild_get_ne st (pyDirname L) K' hKp _ _).symm
  refine ⟨?_, ?_, ?_, ?_⟩
  · rw [hrenameq]
    exact r1.trans (updateChild_unused st (pyDirname L) _ _)
  · intro n K i hch hn hg
    have hch1 := chainDescN_congr hch hLne hag
    have hg2 : dictGet K (findAndUpdateChildNameSelf st (pyDirname L)
        (some newName) (some (pyBasename L))).cache = some i := by
      rw [← hag K (chainDescN_le hch hLne)]
      exact hg
    rw [hrenameq]
    exact r3 n K i hch1 hn hg2
  · intro K h1 h2 h3
    rw [hrenameq]
    exact (r2 K h1 h2).trans (updateChild_get_ne st (pyDirname L) K h3 _ _)
  · intro pinfo hgp
    have hmemp : pyDirname L ∈ keysOf st :=
      List.mem_map.mpr ⟨(pyDirname L, pinfo), dictGet_mem _ _ _ hgp, rfl⟩
    have hnple : ¬ pathLE (getLocationPath (pyDirname L) newName) (pyDirname L) :=
      hfr (pyDirname L) hmemp
    rw [hrenameq]
    exact (r2 (pyDirname L) hparL hnple).trans
      (updateChild_get_parent st (pyDirname L) pinfo hgp newName (pyBasename L) hne)

end DreamGaffer

/-! ## LightRigCache: the two-cache (light + light filter) configuration

`LightRigCache` records children as a name → location-type dict; its
overridden `recursiveRenameChildLocation` re-keys own-type children in place
and dispatches other-type children to that type's cache (here the light
filter `BaseCache`) through `renameLocation`; a `KeyError` from the dispatch
propagates (`none`). -/

namespace DreamGaffer

open Kodachi

structure LRInfo where
  index : Nat
  children : List (String × String)
deriving DecidableEq

structure LRState where
  light : List (String × LRInfo)
  lightUnused : List Nat
  filter : CacheState
deriving DecidableEq

mutual

/-- One own-type child entry of LightRigCache.recursiveRenameChildLocation:
if cached, re-key it in the light cache and recurse into its recorded
children. -/
def lrOne : Nat → String → LRState → String → String → String → Option LRState
  | 0, _, st, _, _, _ => some st
  | fuel + 1, lt, st, p, c, np =>
    match dictPop (getLocationPath p c) st.light with
    | none => some st
    | some (info, light') =>
      lrList fuel lt
        ⟨dictSet (getLocationPath np c) info light', st.lightUnused, st.filter⟩
        (getLocationPath p c) info.children (getLocationPath np c)

/-- The `for childName, childType in children.iteritems()` loop: own-type
children in place, other-type children through the filter cache's
renameLocation (whose KeyError propagates). -/
def lrList : Nat → String → LRState → String → List (String × String) → String →
    Option LRState
  | _, _, st, _, [], _ => some st
  | fuel, lt, st, p, (c, ty) :: cs, np =>
    if ty = lt then
      match lrOne fuel lt st p c np with
      | none => none
      | some st1 => lrList fuel lt st1 p cs np
    else
      match renameLocation fuel st.filter (getLocationPath p c)
          (getLocationPath np c) with
      | none => none
      | some f2 => lrList fuel lt ⟨st.light, st.lightUnused, f2⟩ p cs np

end

/-- BaseCache.renameLocation as inherited by LightRigCache: pop the old key
from the light cache, re-insert under the new key, then run the overridden
child recursion. -/
def lrRenameLocation (fuel : Nat) (lt : String) (st : LRState)
    (oldLocation newLocation : String) : Option LRState :=
  match dictPop oldLocation st.light with
  | none => none
  | some (info, light') =>
    lrList fuel lt ⟨dictSet newLocation info light', st.lightUnused, st.filter⟩
      oldLocation info.children newLocation

/-- LightRigCache.updateChildName: `del` the old name from the name → type
dict, then record the new name with the child's location type. -/
def lrUpdateChildName (st : LRState) (parentPath : String)
    (newName oldName : Option String) (locationType : String) : LRState × Bool :=
  match dictGet parentPath st.light with
  | none => (st, false)
  | some info =>
    let c1 := match oldName with
      | some o => if (dictGet o info.children).isSome then dictDelete o info.children
          else info.children
      | none => info.children
    let c2 := match newName with
      | some nn => if nn ≠ "" then dictSet nn locationType c1 else c1
      | none => c1
    (⟨dictSet parentPath ⟨info.index, c2⟩ st.light, st.lightUnused, st.filter⟩, true)

/-- InternalControl.findAndUpdateChildName for a light-type rename whose
parent lives in the light cache. -/
def lrFindAndUpdate (st : LRState) (parentPath : String)
    (newName oldName : Option String) (locationType : String) : LRState :=
  (lrUpdateChildName st parentPath newName oldName locationType).1

/-- BaseCache.rename as inherited by LightRigCache: update the parent's
children record, then re-key; the try/except keeps the parent update when
the re-key raises. -/
def lrRename (fuel : Nat) (lt : String) (st : LRState)
    (oldLocation newName : String) : LRState :=
  let st1 := lrFindAndUpdate st (pyDirname oldLocation) (some newName)
    (some (pyBasename oldLocation)) lt
  match lrRenameLocation fuel lt st1 oldLocation
      (getLocationPath (pyDirname oldLocation) newName) with
  | none => st1
  | some st2 => st2

end DreamGaffer

namespace DreamGaffer

open Kodachi

theorem renameLocation_keys_bound (fuel : Nat) (st : CacheState) (L nL : String)
    (hnL : nL ≠ "") :
    ∀ res, renameLocation fuel st L nL = some res →
      ∀ K ∈ keysOf res, K ∈ keysOf st ∨ pathLE nL K := by
  intro res hres
  rw [renameLocation] at hres
  cases hpop : dictPop L st.cache with
  | none => rw [hpop] at hres; exact absurd hres (by simp)
  | some pr =>
    rw [hpop] at hres
    obtain ⟨info, cache'⟩ := pr
    simp only [Option.some.injEq] at hres
    have hcc : cache' = dictDelete L st.cache := by
      have hs := dictPop_spec L st.cache
      rw [hpop] at hs
      cases hg2 : dictGet L st.cache with
      | none => rw [hg2] at hs; simp at hs
      | some i0 => rw [hg2] at hs; simp at hs; exact hs.2
    subst hcc
    intro K hK
    rw [← hres] at hK
    rcases (rename_keys_bound fuel).2 info.children
        ⟨dictSet nL info (dictDelete L st.cache), st.unused⟩ L nL hnL K hK with h | h
    · rw [keysOf] at h
      rcases (keys_dictSet_iff nL K _ _).mp h with h1 | h1
      · exact Or.inr (by rw [h1]; exact pathLE_refl _)
      · exact Or.inl (keys_dictDelete_subset _ st.cache K h1)
    · obtain ⟨c, _, hle⟩ := h
      exact Or.inr (pathLE_trans (pathLE_join _ c hnL) hle)

/-- The child loop of LightRigCache's rename when every recorded child's
type differs from the cache's own: each child is renamed through the filter
cache; the light cache is untouched. -/
theorem lrList_filter (fuel : Nat) (lt p np : String) (hp : p ≠ "") (hnp : np ≠ "")
    (hpnp : ¬ pathLE p np) (hnpp : ¬ pathLE np p) :
    ∀ cs : List (String × String), ∀ st : LRState,
      (∀ e ∈ cs, e.2 ≠ lt) →
      (cs.map Prod.fst).Nodup → (∀ e ∈ cs, slashFree e.1) →
      Inv st.filter →
      (∀ e ∈ cs, ∀ K ∈ keysOf st.filter, ¬ pathLE (getLocationPath np e.1) K) →
      (∀ e ∈ cs, ∃ ci : Info,
        dictGet (getLocationPath p e.1) st.filter.cache = some ci) →
      ∃ res : LRState, lrList fuel lt st p cs np = some res ∧
        res.light = st.light ∧ res.lightUnused = st.lightUnused ∧
        Inv res.filter ∧
        res.filter.unused = st.filter.unused ∧
        (∀ K : String, (∀ e ∈ cs, ¬ pathLE (getLocationPath p e.1) K ∧
            ¬ pathLE (getLocationPath np e.1) K) →
          dictGet K res.filter.cache = dictGet K st.filter.cache) ∧
        (∀ e ∈ cs, ∀ ci : Info,
          dictGet (getLocationPath p e.1) st.filter.cache = some ci →
          dictGet (getLocationPath np e.1) res.filter.cache = some ci ∧
          dictGet (getLocationPath p e.1) res.filter.cache = none) := by
  have hAB : ∀ x y : String, ¬ pathLE (getLocationPath p x) (getLocationPath np y) := by
    intro x y hcon
    exact no_common_desc hpnp hnpp
      (pathLE_trans (pathLE_join p x hp) hcon) (pathLE_join np y hnp)
  have hBA : ∀ x y : String, ¬ pathLE (getLocationPath np x) (getLocationPath p y) := by
    intro x y hcon
    exact no_common_desc hpnp hnpp (pathLE_join p y hp)
      (pathLE_trans (pathLE_join np x hnp) hcon)
  intro cs
  induction cs with
  | nil =>
    intro st _ _ _ hInvF _ _
    refine ⟨st, by rw [lrList], rfl, rfl, hInvF, rfl, fun _ _ => rfl,
      fun e he => absurd he (List.not_mem_nil e)⟩
  | cons e0 cs ih =>
    obtain ⟨c, ty⟩ := e0
    intro st htys hnd hsf hInvF hfr hex
    rw [List.map_cons, List.nodup_cons] at hnd
    have hty : ty ≠ lt := htys (c, ty) (by simp)
    have hsfc : slashFree c := hsf (c, ty) (by simp)
    have hjp : getLocationPath p c ≠ "" := getLocationPath_ne_empty p c (Or.inl hp)
    have hjnp : getLocationPath np c ≠ "" := getLocationPath_ne_empty np c (Or.inl hnp)
    have hcne : ∀ e ∈ cs, e.1 ≠ c :=
      fun e he hcon => hnd.1 (hcon ▸ List.mem_map.mpr ⟨e, he, rfl⟩)
    obtain ⟨ci0, hci0⟩ := hex (c, ty) (by simp)
    have hissome : (renameLocation fuel st.filter (getLocationPath p c)
        (getLocationPath np c)).isSome := by
      rw [renameLocation, dictPop_spec, hci0]
      rfl
    cases hr : renameLocation fuel st.filter (getLocationPath p c)
        (getLocationPath np c) with
    | none => rw [hr] at hissome; exact absurd hissome (by simp)
    | some f2 =>
      have hfrC : ∀ K ∈ keysOf st.filter, ¬ pathLE (getLocationPath np c) K :=
        fun K hK => hfr (c, ty) (by simp) K hK
      obtain ⟨r1, r2, r3⟩ := renameLocation_transfer fuel st.filter
        (getLocationPath p c) (getLocationPath np c)
        hInvF hjp hjnp (hAB c c) (hBA c c) hfrC f2 hr
      have hInvF2 : Inv f2 :=
        renameLocation_inv fuel st.filter hInvF (getLocationPath p c)
          (getLocationPath np c) hjnp hfrC f2 hr
      have hkb := renameLocation_keys_bound fuel st.filter (getLocationPath p c)
        (getLocationPath np c) hjnp f2 hr
      have hpe : ∀ e ∈ cs, dictGet (getLocationPath p e.1) f2.cache =
          dictGet (getLocationPath p e.1) st.filter.cache := by
        intro e he
        refine r2 (getLocationPath p e.1) ?_ ?_
        · exact siblings_incomparable hsfc (hsf e (.tail _ he)) (fun h => hcne e he h.symm)
        · exact hBA c e.1
      obtain ⟨res, hres, e1, e2, e3, e4, e5, e6⟩ := ih ⟨st.light, st.lightUnused, f2⟩
        (fun e he => htys e (.tail _ he))
        hnd.2
        (fun e he => hsf e (.tail _ he))
        hInvF2
        (by
          intro e he K hK hle
          rcases hkb K hK with h1 | h1
          · exact hfr e (.tail _ he) K h1 hle
          · rcases pathLE_comparable hle h1 with h | h
            · exact siblings_incomparable (hsf e (.tail _ he)) hsfc (hcne e he) h
            · exact siblings_incomparable hsfc (hsf e (.tail _ he))
                (fun hh => hcne e he hh.symm) h)
        (by
          intro e he
          obtain ⟨ci, hci⟩ := hex e (.tail _ he)
          exact ⟨ci, (hpe e he).trans hci⟩)
      have hred : lrList fuel lt st p ((c, ty) :: cs) np = some res := by
        rw [lrList, if_neg hty, hr]
        exact hres
      refine ⟨res, hred, e1, e2, e3, e4.trans r1, ?_, ?_⟩
      · intro K hall
        refine (e5 K (fun e he => hall e (.tail _ he))).trans ?_
        exact r2 K (hall (c, ty) (by simp)).1 (hall (c, ty) (by simp)).2
      · intro e he ci hci
        rcases List.mem_cons.mp he with he' | he'
        · subst he'
          have hpair := r3 0 (getLocationPath p c) ci (ChainDescN.refl _)
            (by omega) hci
          rw [renamedKey_self] at hpair
          constructor
          · refine (e5 (getLocationPath np c) ?_).trans hpair.1
            intro e2m he2
            refine ⟨hAB e2m.1 c, ?_⟩
            exact siblings_incomparable (hsf e2m (.tail _ he2)) hsfc (hcne e2m he2)
          · refine (e5 (getLocationPath p c) ?_).trans hpair.2
            intro e2m he2
            refine ⟨?_, hBA e2m.1 c⟩
            exact siblings_incomparable (hsf e2m (.tail _ he2)) hsfc (hcne e2m he2)
        · exact e6 e he' ci ((hpe e he').trans hci)

end DreamGaffer

namespace DreamGaffer

open Kodachi

theorem lrUpdate_filter (st : LRState) (parent : String)
    (newName oldName : Option String) (ty : String) :
    (lrFindAndUpdate st parent newName oldName ty).filter = st.filter := by
  unfold lrFindAndUpdate lrUpdateChildName
  cases hg : dictGet parent st.light <;> rfl

theorem lrUpdate_lightUnused (st : LRState) (parent : String)
    (newName oldName : Option String) (ty : String) :
    (lrFindAndUpdate st parent newName oldName ty).lightUnused = st.lightUnused := by
  unfold lrFindAndUpdate lrUpdateChildName
  cases hg : dictGet parent st.light <;> rfl

theorem lrUpdate_get_ne (st : LRState) (parent K : String) (hK : K ≠ parent)
    (newName oldName : Option String) (ty : String) :
    dictGet K (lrFindAndUpdate st parent newName oldName ty).light =
      dictGet K st.light := by
  unfold lrFindAndUpdate lrUpdateChildName
  cases hg : dictGet parent st.light with
  | none => rfl
  | some info =>
    show dictGet K (dictSet parent _ st.light) = dictGet K st.light
    rw [dictGet_dictSet, if_neg (fun h => hK h.symm)]

theorem lrUpdate_keys (st : LRState) (parent : String)
    (newName oldName : Option String) (ty : String) :
    (lrFindAndUpdate st parent newName oldName ty).light.map Prod.fst =
      st.light.map Prod.fst := by
  unfold lrFindAndUpdate lrUpdateChildName
  cases hg : dictGet parent st.light with
  | none => rfl
  | some info =>
    show (dictSet parent _ st.light).map Prod.fst = st.light.map Prod.fst
    refine keys_dictSet_of_mem _ _ _ ?_
    exact List.mem_map.mpr ⟨(parent, info), dictGet_mem _ _ _ hg, rfl⟩

theorem lrUpdate_get_parent (st : LRState) (parent : String) (pinfo : LRInfo)
    (hg : dictGet parent st.light = some pinfo) (nn od ty : String) (hnn : nn ≠ "") :
    dictGet parent (lrFindAndUpdate st parent (some nn) (some od) ty).light =
      some ⟨pinfo.index,
        dictSet nn ty (if (dictGet od pinfo.children).isSome
          then dictDelete od pinfo.children else pinfo.children)⟩ := by
  unfold lrFindAndUpdate lrUpdateChildName
  rw [hg]
  show dictGet parent (dictSet parent _ st.light) = _
  rw [dictGet_dictSet, if_pos rfl]
  simp [hnn]

/-- LightRigCache.rename of a light location whose recorded children are all
of a different type: the light entry is re-keyed in the light cache, each
recorded child is renamed through the filter cache, and the parent's
children dict loses the old name and gains the new name mapped to the
cache's own location type. -/
theorem lrRename_dispatch (fuel : Nat) (lt : String) (st : LRState)
    (L newName : String) (linfo : LRInfo)
    (hNdL : (st.light.map Prod.fst).Nodup) (hInvF : Inv st.filter)
    (hgetL : dictGet L st.light = some linfo)
    (hshape : L = getLocationPath (pyDirname L) (pyBasename L))
    (hpar : pyDirname L ≠ "")
    (hsf : slashFree newName) (hne : newName ≠ "") (hnn : newName ≠ pyBasename L)
    (htys : ∀ e ∈ linfo.children, e.2 ≠ lt)
    (hndc : (linfo.children.map Prod.fst).Nodup)
    (hsfc : ∀ e ∈ linfo.children, slashFree e.1)
    (hfrF : ∀ K ∈ keysOf st.filter,
      ¬ pathLE (getLocationPath (pyDirname L) newName) K)
    (hex : ∀ e ∈ linfo.children, ∃ ci : Info,
      dictGet (getLocationPath L e.1) st.filter.cache = some ci) :
    (dictGet (getLocationPath (pyDirname L) newName)
        (lrRename fuel lt st L newName).light = some linfo ∧
      dictGet L (lrRename fuel lt st L newName).light = none) ∧
    (∀ K : String, K ≠ getLocationPath (pyDirname L) newName → K ≠ L →
      K ≠ pyDirname L →
      dictGet K (lrRename fuel lt st L newName).light = dictGet K st.light) ∧
    (∀ pinfo : LRInfo, dictGet (pyDirname L) st.light = some pinfo →
      dictGet (pyDirname L) (lrRename fuel lt st L newName).light =
        some ⟨pinfo.index,
          dictSet newName lt (if (dictGet (pyBasename L) pinfo.children).isSome
            then dictDelete (pyBasename L) pinfo.children else pinfo.children)⟩) ∧
    (∀ e ∈ linfo.children, ∀ ci : Info,
      dictGet (getLocationPath L e.1) st.filter.cache = some ci →
      dictGet (getLocationPath (getLocationPath (pyDirname L) newName) e.1)
        (lrRename fuel lt st L newName).filter.cache = some ci ∧
      dictGet (getLocationPath L e.1)
        (lrRename fuel lt st L newName).filter.cache = none) := by
  have hLne : L ≠ "" := by
    rw [hshape]
    exact getLocationPath_ne_empty _ _ (Or.inl hpar)
  have hnLne : getLocationPath (pyDirname L) newName ≠ "" :=
    getLocationPath_ne_empty _ newName (Or.inl hpar)
  have hsfb : slashFree (pyBasename L) := slashFree_pyBasename L
  have hincomp1 : ¬ pathLE L (getLocationPath (pyDirname L) newName) := by
    nth_rewrite 1 [hshape]
    exact siblings_incomparable hsfb hsf (fun h => hnn h.symm)
  have hincomp2 : ¬ pathLE (getLocationPath (pyDirname L) newName) L := by
    nth_rewrite 2 [hshape]
    exact siblings_incomparable hsf hsfb hnn
  have hparL : ¬ pathLE L (pyDirname L) := by
    nth_rewrite 1 [hshape]
    exact not_pathLE_join_left _ _ hpar
  have hLnepar : L ≠ pyDirname L := by
    intro h
    apply hparL
    rw [← h]
    exact pathLE_refl _
  have hnlpar : getLocationPath (pyDirname L) newName ≠ pyDirname L := by
    intro h
    apply not_pathLE_join_left (pyDirname L) newName hpar
    rw [h]
    exact pathLE_refl _
  have hnlL : getLocationPath (pyDirname L) newName ≠ L := by
    intro h
    apply hincomp2
    rw [h]
    exact pathLE_refl _
  have hf1 := lrUpdate_filter st (pyDirname L) (some newName) (some (pyBasename L)) lt
  have hg1 : dictGet L (lrFindAndUpdate st (pyDirname L) (some newName)
      (some (pyBasename L)) lt).light = some linfo :=
    (lrUpdate_get_ne st (pyDirname L) L hLnepar _ _ _).trans hgetL
  have hk1 := lrUpdate_keys st (pyDirname L) (some newName) (some (pyBasename L)) lt
  have hNd1 : ((lrFindAndUpdate st (pyDirname L) (some newName)
      (some (pyBasename L)) lt).light.map Prod.fst).Nodup := by
    rw [hk1]
    exact hNdL
  have hpop1 : dictPop L (lrFindAndUpdate st (pyDirname L) (some newName)
      (some (pyBasename L)) lt).light =
      some (linfo, dictDelete L (lrFindAndUpdate st (pyDirname L) (some newName)
        (some (pyBasename L)) lt).light) := by
    rw [dictPop_spec, hg1]
    rfl
  obtain ⟨R, hR, E1, E2, E3, E4, E5, E6⟩ := lrList_filter fuel lt L
    (getLocationPath (pyDirname L) newName) hLne hnLne hincomp1 hincomp2
    linfo.children
    ⟨dictSet (getLocationPath (pyDirname L) newName) linfo
      (dictDelete L (lrFindAndUpdate st (pyDirname L) (some newName)
        (some (pyBasename L)) lt).light),
     (lrFindAndUpdate st (pyDirname L) (some newName)
        (some (pyBasename L)) lt).lightUnused,
     (lrFindAndUpdate st (pyDirname L) (some newName)
        (some (pyBasename L)) lt).filter⟩
    htys hndc hsfc
    (by rw [hf1]; exact hInvF)
    (by
      intro e he K hK hle
      rw [hf1] at hK
      exact hfrF K hK (pathLE_trans (pathLE_join _ e.1 hnLne) hle))
    (by
      intro e he
      obtain ⟨ci, hci⟩ := hex e he
      refine ⟨ci, ?_⟩
      show dictGet _ (lrFindAndUpdate st (pyDirname L) (some newName)
        (some (pyBasename L)) lt).filter.cache = some ci
      rw [hf1]
      exact hci)
  have hsomeRL : lrRenameLocation fuel lt
      (lrFindAndUpdate st (pyDirname L) (some newName) (some (pyBasename L)) lt)
      L (getLocationPath (pyDirname L) newName) = some R := by
    rw [lrRenameLocation, hpop1]
    exact hR
  have hq : lrRename fuel lt st L newName = R := by
    rw [lrRename, hsomeRL]
  refine ⟨⟨?_, ?_⟩, ?_, ?_, ?_⟩
  · rw [hq, E1]
    show dictGet _ (dictSet _ linfo _) = some linfo
    rw [dictGet_dictSet, if_pos rfl]
  · rw [hq, E1]
    show dictGet L (dictSet _ linfo _) = none
    rw [dictGet_dictSet, if_neg hnlL, dictGet_dictDelete_self _ _ hNd1]
  · intro K h1 h2 h3
    rw [hq, E1]
    show dictGet K (dictSet _ linfo _) = dictGet K st.light
    rw [dictGet_dictSet, if_neg (fun h => h1 h.symm), dictGet_dictDelete_ne h2]
    exact lrUpdate_get_ne st (pyDirname L) K h3 _ _ _
  · intro pinfo hgp
    rw [hq, E1]
    show dictGet (pyDirname L) (dictSet _ linfo _) = _
    rw [dictGet_dictSet, if_neg hnlpar, dictGet_dictDelete_ne (Ne.symm hLnepar)]
    exact lrUpdate_get_parent st (pyDirname L) pinfo hgp newName (pyBasename L) lt hne
  · intro e he ci hci
    have hci1 : dictGet (getLocationPath L e.1)
        (lrFindAndUpdate st (pyDirname L) (some newName)
          (some (pyBasename L)) lt).filter.cache = some ci := by
      rw [hf1]
      exact hci
    have hpair := E6 e he ci hci1
    rw [hq]
    exact hpair

end DreamGaffer

namespace DreamGaffer

open Kodachi

/-- **C3.** For a location `L` present in a cache, `rename(L, newName)`
re-keys `L`'s entry to `dirname(L) + "/" + newName` and recursively re-keys
every cached descendant of `L` (reachable through the recorded children
chains, here bounded by the fuel) by replacing the `L` prefix with the new
location, leaving each moved entry's slot index and direct-children record
unchanged and touching no other key except the parent's record; and in
LightRigCache a recorded child whose location type differs from the cache's
own is renamed through the cache of that child's type (the filter cache),
while the parent's children record loses the old child name and gains the
new one. -/
theorem rename_propagation (fuel : Nat) :
    (∀ st : CacheState, ∀ L newName : String, ∀ info : Info,
      Inv st → dictGet L st.cache = some info →
      L = getLocationPath (pyDirname L) (pyBasename L) → pyDirname L ≠ "" →
      slashFree newName → newName ≠ "" → newName ≠ pyBasename L →
      (∀ K ∈ keysOf st, ¬ pathLE (getLocationPath (pyDirname L) newName) K) →
      (∀ pinfo : Info, dictGet (pyDirname L) st.cache = some pinfo →
        newName ∉ pinfo.children) →
      (∀ K ∈ keysOf st, pathLE L K → ∃ n : Nat,
        n ≤ fuel ∧ ChainDescN st.cache n L K) →
      (∀ K ∈ keysOf st, pathLE L K → ∃ i : Info,
        dictGet K st.cache = some i ∧
        dictGet (renamedKey L (getLocationPath (pyDirname L) newName) K)
          (rename fuel st L newName).cache = some i ∧
        dictGet K (rename fuel st L newName).cache = none) ∧
      dictGet (getLocationPath (pyDirname L) newName)
        (rename fuel st L newName).cache = some info ∧
      (∀ K : String, ¬ pathLE L K →
        ¬ pathLE (getLocationPath (pyDirname L) newName) K → K ≠ pyDirname L →
        dictGet K (rename fuel st L newName).cache = dictGet K st.cache) ∧
      (∀ pinfo : Info, dictGet (pyDirname L) st.cache = some pinfo →
        dictGet (pyDirname L) (rename fuel st L newName).cache =
          some ⟨pinfo.index,
            (if pyBasename L ∈ pinfo.children
              then pinfo.children.erase (pyBasename L) else pinfo.children)
              ++ [newName]⟩)) ∧
    (∀ lt : String, ∀ st : LRState, ∀ L newName : String, ∀ linfo : LRInfo,
      (st.light.map Prod.fst).Nodup → Inv st.filter →
      dictGet L st.light = some linfo →
      L = getLocationPath (pyDirname L) (pyBasename L) → pyDirname L ≠ "" →
      slashFree newName → newName ≠ "" → newName ≠ pyBasename L →
      (∀ e ∈ linfo.children, e.2 ≠ lt) →
      (linfo.children.map Prod.fst).Nodup →
      (∀ e ∈ linfo.children, slashFree e.1) →
      (∀ K ∈ keysOf st.filter,
        ¬ pathLE (getLocationPath (pyDirname L) newName) K) →
      (∀ e ∈ linfo.children, ∃ ci : Info,
        dictGet (getLocationPath L e.1) st.filter.cache = some ci) →
      (dictGet (getLocationPath (pyDirname L) newName)
          (lrRename fuel lt st L newName).light = some linfo ∧
        dictGet L (lrRename fuel lt st L newName).light = none) ∧
      (∀ e ∈ linfo.children, ∀ ci : Info,
        dictGet (getLocationPath L e.1) st.filter.cache = some ci →
        dictGet (getLocationPath (getLocationPath (pyDirname L) newName) e.1)
          (lrRename fuel lt st L newName).filter.cache = some ci ∧
        dictGet (getLocationPath L e.1)
          (lrRename fuel lt st L newName).filter.cache = none) ∧
      (∀ pinfo : LRInfo, dictGet (pyDirname L) st.light = some pinfo →
        dictGet (pyDirname L) (lrRename fuel lt st L newName).light =
          some ⟨pinfo.index,
            dictSet newName lt (if (dictGet (pyBasename L) pinfo.children).isSome
              then dictDelete (pyBasename L) pinfo.children
              else pinfo.children)⟩)) := by
  constructor
  · intro st L newName info hInv hgetL hshape hpar hsf hne hnn hfr hnotin hclosed
    obtain ⟨ra, rb, rc, rd⟩ := rename_rekey fuel st L newName info hInv hgetL hshape
      hpar hsf hne hnn hfr hnotin
    refine ⟨?_, ?_, rc, rd⟩
    · intro K hK hle
      obtain ⟨n, hn, hch⟩ := hclosed K hK hle
      have hiss := dictGet_isSome_of_mem K st.cache hK
      cases hg : dictGet K st.cache with
      | none => rw [hg] at hiss; exact absurd hiss (by simp)
      | some i => exact ⟨i, rfl, rb n K i hch hn hg⟩
    · have hpair := rb 0 L info (ChainDescN.refl L) (by omega) hgetL
      rw [renamedKey_self] at hpair
      exact hpair.1
  · intro lt st L newName linfo hNdL hInvF hgetL hshape hpar hsf hne hnn htys hndc
      hsfc hfrF hex
    obtain ⟨p1, _, p3, p4⟩ := lrRename_dispatch fuel lt st L newName linfo hNdL hInvF
      hgetL hshape hpar hsf hne hnn htys hndc hsfc hfrF hex
    exact ⟨p1, p4, p3⟩

theorem rename_propagation_witness :
    dictGet (getLocationPath (pyDirname "/a/b") "c")
      (rename 5 (⟨[("/a", ⟨0, ["b"]⟩), ("/a/b", ⟨1, []⟩)], []⟩ : CacheState)
        "/a/b" "c").cache = some ⟨1, []⟩ ∧
    dictGet (getLocationPath (getLocationPath (pyDirname "/a/b") "c") "f")
      (lrRename 5 "light"
        (⟨[("/a", ⟨0, [("b", "light")]⟩), ("/a/b", ⟨1, [("f", "light filter")]⟩)],
          [], ⟨[("/a/b/f", ⟨0, []⟩)], []⟩⟩ : LRState)
        "/a/b" "c").filter.cache = some ⟨0, []⟩ :=
  ⟨((rename_propagation 5).1
      ⟨[("/a", ⟨0, ["b"]⟩), ("/a/b", ⟨1, []⟩)], []⟩ "/a/b" "c" ⟨1, []⟩
      (by simp only [Inv, IndexPartition, NamesWF, NodupChildren]; decide)
      (by decide) (by decide) (by decide) (by decide) (by decide) (by decide)
      (by decide)
      (fun pinfo h => by
        have h2 : (⟨0, ["b"]⟩ : Info) = pinfo := Option.some.inj h
        rw [← h2]
        decide)
      (by
        intro K hK hle
        rw [keysOf] at hK
        simp only [List.map_cons, List.map_nil] at hK
        rcases List.mem_cons.mp hK with h1 | h1
        · subst h1
          exact absurd hle (by decide)
        · rw [List.mem_singleton] at h1
          subst h1
          exact ⟨0, by omega, ChainDescN.refl _⟩)).2.1,
   (((rename_propagation 5).2 "light"
      ⟨[("/a", ⟨0, [("b", "light")]⟩), ("/a/b", ⟨1, [("f", "light filter")]⟩)],
        [], ⟨[("/a/b/f", ⟨0, []⟩)], []⟩⟩ "/a/b" "c" ⟨1, [("f", "light filter")]⟩
      (by decide)
      (by simp only [Inv, IndexPartition, NamesWF, NodupChildren]; decide)
      (by decide) (by decide) (by decide) (by decide) (by decide) (by decide)
      (by decide) (by decide) (by decide) (by decide)
      (fun e he => by
        rw [List.mem_singleton] at he
        subst he
        exact ⟨⟨0, []⟩, by decide⟩)).2.1
     ("f", "light filter") (by decide) ⟨0, []⟩ (by decide)).1⟩

end DreamGaffer

/-! ## MoonrayRenderManager `Context.getOps` / `Context.buildOpChain`

Ops are transaction-scoped ids; a transaction records each op's input list
(set by `setOpInputs`) and its op-args type string (set by `setOpArgs`).
The host calls `Nodes3DAPI.ApplyImplicitResolverOps` and
`Nodes3DAPI.GetRenderTerminalOps` append op subchains inside the
transaction; they appear as oracle parameters whose documented behavior
(the transaction is only extended, returned ops are ids of the transaction)
is hypothesised. -/

namespace MoonrayRenderManager

open Kodachi

structure Txn where
  nextId : Nat
  inputs : List (Nat × List Nat)
  args : List (Nat × String)
deriving DecidableEq

def createOp (t : Txn) : Nat × Txn :=
  (t.nextId, ⟨t.nextId + 1, t.inputs, t.args⟩)

def setOpInputs (t : Txn) (op : Nat) (ins : List Nat) : Txn :=
  ⟨t.nextId, dictSet op ins t.inputs, t.args⟩

def setOpArgs (t : Txn) (op : Nat) (ty : String) : Txn :=
  ⟨t.nextId, t.inputs, dictSet op ty t.args⟩

/-- `op.getInputs()`: the empty tuple when no inputs were set. -/
def getInputs (t : Txn) (op : Nat) : List Nat :=
  (dictGet op t.inputs).getD []

inductive GetOpsResult where
  | ok (ops : List Nat)
  | raised
deriving DecidableEq

/-- The `while op:` loop of Context.getOps, with the `ops` accumulator;
`none` is running out of fuel (the loop not terminating). -/
def getOpsGo : Nat → Txn → List Nat → Nat → Nat → Option GetOpsResult
  | 0, _, _, _, _ => none
  | fuel + 1, t, ops, op, endOp =>
    if op = endOp then some (.ok ops.reverse)
    else
      match dictGet op t.inputs with
      | none => some .raised
      | some [] => some .raised
      | some (i0 :: _) => getOpsGo fuel t (ops ++ [op]) i0 endOp

/-- Context.getOps(start, end). -/
def getOps (fuel : Nat) (t : Txn) (start endOp : Nat) : Option GetOpsResult :=
  getOpsGo fuel t [] start endOp

/-- The walk from `start` to `endOp` along first inputs: its node list, in
walk (downstream-to-upstream) order, excluding `endOp`. -/
inductive FirstInputChain (t : Txn) (endOp : Nat) : Nat → List Nat → Prop where
  | nil : FirstInputChain t endOp endOp []
  | cons {op i0 : Nat} {tl rest : List Nat} :
      op ≠ endOp → dictGet op t.inputs = some (i0 :: tl) →
      FirstInputChain t endOp i0 rest →
      FirstInputChain t endOp op (op :: rest)

/-- The walk from `start` along first inputs hits an op with no inputs
before reaching `endOp`. -/
inductive WalkDead (t : Txn) (endOp : Nat) : Nat → Prop where
  | here {op : Nat} : op ≠ endOp →
      dictGet op t.inputs = none ∨ dictGet op t.inputs = some [] →
      WalkDead t endOp op
  | step {op i0 : Nat} {tl : List Nat} : op ≠ endOp →
      dictGet op t.inputs = some (i0 :: tl) → WalkDead t endOp i0 →
      WalkDead t endOp op

theorem getOpsGo_ok : ∀ fuel : Nat, ∀ t : Txn, ∀ acc : List Nat, ∀ op endOp : Nat,
    ∀ l : List Nat, getOpsGo fuel t acc op endOp = some (.ok l) →
    ∃ w : List Nat, FirstInputChain t endOp op w ∧ l = (acc ++ w).reverse := by
  intro fuel
  induction fuel with
  | zero => intro t acc op endOp l h; exact absurd h (by simp [getOpsGo])
  | succ fuel ih =>
    intro t acc op endOp l h
    rw [getOpsGo] at h
    by_cases he : op = endOp
    · rw [if_pos he] at h
      simp only [Option.some.injEq, GetOpsResult.ok.injEq] at h
      subst he
      exact ⟨[], FirstInputChain.nil, by rw [← h]; simp⟩
    · rw [if_neg he] at h
      cases hg : dictGet op t.inputs with
      | none => rw [hg] at h; simp at h
      | some ins =>
        rw [hg] at h
        cases ins with
        | nil => simp at h
        | cons i0 tl =>
          obtain ⟨w, hw, hl⟩ := ih t (acc ++ [op]) i0 endOp l h
          refine ⟨op :: w, FirstInputChain.cons he hg hw, ?_⟩
          rw [hl, List.append_assoc]
          rfl

theorem getOpsGo_raised : ∀ fuel : Nat, ∀ t : Txn, ∀ acc : List Nat, ∀ op endOp : Nat,
    getOpsGo fuel t acc op endOp = some .raised → WalkDead t endOp op := by
  intro fuel
  induction fuel with
  | zero => intro t acc op endOp h; exact absurd h (by simp [getOpsGo])
  | succ fuel ih =>
    intro t acc op endOp h
    rw [getOpsGo] at h
    by_cases he : op = endOp
    · rw [if_pos he] at h; simp at h
    · rw [if_neg he] at h
      cases hg : dictGet op t.inputs with
      | none => exact WalkDead.here he (Or.inl hg)
      | some ins =>
        rw [hg] at h
        cases ins with
        | nil => exact WalkDead.here he (Or.inr hg)
        | cons i0 tl => exact WalkDead.step he hg (ih t (acc ++ [op]) i0 endOp h)

end MoonrayRenderManager

namespace MoonrayRenderManager

open Kodachi

/-- Context.applyImplicitResolvers: the host appends the implicit-resolver
ops; previewRender with a scenegraph selection additionally wraps an Isolate
op (the host-derived condition is the `doIsolate` flag). -/
def applyImplicitResolvers (oIR : Txn → Nat → Nat × Txn) (doIsolate : Bool)
    (t : Txn) (op : Nat) : Nat × Txn :=
  let pr := oIR t op
  if doIsolate then
    let pr2 := createOp pr.2
    let t2 := setOpArgs pr2.2 pr2.1 "Isolate"
    let t3 := setOpInputs t2 pr2.1 [pr.1]
    (pr2.1, t3)
  else pr

/-- Context.applyRenderOps: a RenderSettingsDefaults op over the given op,
optionally followed by the katanaId AttributeSet op. -/
def applyRenderOps (renderIdPass : Bool) (t : Txn) (op : Nat) : Nat × Txn :=
  let pr := createOp t
  let t1 := setOpArgs pr.2 pr.1 "RenderSettingsDefaults"
  let t2 := setOpInputs t1 pr.1 [op]
  if renderIdPass then
    let pr2 := createOp t2
    let t3 := setOpArgs pr2.2 pr2.1 "AttributeSet"
    let t4 := setOpInputs t3 pr2.1 [pr.1]
    (pr2.1, t4)
  else (pr.1, t2)

/-- Context.applyTerminalOps: the host returns the render terminal op
subchain; the first terminal op's inputs are set to the given op and the
last terminal op is returned. -/
def applyTerminalOps (oTerm : Txn → List Nat × Txn) (t : Txn) (op : Nat) :
    Nat × Txn :=
  let pr := oTerm t
  (pr.1.getLastD 0, setOpInputs pr.2 pr.1.headI [op])

/-- `opChain.extend(self.getOps(op, opChain[-1]))`: flatten a host subchain
into the list; `none` when getOps raises or runs out of fuel. -/
def extendChain (fuel : Nat) (pr : Nat × Txn) (chain : List Nat) :
    Option (List Nat × Txn) :=
  match getOps fuel pr.2 pr.1 (chain.getLastD 0) with
  | some (.ok l) => some (chain ++ l, pr.2)
  | _ => none

/-- `txn.setOpInputs(newOp, [opChain[-1]]); opChain.append(newOp)` for a
freshly created op (the renderID op and the live-attribute no-op). -/
def appendFresh (t : Txn) (chain : List Nat) (ty : String) :
    List Nat × Txn :=
  let pr := createOp t
  let t1 := setOpArgs pr.2 pr.1 ty
  let t2 := setOpInputs t1 pr.1 [chain.getLastD 0]
  (chain ++ [pr.1], t2)

/-- Context.buildOpChain: resolution op, implicit resolvers, render ops,
renderID op, the live-attribute no-op for live renders, terminal ops; each
host subchain is flattened into the list through getOps; `none` when a
getOps raises or runs out of fuel. -/
def buildOpChain (oIR : Txn → Nat → Nat × Txn) (oTerm : Txn → List Nat × Txn)
    (doIsolate renderIdPass liveRender : Bool) (fuel : Nat) :
    Option (List Nat × Txn) :=
  let pr0 := createOp ⟨0, [], []⟩
  let t1 := setOpArgs pr0.2 pr0.1 "AttributeSet"
  (extendChain fuel (applyImplicitResolvers oIR doIsolate t1 pr0.1) [pr0.1]).bind
    (fun r1 =>
      (extendChain fuel
          (applyRenderOps renderIdPass r1.2 (r1.1.getLastD 0)) r1.1).bind
        (fun r2 =>
          let r3 := appendFresh r2.2 r2.1 "AttributeSet"
          let r4 := if liveRender then appendFresh r3.2 r3.1 "no-op" else r3
          extendChain fuel (applyTerminalOps oTerm r4.2 (r4.1.getLastD 0)) r4.1))

/-- The transaction is only extended: ids grow and existing ops keep their
input lists. -/
def TxnLE (t1 t2 : Txn) : Prop :=
  t1.nextId ≤ t2.nextId ∧ ∀ op < t1.nextId, dictGet op t2.inputs = dictGet op t1.inputs

/-- Every recorded input entry names ops of the transaction. -/
def TxnWF (t : Txn) : Prop :=
  ∀ e ∈ t.inputs, e.1 < t.nextId ∧ ∀ x ∈ e.2, x < t.nextId

theorem txnLE_refl (t : Txn) : TxnLE t t := ⟨le_refl _, fun _ _ => rfl⟩

theorem txnLE_trans {t1 t2 t3 : Txn} (h1 : TxnLE t1 t2) (h2 : TxnLE t2 t3) :
    TxnLE t1 t3 := by
  refine ⟨le_trans h1.1 h2.1, ?_⟩
  intro op hop
  rw [h2.2 op (lt_of_lt_of_le hop h1.1), h1.2 op hop]

theorem txnLE_createOp (t : Txn) : TxnLE t (createOp t).2 :=
  ⟨Nat.le_succ _, fun _ _ => rfl⟩

theorem txnLE_setOpArgs (t : Txn) (op : Nat) (ty : String) :
    TxnLE t (setOpArgs t op ty) := ⟨le_refl _, fun _ _ => rfl⟩

theorem txnLE_setOpInputs (t : Txn) (op : Nat) (ins : List Nat)
    (hop : t.nextId ≤ op) : TxnLE t (setOpInputs t op ins) := by
  refine ⟨le_refl _, ?_⟩
  intro op' hop'
  show dictGet op' (dictSet op ins t.inputs) = dictGet op' t.inputs
  rw [dictGet_dictSet, if_neg (fun h => absurd (h ▸ hop) (by omega))]

theorem mem_dictSet {κ α : Type} [DecidableEq κ] (k : κ) (v : α) :
    ∀ l : List (κ × α), ∀ e ∈ dictSet k v l, e = (k, v) ∨ e ∈ l := by
  intro l
  induction l with
  | nil =>
    intro e he
    rw [show dictSet k v ([] : List (κ × α)) = [(k, v)] from rfl,
      List.mem_singleton] at he
    exact Or.inl he
  | cons e0 r ih =>
    obtain ⟨k', v'⟩ := e0
    intro e he
    by_cases h : k' = k
    · rw [show dictSet k v ((k', v') :: r) = (k, v) :: r from by
        simp [dictSet, h]] at he
      rcases List.mem_cons.mp he with he | he
      · exact Or.inl he
      · exact Or.inr (List.mem_cons_of_mem _ he)
    · rw [show dictSet k v ((k', v') :: r) = (k', v') :: dictSet k v r from by
        simp [dictSet, h]] at he
      rcases List.mem_cons.mp he with he | he
      · exact Or.inr (by rw [he]; simp)
      · rcases ih e he with h1 | h1
        · exact Or.inl h1
        · exact Or.inr (List.mem_cons_of_mem _ h1)

theorem txnWF_createOp {t : Txn} (h : TxnWF t) : TxnWF (createOp t).2 := by
  intro e he
  obtain ⟨h1, h2⟩ := h e he
  refine ⟨?_, ?_⟩
  · show e.1 < t.nextId + 1
    omega
  · intro x hx
    show x < t.nextId + 1
    have := h2 x hx
    omega

theorem txnWF_setOpArgs {t : Txn} (h : TxnWF t) (op : Nat) (ty : String) :
    TxnWF (setOpArgs t op ty) := h

theorem txnWF_setOpInputs {t : Txn} (h : TxnWF t) (op : Nat) (ins : List Nat)
    (hop : op < t.nextId) (hins : ∀ x ∈ ins, x < t.nextId) :
    TxnWF (setOpInputs t op ins) := by
  intro e he
  rcases mem_dictSet op ins t.inputs e he with h1 | h1
  · rw [h1]
    exact ⟨hop, hins⟩
  · exact h e h1

/-- Walk nodes are ops of the transaction. -/
theorem firstInputChain_bounded {t : Txn} (hwf : TxnWF t) {endOp : Nat} :
    ∀ {s : Nat} {w : List Nat}, FirstInputChain t endOp s w → s < t.nextId →
      ∀ x ∈ w, x < t.nextId := by
  intro s w h
  induction h with
  | nil => intro _ x hx; exact absurd hx (List.not_mem_nil x)
  | cons hne hg hrest ih =>
    rename_i op i0 tl rest
    intro hs x hx
    have hmem := dictGet_mem _ _ _ hg
    have hi0 : i0 < t.nextId := (hwf _ hmem).2 i0 (by simp)
    rcases List.mem_cons.mp hx with h1 | h1
    · rw [h1]; exact hs
    · exact ih hi0 x h1

/-- The walk, reversed behind its endpoint, is input-linked. -/
theorem firstInputChain_linked {t : Txn} {endOp : Nat} :
    ∀ {s : Nat} {w : List Nat}, FirstInputChain t endOp s w →
      List.Chain' (fun a b => a ∈ getInputs t b) (endOp :: w.reverse) ∧
      (endOp :: w.reverse).getLast? = some s := by
  intro s w h
  induction h with
  | nil => exact ⟨List.chain'_singleton _, rfl⟩
  | cons hne hg hrest ih =>
    rename_i op i0 tl rest
    obtain ⟨ihc, ihl⟩ := ih
    constructor
    · rw [show (endOp :: (op :: rest).reverse) =
        (endOp :: rest.reverse) ++ [op] from by simp]
      rw [List.chain'_append]
      refine ⟨ihc, List.chain'_singleton _, ?_⟩
      intro x hx y hy
      rw [ihl] at hx
      simp only [Option.mem_def, Option.some.injEq] at hx
      have hyo : op = y := by simpa using hy
      rw [← hx, ← hyo]
      show i0 ∈ getInputs t op
      rw [getInputs, hg]
      simp
    · rw [show (endOp :: (op :: rest).reverse) =
        (endOp :: rest.reverse) ++ [op] from by simp]
      rw [List.getLast?_concat]

/-- Input links survive transaction extension. -/
theorem chain_linked_mono {t t' : Txn} (hle : TxnLE t t') :
    ∀ l : List Nat, (∀ x ∈ l, x < t.nextId) →
      List.Chain' (fun a b => a ∈ getInputs t b) l →
      List.Chain' (fun a b => a ∈ getInputs t' b) l := by
  intro l
  induction l with
  | nil => intro _ _; exact List.chain'_nil
  | cons a l ih =>
    intro hb hc
    rw [List.chain'_cons'] at hc ⊢
    refine ⟨?_, ih (fun x hx => hb x (.tail _ hx)) hc.2⟩
    intro y hy
    have hy' := hc.1 y hy
    have hyb : y < t.nextId := by
      have hym : y ∈ l := List.mem_of_mem_head? hy
      exact hb y (.tail _ hym)
    show a ∈ getInputs t' y
    rw [getInputs, hle.2 y hyb]
    exact hy'

end MoonrayRenderManager

namespace MoonrayRenderManager

open Kodachi

theorem getLastD_mem : ∀ (l : List Nat) (d : Nat), l ≠ [] → l.getLastD d ∈ l := by
  intro l
  induction l with
  | nil => intro d h; exact absurd rfl h
  | cons a l ih =>
    intro d _
    cases l with
    | nil =>
      have h2 : ([a] : List Nat).getLastD d = a := rfl
      rw [h2]
      simp
    | cons b r =>
      have h2 : ((a :: b :: r) : List Nat).getLastD d = (b :: r).getLastD a := rfl
      rw [h2]
      exact List.mem_cons_of_mem _ (ih a (by simp))

theorem getLast?_of_ne_nil : ∀ (l : List Nat) (d : Nat), l ≠ [] →
    l.getLast? = some (l.getLastD d) := by
  intro l
  induction l with
  | nil => intro d h; exact absurd rfl h
  | cons a l ih =>
    intro d _
    cases l with
    | nil => rfl
    | cons b r =>
      have h2 : ((a :: b :: r) : List Nat).getLastD d = (b :: r).getLastD a := rfl
      rw [h2, List.getLast?_cons_cons]
      exact ih a (by simp)

theorem extendChain_spec {fuel : Nat} {pr : Nat × Txn} {chain : List Nat}
    {res : List Nat × Txn} (h : extendChain fuel pr chain = some res)
    (hwf : TxnWF pr.2) (hs : pr.1 < pr.2.nextId) (hne : chain ≠ [])
    (hc : List.Chain' (fun a b => a ∈ getInputs pr.2 b) chain)
    (hb : ∀ x ∈ chain, x < pr.2.nextId) :
    res.2 = pr.2 ∧ res.1 ≠ [] ∧
    List.Chain' (fun a b => a ∈ getInputs pr.2 b) res.1 ∧
    (∀ x ∈ res.1, x < pr.2.nextId) := by
  rw [extendChain] at h
  cases hg : getOps fuel pr.2 pr.1 (chain.getLastD 0) with
  | none => rw [hg] at h; exact absurd h (by simp)
  | some r =>
    rw [hg] at h
    cases r with
    | raised => exact absurd h (by simp)
    | ok l =>
      simp only [Option.some.injEq] at h
      obtain ⟨w, hw, hl⟩ := getOpsGo_ok fuel pr.2 [] pr.1 (chain.getLastD 0) l hg
      simp only [List.nil_append] at hl
      obtain ⟨hlink, hlast⟩ := firstInputChain_linked hw
      subst hl
      rw [← h]
      refine ⟨rfl, fun hc0 => hne (List.append_eq_nil.mp hc0).1, ?_, ?_⟩
      · rw [List.chain'_append]
        refine ⟨hc, hlink.tail, ?_⟩
        intro x hx y hy
        rw [getLast?_of_ne_nil chain 0 hne] at hx
        have hx' : chain.getLastD 0 = x := by simpa using hx
        have hey := (List.chain'_cons'.mp hlink).1 y hy
        rw [← hx']
        exact hey
      · intro x hx
        rcases List.mem_append.mp hx with h1 | h1
        · exact hb x h1
        · rw [List.mem_reverse] at h1
          exact firstInputChain_bounded hwf hw hs x h1

theorem appendFresh_spec (t : Txn) (hwf : TxnWF t) (chain : List Nat)
    (hne : chain ≠ [])
    (hc : List.Chain' (fun a b => a ∈ getInputs t b) chain)
    (hb : ∀ x ∈ chain, x < t.nextId) (ty : String) :
    TxnLE t (appendFresh t chain ty).2 ∧ TxnWF (appendFresh t chain ty).2 ∧
    (appendFresh t chain ty).1 ≠ [] ∧
    List.Chain' (fun a b => a ∈ getInputs (appendFresh t chain ty).2 b)
      (appendFresh t chain ty).1 ∧
    (∀ x ∈ (appendFresh t chain ty).1, x < (appendFresh t chain ty).2.nextId) := by
  have heq : appendFresh t chain ty = (chain ++ [t.nextId],
      ⟨t.nextId + 1, dictSet t.nextId [chain.getLastD 0] t.inputs,
        dictSet t.nextId ty t.args⟩) := rfl
  rw [heq]
  have hLE : TxnLE t ⟨t.nextId + 1, dictSet t.nextId [chain.getLastD 0] t.inputs,
      dictSet t.nextId ty t.args⟩ := by
    refine ⟨Nat.le_succ _, ?_⟩
    intro op hop
    show dictGet op (dictSet t.nextId [chain.getLastD 0] t.inputs) = dictGet op t.inputs
    rw [dictGet_dictSet, if_neg (fun h => absurd (h ▸ hop) (by omega))]
  refine ⟨hLE, ?_, fun hc0 => hne (List.append_eq_nil.mp hc0).1, ?_, ?_⟩
  · intro e he
    rcases mem_dictSet _ _ _ e he with h1 | h1
    · rw [h1]
      refine ⟨?_, ?_⟩
      · show t.nextId < t.nextId + 1
        omega
      · intro x hx
        rw [List.mem_singleton] at hx
        have := hb _ (getLastD_mem chain 0 hne)
        show x < t.nextId + 1
        omega
    · obtain ⟨hh1, hh2⟩ := hwf e h1
      refine ⟨?_, ?_⟩
      · show e.1 < t.nextId + 1
        omega
      · intro x hx
        have := hh2 x hx
        show x < t.nextId + 1
        omega
  · rw [List.chain'_append]
    refine ⟨chain_linked_mono hLE chain hb hc, List.chain'_singleton _, ?_⟩
    intro x hx y hy
    rw [getLast?_of_ne_nil chain 0 hne] at hx
    have hx' : chain.getLastD 0 = x := by simpa using hx
    have hy' : t.nextId = y := by simpa using hy
    rw [← hx', ← hy']
    show chain.getLastD 0 ∈ getInputs _ t.nextId
    rw [getInputs]
    show chain.getLastD 0 ∈
      (dictGet t.nextId (dictSet t.nextId [chain.getLastD 0] t.inputs)).getD []
    rw [dictGet_dictSet, if_pos rfl]
    simp
  · intro x hx
    rcases List.mem_append.mp hx with h1 | h1
    · have := hb x h1
      show x < t.nextId + 1
      omega
    · rw [List.mem_singleton] at h1
      rw [h1]
      show t.nextId < t.nextId + 1
      omega

end MoonrayRenderManager

namespace MoonrayRenderManager

open Kodachi

theorem applyIR_spec (oIR : Txn → Nat → Nat × Txn)
    (hIR : ∀ t : Txn, ∀ op : Nat, TxnWF t → op < t.nextId →
      TxnLE t (oIR t op).2 ∧ TxnWF (oIR t op).2 ∧
      (oIR t op).1 < (oIR t op).2.nextId)
    (doIsolate : Bool) (t : Txn) (op : Nat) (hwf : TxnWF t) (hop : op < t.nextId) :
    TxnLE t (applyImplicitResolvers oIR doIsolate t op).2 ∧
    TxnWF (applyImplicitResolvers oIR doIsolate t op).2 ∧
    (applyImplicitResolvers oIR doIsolate t op).1 <
      (applyImplicitResolvers oIR doIsolate t op).2.nextId := by
  obtain ⟨h1, h2, h3⟩ := hIR t op hwf hop
  cases doIsolate with
  | false => exact ⟨h1, h2, h3⟩
  | true =>
    have heq : applyImplicitResolvers oIR true t op =
        ((oIR t op).2.nextId,
         ⟨(oIR t op).2.nextId + 1,
          dictSet (oIR t op).2.nextId [(oIR t op).1] (oIR t op).2.inputs,
          dictSet (oIR t op).2.nextId "Isolate" (oIR t op).2.args⟩) := rfl
    rw [heq]
    refine ⟨?_, ?_, ?_⟩
    · refine txnLE_trans h1 ⟨Nat.le_succ _, ?_⟩
      intro op' hop'
      show dictGet op' (dictSet (oIR t op).2.nextId [(oIR t op).1]
        (oIR t op).2.inputs) = dictGet op' (oIR t op).2.inputs
      rw [dictGet_dictSet, if_neg (fun h => absurd (h ▸ hop') (by omega))]
    · intro e he
      rcases mem_dictSet _ _ _ e he with hm | hm
      · rw [hm]
        refine ⟨?_, ?_⟩
        · show (oIR t op).2.nextId < (oIR t op).2.nextId + 1
          omega
        · intro x hx
          rw [List.mem_singleton] at hx
          show x < (oIR t op).2.nextId + 1
          omega
      · obtain ⟨hh1, hh2⟩ := h2 e hm
        refine ⟨?_, ?_⟩
        · show e.1 < (oIR t op).2.nextId + 1
          omega
        · intro x hx
          have := hh2 x hx
          show x < (oIR t op).2.nextId + 1
          omega
    · show (oIR t op).2.nextId < (oIR t op).2.nextId + 1
      omega

theorem applyRenderOps_spec (renderIdPass : Bool) (t : Txn) (op : Nat)
    (hwf : TxnWF t) (hop : op < t.nextId) :
    TxnLE t (applyRenderOps renderIdPass t op).2 ∧
    TxnWF (applyRenderOps renderIdPass t op).2 ∧
    (applyRenderOps renderIdPass t op).1 <
      (applyRenderOps renderIdPass t op).2.nextId := by
  cases renderIdPass with
  | false =>
    have heq : applyRenderOps false t op =
        (t.nextId, ⟨t.nextId + 1, dictSet t.nextId [op] t.inputs,
          dictSet t.nextId "RenderSettingsDefaults" t.args⟩) := rfl
    rw [heq]
    refine ⟨⟨Nat.le_succ _, ?_⟩, ?_, ?_⟩
    · intro op' hop'
      show dictGet op' (dictSet t.nextId [op] t.inputs) = dictGet op' t.inputs
      rw [dictGet_dictSet, if_neg (fun h => absurd (h ▸ hop') (by omega))]
    · intro e he
      rcases mem_dictSet _ _ _ e he with hm | hm
      · rw [hm]
        refine ⟨?_, ?_⟩
        · show t.nextId < t.nextId + 1
          omega
        · intro x hx
          rw [List.mem_singleton] at hx
          show x < t.nextId + 1
          omega
      · obtain ⟨hh1, hh2⟩ := hwf e hm
        refine ⟨?_, ?_⟩
        · show e.1 < t.nextId + 1
          omega
        · intro x hx
          have := hh2 x hx
          show x < t.nextId + 1
          omega
    · show t.nextId < t.nextId + 1
      omega
  | true =>
    have heq : applyRenderOps true t op =
        (t.nextId + 1, ⟨t.nextId + 2,
          dictSet (t.nextId + 1) [t.nextId] (dictSet t.nextId [op] t.inputs),
          dictSet (t.nextId + 1) "AttributeSet"
            (dictSet t.nextId "RenderSettingsDefaults" t.args)⟩) := rfl
    rw [heq]
    refine ⟨⟨?_, ?_⟩, ?_, ?_⟩
    · show t.nextId ≤ t.nextId + 2
      omega
    · intro op' hop'
      show dictGet op' (dictSet (t.nextId + 1) [t.nextId]
        (dictSet t.nextId [op] t.inputs)) = dictGet op' t.inputs
      rw [dictGet_dictSet, if_neg (fun h => absurd (h ▸ hop') (by omega)),
        dictGet_dictSet, if_neg (fun h => absurd (h ▸ hop') (by omega))]
    · intro e he
      rcases mem_dictSet _ _ _ e he with hm | hm
      · rw [hm]
        refine ⟨?_, ?_⟩
        · show t.nextId + 1 < t.nextId + 2
          omega
        · intro x hx
          rw [List.mem_singleton] at hx
          show x < t.nextId + 2
          omega
      · rcases mem_dictSet _ _ _ e hm with hm2 | hm2
        · rw [hm2]
          refine ⟨?_, ?_⟩
          · show t.nextId < t.nextId + 2
            omega
          · intro x hx
            rw [List.mem_singleton] at hx
            show x < t.nextId + 2
            omega
        · obtain ⟨hh1, hh2⟩ := hwf e hm2
          refine ⟨?_, ?_⟩
          · show e.1 < t.nextId + 2
            omega
          · intro x hx
            have := hh2 x hx
            show x < t.nextId + 2
            omega
    · show t.nextId + 1 < t.nextId + 2
      omega

theorem applyTerminalOps_spec (oTerm : Txn → List Nat × Txn)
    (hTerm : ∀ t : Txn, TxnWF t →
      TxnLE t (oTerm t).2 ∧ TxnWF (oTerm t).2 ∧
      (∀ x ∈ (oTerm t).1, t.nextId ≤ x ∧ x < (oTerm t).2.nextId) ∧
      (oTerm t).1 ≠ [])
    (t : Txn) (op : Nat) (hwf : TxnWF t) (hop : op < t.nextId) :
    TxnLE t (applyTerminalOps oTerm t op).2 ∧
    TxnWF (applyTerminalOps oTerm t op).2 ∧
    (applyTerminalOps oTerm t op).1 < (applyTerminalOps oTerm t op).2.nextId := by
  obtain ⟨h1, h2, h3, h4⟩ := hTerm t hwf
  have hhead : (oTerm t).1.headI ∈ (oTerm t).1 := by
    cases hl : (oTerm t).1 with
    | nil => exact absurd hl h4
    | cons a r => simp
  have hheadb := h3 _ hhead
  have hlast : (oTerm t).1.getLastD 0 ∈ (oTerm t).1 := getLastD_mem _ 0 h4
  have hlastb := h3 _ hlast
  have heq : applyTerminalOps oTerm t op = ((oTerm t).1.getLastD 0,
      setOpInputs (oTerm t).2 (oTerm t).1.headI [op]) := rfl
  rw [heq]
  refine ⟨?_, ?_, ?_⟩
  · refine ⟨?_, ?_⟩
    · show t.nextId ≤ (oTerm t).2.nextId
      exact h1.1
    · intro op' hop'
      show dictGet op' (dictSet (oTerm t).1.headI [op] (oTerm t).2.inputs) =
        dictGet op' t.inputs
      rw [dictGet_dictSet, if_neg ?_]
      · exact h1.2 op' hop'
      · intro h
        have h5 := hheadb.1
        rw [h] at h5
        omega
  · refine txnWF_setOpInputs h2 _ _ hheadb.2 ?_
    intro x hx
    rw [List.mem_singleton] at hx
    rw [hx]
    exact lt_of_lt_of_le hop h1.1
  · show (oTerm t).1.getLastD 0 < (oTerm t).2.nextId
    exact hlastb.2

end MoonrayRenderManager

namespace MoonrayRenderManager

open Kodachi

/-- Context.buildOpChain produces an input-linked chain: every op after the
first has the immediately preceding list element among its inputs in the
final transaction. -/
theorem buildOpChain_linked
    (oIR : Txn → Nat → Nat × Txn) (oTerm : Txn → List Nat × Txn)
    (hIR : ∀ t : Txn, ∀ op : Nat, TxnWF t → op < t.nextId →
      TxnLE t (oIR t op).2 ∧ TxnWF (oIR t op).2 ∧
      (oIR t op).1 < (oIR t op).2.nextId)
    (hTerm : ∀ t : Txn, TxnWF t →
      TxnLE t (oTerm t).2 ∧ TxnWF (oTerm t).2 ∧
      (∀ x ∈ (oTerm t).1, t.nextId ≤ x ∧ x < (oTerm t).2.nextId) ∧
      (oTerm t).1 ≠ [])
    (doIsolate renderIdPass liveRender : Bool) (fuel : Nat)
    (chain : List Nat) (tf : Txn)
    (hbc : buildOpChain oIR oTerm doIsolate renderIdPass liveRender fuel =
      some (chain, tf)) :
    chain ≠ [] ∧ List.Chain' (fun a b => a ∈ getInputs tf b) chain := by
  simp only [buildOpChain, Option.bind_eq_some] at hbc
  obtain ⟨r1, hE1, r2, hE2, hE3⟩ := hbc
  have h0wf : TxnWF (setOpArgs (createOp ⟨0, [], []⟩).2 (createOp ⟨0, [], []⟩).1
      "AttributeSet") := fun e he => absurd he (List.not_mem_nil e)
  have h0op : (createOp (⟨0, [], []⟩ : Txn)).1 <
      (setOpArgs (createOp ⟨0, [], []⟩).2 (createOp ⟨0, [], []⟩).1
        "AttributeSet").nextId := by decide
  obtain ⟨hA1, hA2, hA3⟩ := applyIR_spec oIR hIR doIsolate _ _ h0wf h0op
  have hb0 : ∀ x ∈ [(createOp (⟨0, [], []⟩ : Txn)).1],
      x < (applyImplicitResolvers oIR doIsolate
        (setOpArgs (createOp ⟨0, [], []⟩).2 (createOp ⟨0, [], []⟩).1 "AttributeSet")
        (createOp ⟨0, [], []⟩).1).2.nextId := by
    intro x hx
    rw [List.mem_singleton] at hx
    rw [hx]
    exact lt_of_lt_of_le h0op hA1.1
  obtain ⟨hr1t, hr1ne, hr1c, hr1b⟩ := extendChain_spec hE1 hA2 hA3 (by simp)
    (List.chain'_singleton _) hb0
  have hr1wf : TxnWF r1.2 := by rw [hr1t]; exact hA2
  have hr1bn : ∀ x ∈ r1.1, x < r1.2.nextId := by
    intro x hx
    rw [hr1t]
    exact hr1b x hx
  have hr1cl : List.Chain' (fun a b => a ∈ getInputs r1.2 b) r1.1 := by
    rw [hr1t]
    exact hr1c
  have hlast1 : r1.1.getLastD 0 < r1.2.nextId := hr1bn _ (getLastD_mem _ 0 hr1ne)
  obtain ⟨hB1, hB2, hB3⟩ := applyRenderOps_spec renderIdPass r1.2
    (r1.1.getLastD 0) hr1wf hlast1
  obtain ⟨hr2t, hr2ne, hr2c, hr2b⟩ := extendChain_spec hE2 hB2 hB3 hr1ne
    (chain_linked_mono hB1 r1.1 hr1bn hr1cl)
    (fun x hx => lt_of_lt_of_le (hr1bn x hx) hB1.1)
  have hr2wf : TxnWF r2.2 := by rw [hr2t]; exact hB2
  have hr2bn : ∀ x ∈ r2.1, x < r2.2.nextId := by
    intro x hx
    rw [hr2t]
    exact hr2b x hx
  have hr2cl : List.Chain' (fun a b => a ∈ getInputs r2.2 b) r2.1 := by
    rw [hr2t]
    exact hr2c
  obtain ⟨hF1, hF2, hF3ne, hF3c, hF3b⟩ :=
    appendFresh_spec r2.2 hr2wf r2.1 hr2ne hr2cl hr2bn "AttributeSet"
  cases liveRender with
  | false =>
    have hE3' : extendChain fuel
        (applyTerminalOps oTerm (appendFresh r2.2 r2.1 "AttributeSet").2
          ((appendFresh r2.2 r2.1 "AttributeSet").1.getLastD 0))
        (appendFresh r2.2 r2.1 "AttributeSet").1 = some (chain, tf) := hE3
    obtain ⟨hT1, hT2, hT3⟩ := applyTerminalOps_spec oTerm hTerm _ _ hF2
      (hF3b _ (getLastD_mem _ 0 hF3ne))
    obtain ⟨hft, hfne, hfc, _⟩ := extendChain_spec hE3' hT2 hT3 hF3ne
      (chain_linked_mono hT1 _ hF3b hF3c)
      (fun x hx => lt_of_lt_of_le (hF3b x hx) hT1.1)
    refine ⟨hfne, ?_⟩
    rw [show tf = (applyTerminalOps oTerm (appendFresh r2.2 r2.1 "AttributeSet").2
      ((appendFresh r2.2 r2.1 "AttributeSet").1.getLastD 0)).2 from hft]
    exact hfc
  | true =>
    obtain ⟨hG1, hG2, hG3ne, hG3c, hG3b⟩ :=
      appendFresh_spec (appendFresh r2.2 r2.1 "AttributeSet").2 hF2
        (appendFresh r2.2 r2.1 "AttributeSet").1 hF3ne hF3c hF3b "no-op"
    have hE3' : extendChain fuel
        (applyTerminalOps oTerm
          (appendFresh (appendFresh r2.2 r2.1 "AttributeSet").2
            (appendFresh r2.2 r2.1 "AttributeSet").1 "no-op").2
          ((appendFresh (appendFresh r2.2 r2.1 "AttributeSet").2
            (appendFresh r2.2 r2.1 "AttributeSet").1 "no-op").1.getLastD 0))
        (appendFresh (appendFresh r2.2 r2.1 "AttributeSet").2
          (appendFresh r2.2 r2.1 "AttributeSet").1 "no-op").1 =
        some (chain, tf) := hE3
    obtain ⟨hT1, hT2, hT3⟩ := applyTerminalOps_spec oTerm hTerm _ _ hG2
      (hG3b _ (getLastD_mem _ 0 hG3ne))
    obtain ⟨hft, hfne, hfc, _⟩ := extendChain_spec hE3' hT2 hT3 hG3ne
      (chain_linked_mono hT1 _ hG3b hG3c)
      (fun x hx => lt_of_lt_of_le (hG3b x hx) hT1.1)
    refine ⟨hfne, ?_⟩
    rw [show tf = (applyTerminalOps oTerm
      (appendFresh (appendFresh r2.2 r2.1 "AttributeSet").2
        (appendFresh r2.2 r2.1 "AttributeSet").1 "no-op").2
      ((appendFresh (appendFresh r2.2 r2.1 "AttributeSet").2
        (appendFresh r2.2 r2.1 "AttributeSet").1 "no-op").1.getLastD 0)).2 from hft]
    exact hfc

end MoonrayRenderManager

namespace MoonrayRenderManager

open Kodachi

/-- **C8.** getOps(start, end) returns exactly the ops reached by following
first inputs from start, up to but excluding end, reversed into
upstream-to-downstream order; it raises when an op on the walk has no
inputs before end is reached; and buildOpChain (run with hosts that only
extend the transaction and whose returned ops belong to it) returns an
ordered op sequence in which every op after the first has the immediately
preceding list element among its inputs. -/
theorem opchain_order (fuel : Nat) :
    (∀ t : Txn, ∀ s e : Nat, ∀ l : List Nat,
      getOps fuel t s e = some (.ok l) → FirstInputChain t e s l.reverse) ∧
    (∀ t : Txn, ∀ s e : Nat,
      getOps fuel t s e = some .raised → WalkDead t e s) ∧
    (∀ oIR : Txn → Nat → Nat × Txn, ∀ oTerm : Txn → List Nat × Txn,
      (∀ t : Txn, ∀ op : Nat, TxnWF t → op < t.nextId →
        TxnLE t (oIR t op).2 ∧ TxnWF (oIR t op).2 ∧
        (oIR t op).1 < (oIR t op).2.nextId) →
      (∀ t : Txn, TxnWF t →
        TxnLE t (oTerm t).2 ∧ TxnWF (oTerm t).2 ∧
        (∀ x ∈ (oTerm t).1, t.nextId ≤ x ∧ x < (oTerm t).2.nextId) ∧
        (oTerm t).1 ≠ []) →
      ∀ doIsolate renderIdPass liveRender : Bool, ∀ chain : List Nat, ∀ tf : Txn,
        buildOpChain oIR oTerm doIsolate renderIdPass liveRender fuel =
          some (chain, tf) →
        chain ≠ [] ∧ List.Chain' (fun a b => a ∈ getInputs tf b) chain) := by
  refine ⟨?_, ?_, ?_⟩
  · intro t s e l h
    obtain ⟨w, hw, hl⟩ := getOpsGo_ok fuel t [] s e l h
    have hrev : l.reverse = w := by
      rw [hl]
      simp
    rw [hrev]
    exact hw
  · intro t s e h
    exact getOpsGo_raised fuel t [] s e h
  · intro oIR oTerm hIR hTerm doIsolate renderIdPass liveRender chain tf hbc
    exact buildOpChain_linked oIR oTerm hIR hTerm doIsolate renderIdPass
      liveRender fuel chain tf hbc

theorem opchain_order_witness :
    FirstInputChain (⟨3, [(2, [1]), (1, [0])], []⟩ : Txn) 0 2
      (List.reverse [1, 2]) ∧
    List.Chain' (fun a b => a ∈ getInputs
      (⟨4, [(1, [0]), (2, [1]), (3, [2])],
        [(0, "AttributeSet"), (1, "RenderSettingsDefaults"),
          (2, "AttributeSet")]⟩ : Txn) b) [0, 1, 2, 3] :=
  ⟨(opchain_order 5).1 ⟨3, [(2, [1]), (1, [0])], []⟩ 2 0 [1, 2] (by decide),
   ((opchain_order 5).2.2 (fun t op => (op, t))
      (fun t => ([t.nextId], ⟨t.nextId + 1, t.inputs, t.args⟩))
      (fun t op hwf hop => ⟨txnLE_refl t, hwf, hop⟩)
      (fun t hwf =>
        ⟨⟨Nat.le_succ _, fun op hop => rfl⟩,
         fun e he => ⟨by
            have := (hwf e he).1
            show e.1 < t.nextId + 1
            omega,
          fun x hx => by
            have := (hwf e he).2 x hx
            show x < t.nextId + 1
            omega⟩,
         fun x hx => by
            rw [List.mem_singleton] at hx
            subst hx
            exact ⟨le_refl _, by show t.nextId < t.nextId + 1; omega⟩,
         by simp⟩)
      false false false [0, 1, 2, 3]
      ⟨4, [(1, [0]), (2, [1]), (3, [2])],
        [(0, "AttributeSet"), (1, "RenderSettingsDefaults"),
          (2, "AttributeSet")]⟩
      (by decide)).2⟩

end MoonrayRenderManager
